import Mathlib

/-!
# Remote file server: the protocol engine of `server.c`

A shallow embedding of `src/server/server.c` (`recv_line`, `ensure_directories`,
`write_meta_file`, `read_meta_file`, `xor_data`, `handle_client`) and of the
line reader of `src/client/rfs.c`, followed by the properties of the wire
protocol proved about it.

## The model of the environment

* A byte is a `Nat`; a C string is the list of bytes before the first NUL.
* A socket is the list of segments the transport will still deliver.  A
  `recv` for `len` bytes returns at most `len` bytes and never more than the
  rest of the current segment, so every way in which `recv` may split a byte
  stream is one choice of segments.  When the segments are used up the peer
  has closed (`recv` returns `0`) or the connection has failed (`-1`).
* `send` transmits its whole buffer; the bytes sent are collected in `output`.
* The file calls of the C library are a parameter, `OS`.  What is proved for
  every `OS` (the parsing, the rejections, the mutex discipline) holds
  whatever these calls do, failures included.
* `posix` is the `OS` used for the functional properties: a tree of
  directories and regular files with a working directory.  A path string is
  resolved as the kernel does it: empty components are skipped, `.` and `..`
  are followed, every component but the last must name a directory, a name of
  more than `NAME_MAX` bytes is refused.  `fopen` for writing fails on a
  directory, on a path ending in a slash and when the directory of the file
  is missing; `fopen` for reading succeeds on a directory, whose reads then
  fail; `remove` unlinks a regular file and removes an empty directory.
  The tree holds no symbolic or hard links, the process may search and write
  every directory, names are compared byte by byte, and no call fails for
  lack of space or of descriptors.
* The loops over `bytes_remaining` take a bound on their iterations; the
  handler passes `file_size`, and each iteration that continues moves at
  least one byte.
* Every call on the mutex, on a data file or on a permission record is
  recorded, in program order, in the `trace` of the world.
-/

namespace Server

/-- The bytes of a string literal. -/
def bytes (s : String) : List Nat := s.toList.map Char.toNat

abbrev Path := List Nat

/-! ## Sockets -/

/-- One end of a TCP connection as the handler sees it. -/
structure Conn where
  /-- segments still to be delivered, in order -/
  input : List (List Nat)
  /-- whether the stream ends with an error rather than an orderly shutdown -/
  err : Bool
  /-- bytes handed to `send` so far -/
  output : List Nat
  /-- whether `close` was called -/
  closed : Bool
deriving DecidableEq, Repr

/-- The bytes that will still arrive, whatever the segmentation. -/
def Conn.stream (c : Conn) : List Nat := c.input.flatten

/-- Data of one `recv` call and the segments left: empty segments carry
nothing, otherwise at most `len` bytes of the first segment are returned. -/
def recvSegs : List (List Nat) → Nat → List Nat × List (List Nat)
  | [], _ => ([], [])
  | seg :: rest, len =>
    if seg = [] then recvSegs rest len
    else (seg.take len, seg.drop len :: rest)

/-- Model of `recv(sock, buf, len, 0)`: return value, bytes stored, socket after. -/
def recv (sock : Conn) (len : Nat) : Int × List Nat × Conn :=
  let r := recvSegs sock.input len
  if r.1 = [] then
    ((if r.2 = [] ∧ sock.err = true then -1 else 0), [], { sock with input := r.2 })
  else ((r.1.length : Int), r.1, { sock with input := r.2 })

/-- Model of `send(sock, data, len, 0)`. -/
def send (sock : Conn) (data : List Nat) : Conn :=
  { sock with output := sock.output ++ data }

/-! ## Transport line reader (`recv_line`, server.c 24-39) -/

/-- The `while (total < maxlen - 1)` loop of `recv_line`; the first argument
is `maxlen - 1 - total`, the number of iterations the loop condition still
allows. -/
def recv_line_loop : Nat → Conn → List Nat → Nat → Conn × List Nat × Nat
  | 0, sock, buf, total => (sock, buf, total)
  | k + 1, sock, buf, total =>
    let r := recv sock 1
    if r.1 ≤ 0 then (r.2.2, buf, total)
    else
      let c := r.2.1.headD 0
      let buf1 := buf.set total c
      if c = 10 then (r.2.2, buf1, total + 1)
      else recv_line_loop k r.2.2 buf1 (total + 1)

/-- `int recv_line(int sock, char *buf, int maxlen)`: the count returned, the
buffer and the socket afterwards. -/
def recv_line (sock : Conn) (buf : List Nat) (maxlen : Nat) : Nat × List Nat × Conn :=
  let r := recv_line_loop (maxlen - 1) sock buf 0
  (r.2.2, r.2.1.set r.2.2 0, r.1)

end Server

namespace Client

/-- The `while` loop of the client's copy of `recv_line` (rfs.c 14-29). -/
def recv_line_loop : Nat → Server.Conn → List Nat → Nat → Server.Conn × List Nat × Nat
  | 0, sock, buf, total => (sock, buf, total)
  | k + 1, sock, buf, total =>
    let r := Server.recv sock 1
    if r.1 ≤ 0 then (r.2.2, buf, total)
    else
      let c := r.2.1.headD 0
      let buf1 := buf.set total c
      if c = 10 then (r.2.2, buf1, total + 1)
      else recv_line_loop k r.2.2 buf1 (total + 1)

/-- The client's `recv_line`. -/
def recv_line (sock : Server.Conn) (buf : List Nat) (maxlen : Nat) :
    Nat × List Nat × Server.Conn :=
  let r := recv_line_loop (maxlen - 1) sock buf 0
  (r.2.2, r.2.1.set r.2.2 0, r.1)

end Client

namespace Server

/-! ## C library string functions used by the handler -/

/-- A `char` array of `size` bytes; what it holds before it is written does
not matter to the handler, which reads only the C strings stored in it. -/
def buffer (size : Nat) : List Nat := List.replicate size 0

/-- The C string held in a buffer: the bytes before the first NUL. -/
def cstr (buf : List Nat) : List Nat := buf.takeWhile (fun b => b ≠ 0)

/-- Model of `snprintf(buf, size, ...)` for an output that would be `s`: at
most `size - 1` bytes are stored. -/
def snprintf (size : Nat) (s : List Nat) : List Nat := s.take (size - 1)

/-- The delimiter set `" \n"` of every `strtok` call in `handle_client`. -/
def DELIM : List Nat := [32, 10]

/-- Model of `strtok(s, delim)`: the next token, if any, and the saved
position from which `strtok(NULL, delim)` continues. -/
def strtok (s : List Nat) (delim : List Nat) : Option (List Nat) × List Nat :=
  let s1 := s.dropWhile (fun b => b ∈ delim)
  if s1 = [] then (none, [])
  else (some (s1.takeWhile (fun b => b ∉ delim)), (s1.dropWhile (fun b => b ∉ delim)).drop 1)

/-- The C locale's `isspace`. -/
def isspace (b : Nat) : Bool := b = 32 ∨ (9 ≤ b ∧ b ≤ 13)

/-- The C locale's `isdigit`. -/
def isdigit (b : Nat) : Bool := 48 ≤ b ∧ b ≤ 57

/-- Value of the longest prefix of decimal digits, continuing from `acc`. -/
def digitsValue : Nat → List Nat → Nat
  | acc, [] => acc
  | acc, b :: rest => if isdigit b then digitsValue (acc * 10 + (b - 48)) rest else acc

def LONG_MAX : Int := 2 ^ 63 - 1

def LONG_MIN : Int := -(2 ^ 63)

/-- Value of an optional sign followed by digits. -/
def signedValue : List Nat → Int
  | 45 :: t => -(digitsValue 0 t : Int)
  | 43 :: t => (digitsValue 0 t : Int)
  | s => (digitsValue 0 s : Int)

/-- A value brought into the range of `long`. -/
def clampLong (v : Int) : Int :=
  if v > LONG_MAX then LONG_MAX else if v < LONG_MIN then LONG_MIN else v

/-- Model of `atol` (glibc: `strtol(s, NULL, 10)`): leading white space is
skipped, one optional sign is read, then the longest run of digits; no digits
give `0`, a value out of the range of `long` gives `LONG_MAX` or `LONG_MIN`. -/
def atol (s : List Nat) : Int := clampLong (signedValue (s.dropWhile isspace))

/-- Decimal digits of `n`, most significant first; the first argument bounds
the number of digits. -/
def decimalDigits : Nat → Nat → List Nat
  | 0, _ => []
  | fuel + 1, n => if n < 10 then [48 + n] else decimalDigits fuel (n / 10) ++ [48 + n % 10]

/-- The text `printf("%ld", n)` produces for a non-negative `n`. -/
def decimal (n : Nat) : List Nat := decimalDigits (n + 1) n

/-- The text `printf("%ld", n)` produces. -/
def printLong (n : Int) : List Nat :=
  if n < 0 then 45 :: decimal n.natAbs else decimal n.toNat

/-- Path without its trailing slashes. -/
def stripSlashes (s : List Nat) : List Nat := (s.reverse.dropWhile (fun b => b = 47)).reverse

/-- Index of the last `'/'` of a path (`strrchr`). -/
def lastSlash (s : List Nat) : Option Nat :=
  if 47 ∈ s then some ((s.reverse.dropWhile (fun b => b ≠ 47)).length - 1) else none

/-- Model of glibc's `dirname`. -/
def dirname (path : List Nat) : List Nat :=
  let ls0 := lastSlash path
  let ls1 :=
    match ls0 with
    | some i =>
      if i ≠ 0 ∧ i + 1 = path.length then
        let runp := (stripSlashes (path.take i)).length
        if runp ≠ 0 then lastSlash (path.take runp) else ls0
      else ls0
    | none => none
  match ls1 with
  | none => [46]
  | some i =>
    let runp := (stripSlashes (path.take i)).length
    if runp = 0 then (if i = 1 then path.take 2 else path.take 1) else path.take runp

/-- Tokens of a line: the maximal runs of bytes that are not in `delim`;
`cur` is the token being read. -/
def tokensAux (delim : List Nat) : List Nat → List Nat → List (List Nat)
  | cur, [] => if cur = [] then [] else [cur]
  | cur, b :: rest =>
    if b ∈ delim then (if cur = [] then tokensAux delim [] rest else cur :: tokensAux delim [] rest)
    else tokensAux delim (cur ++ [b]) rest

def tokens (delim : List Nat) (line : List Nat) : List (List Nat) := tokensAux delim [] line

/-! ## The file system interface and the world of a handler -/

/-- A stream opened for reading: over a regular file it delivers the bytes
of the file; over a directory `fopen` succeeds but every read fails, and
`size` is what `ftell` reports after `fseek(f, 0, SEEK_END)`. -/
inductive Handle where
  | regular (content : List Nat)
  | directory (size : Int)
deriving DecidableEq, Repr

/-- `ftell(f)` after `fseek(f, 0, SEEK_END)`. -/
def ftell : Handle → Int
  | Handle.regular content => (content.length : Int)
  | Handle.directory size => size

/-- `fgetc(f)` on a stream just opened, stored in a `char`: the first byte,
and `EOF`, which as a `char` is `255`, at end of file or when the read fails. -/
def fgetc : Handle → Nat
  | Handle.regular content => content.headD 255
  | Handle.directory _ => 255

/-- `fread(buffer, 1, chunk, f)`: the bytes read and the stream afterwards,
`none` when nothing is read and the error indicator is set. -/
def fread : Handle → Nat → Option (List Nat × Handle)
  | Handle.regular content, chunk => some (content.take chunk, Handle.regular (content.drop chunk))
  | Handle.directory _, _ => none

/-- The file calls of the C library, over a file-system state `σ`. -/
structure OS (σ : Type) where
  /-- `mkdir(path, 0777)`; its result is ignored by the program -/
  mkdir : σ → Path → σ
  /-- `fopen(path, "r")`/`"rb"`: the stream a reader gets, `none` on failure -/
  fopen_r : σ → Path → Option Handle
  /-- `fopen(path, "w")`/`"wb"`: the file is created or truncated, `none` on failure -/
  fopen_w : σ → Path → Option σ
  /-- `fwrite`/`fputc` on a file opened for writing: the bytes are appended -/
  fwrite : σ → Path → List Nat → σ
  /-- `remove(path)`: `none` on failure -/
  remove : σ → Path → Option σ

/-- Calls on the mutex and on the storage tree made by a handler. -/
inductive Event where
  | lock
  | unlock
  | ensure_dirs (remote_path : Path)
  | meta_read (full_path : Path)
  | meta_write (full_path : Path)
  | meta_remove (full_path : Path)
  | data_open (full_path : Path)
  | data_write (full_path : Path)
  | data_read (full_path : Path)
  | data_close (full_path : Path)
  | data_remove (full_path : Path)
deriving DecidableEq, Repr

/-- State a handler runs in: the storage tree, its socket, the calls made. -/
structure World (σ : Type) where
  fs : σ
  sock : Conn
  trace : List Event

variable {σ : Type}

def World.log (w : World σ) (e : Event) : World σ := { w with trace := w.trace ++ [e] }

def World.send (w : World σ) (data : List Nat) : World σ :=
  { w with sock := Server.send w.sock data }

def World.close (w : World σ) : World σ := { w with sock := { w.sock with closed := true } }

/-! ## Helpers of server.c -/

def SERVER_ROOT : List Nat := bytes "server_root"

def XOR_KEY : Nat := 0xAA

/-- `void xor_data(char *data, size_t len)` (server.c 91-95). -/
def xor_data (data : List Nat) (len : Nat) : List Nat :=
  (data.take len).map (fun b => b ^^^ XOR_KEY) ++ data.drop len

/-- `int ensure_directories(const char *remote_path)` (server.c 43-61): the
file system after its `mkdir` calls. -/
def ensure_directories (os : OS σ) (fs : σ) (remote_path : Path) : σ :=
  let dir := dirname remote_path
  let full_path := snprintf 1024 (SERVER_ROOT ++ [47] ++ dir)
  let fs1 := (List.range full_path.length).foldl
    (fun fs i =>
      if SERVER_ROOT.length + 1 ≤ i ∧ full_path.get? i = some 47 then
        os.mkdir fs (full_path.take i)
      else fs) fs
  os.mkdir fs1 full_path

/-- `int write_meta_file(const char *full_path, char permission)` (server.c
64-73): the file system afterwards and the value returned. -/
def write_meta_file (os : OS σ) (fs : σ) (full_path : Path) (permission : Nat) : σ × Int :=
  let meta_path := snprintf 1100 (full_path ++ bytes ".meta")
  match os.fopen_w fs meta_path with
  | none => (fs, -1)
  | some fs1 => (os.fwrite fs1 meta_path [permission], 0)

/-- `char read_meta_file(const char *full_path)` (server.c 76-88). -/
def read_meta_file (os : OS σ) (fs : σ) (full_path : Path) : Nat :=
  let meta_path := snprintf 1100 (full_path ++ bytes ".meta")
  match os.fopen_r fs meta_path with
  | none => 87
  | some m =>
    let perm := fgetc m
    if perm ≠ 82 ∧ perm ≠ 87 then 87 else perm

/-! ## `handle_client` (server.c 98-261) -/

/-- The permission a WRITE stores for the token `perm_str` (server.c
122-125): `permission = 'W'`, replaced by `perm_str[0]` when that is `R` or `W`. -/
def permissionOf : Option (List Nat) → Nat
  | some (c :: _) => if c = 82 ∨ c = 87 then c else 87
  | _ => 87

/-- The `while (bytes_remaining > 0)` loop of the WRITE branch (server.c
165-177).  The first argument bounds the iterations; every iteration that
continues receives at least one byte, so `file_size` iterations suffice. -/
def write_body (os : OS σ) (full_path : Path) : Nat → Nat → World σ → World σ
  | 0, _, w => w
  | fuel + 1, bytes_remaining, w =>
    if bytes_remaining > 0 then
      let chunk := if bytes_remaining > 1024 then 1024 else bytes_remaining
      let r := recv w.sock chunk
      if r.1 ≤ 0 then { w with sock := r.2.2 }
      else
        let received := r.1.toNat
        let buffer := xor_data r.2.1 received
        let w1 : World σ :=
          { fs := os.fwrite w.fs full_path (buffer.take received),
            sock := r.2.2,
            trace := w.trace ++ [Event.data_write full_path] }
        write_body os full_path fuel (bytes_remaining - received) w1
    else w

/-- The WRITE branch (server.c 120-187); `saved` is the position `strtok`
has reached after the path. -/
def handle_write (os : OS σ) (w : World σ) (remote_path : Path) (saved : List Nat) : World σ :=
  let perm_str := (strtok saved DELIM).1
  let permission := permissionOf perm_str
  let r := recv_line w.sock (buffer 64) 64
  let w1 : World σ := { w with sock := r.2.2 }
  if r.1 ≤ 0 then w1.close
  else
    let file_size := atol (cstr r.2.1)
    if file_size ≤ 0 then w1.close
    else
      let w2 : World σ :=
        ({ w1 with fs := ensure_directories os w1.fs remote_path }).log
          (Event.ensure_dirs remote_path)
      let full_path := snprintf 1024 (SERVER_ROOT ++ [47] ++ remote_path)
      let w3 := (w2.log Event.lock).log (Event.meta_read full_path)
      let existing_perm := read_meta_file os w3.fs full_path
      if existing_perm = 82 then
        (((w3.log Event.unlock).send (bytes "ERROR: File is read-only\n"))).close
      else
        let w4 := w3.log (Event.data_open full_path)
        match os.fopen_w w4.fs full_path with
        | none => (w4.log Event.unlock).close
        | some fs1 =>
          let w5 :=
            write_body os full_path file_size.toNat file_size.toNat { w4 with fs := fs1 }
          let w6 := (w5.log (Event.data_close full_path)).log (Event.meta_write full_path)
          let w7 : World σ :=
            { w6 with fs := (write_meta_file os w6.fs full_path permission).1 }
          (((w7.log Event.unlock).send (bytes "OK\n"))).close

/-- The `while (bytes_remaining > 0)` loop of the GET branch (server.c
212-222) over the open stream.  `fread` on a regular file returns the next
`chunk` bytes; when it returns nothing with the error indicator set the loop
is left.  The first argument bounds the iterations. -/
def get_body (full_path : Path) : Nat → Nat → Handle → World σ → World σ
  | 0, _, _, w => w
  | fuel + 1, bytes_remaining, f, w =>
    if bytes_remaining > 0 then
      let chunk := if bytes_remaining > 1024 then 1024 else bytes_remaining
      let w1 := w.log (Event.data_read full_path)
      match fread f chunk with
      | none => w1
      | some r =>
        let read_bytes := r.1.length
        let buffer1 := xor_data r.1 read_bytes
        let w2 := w1.send (buffer1.take read_bytes)
        get_body full_path fuel (bytes_remaining - read_bytes) r.2 w2
    else w

/-- The GET branch (server.c 188-225). -/
def handle_get (os : OS σ) (w : World σ) (remote_path : Path) : World σ :=
  let full_path := snprintf 1024 (SERVER_ROOT ++ [47] ++ remote_path)
  let w1 := (w.log Event.lock).log (Event.data_open full_path)
  match os.fopen_r w1.fs full_path with
  | none => (((w1.log Event.unlock).send (bytes "ERROR\n"))).close
  | some f =>
    let file_size := ftell f
    let size_line := snprintf 64 (printLong file_size ++ [10])
    let w2 := w1.send size_line
    let w3 := get_body full_path file_size.toNat file_size.toNat f w2
    ((w3.log (Event.data_close full_path)).log Event.unlock).close

/-- The RM branch (server.c 227-253). -/
def handle_rm (os : OS σ) (w : World σ) (remote_path : Path) : World σ :=
  let full_path := snprintf 1024 (SERVER_ROOT ++ [47] ++ remote_path)
  let w1 := (w.log Event.lock).log (Event.meta_read full_path)
  let file_perm := read_meta_file os w1.fs full_path
  if file_perm = 82 then
    (((w1.log Event.unlock).send (bytes "ERROR\n"))).close
  else
    let w2 := w1.log (Event.data_remove full_path)
    match os.remove w2.fs full_path with
    | some fs1 =>
      let meta_path := snprintf 1100 (full_path ++ bytes ".meta")
      let w3 : World σ := ({ w2 with fs := fs1 }).log (Event.meta_remove full_path)
      let w4 : World σ := { w3 with fs := (os.remove w3.fs meta_path).getD w3.fs }
      (((w4.log Event.unlock).send (bytes "OK\n"))).close
    | none => (((w2.log Event.unlock).send (bytes "ERROR\n"))).close

/-- `void handle_client(int client_sock)`: the world after one connection
has been served. -/
def handle_client (os : OS σ) (w : World σ) : World σ :=
  let r := recv_line w.sock (buffer 1024) 1024
  let w1 : World σ := { w with sock := r.2.2 }
  if r.1 ≤ 0 then w1.close
  else
    let t1 := strtok (cstr r.2.1) DELIM
    let t2 := strtok t1.2 DELIM
    match t1.1, t2.1 with
    | some cmd, some remote_path =>
      if cmd = bytes "WRITE" then handle_write os w1 remote_path t2.2
      else if cmd = bytes "GET" then handle_get os w1 remote_path
      else if cmd = bytes "RM" then handle_rm os w1 remote_path
      else (w1.send (bytes "ERROR: Unrecognized command\n")).close
    | _, _ => (w1.send (bytes "ERROR: Missing command or path\n")).close

/-! ## The file system: a tree of directories and regular files -/

abbrev Name := List Nat

/-- A place in the tree: the names on the way down from the root, which is `[]`. -/
abbrev Loc := List Name

/-- What a place holds. -/
inductive Node where
  | file (content : List Nat)
  | dir
deriving DecidableEq, Repr

/-- The tree, the working directory of the server process, and what `ftell`
reports at the end of an open directory (file systems differ in it). -/
structure FS where
  nodes : List (Loc × Node)
  cwd : Loc
  dirSize : Int
deriving DecidableEq, Repr

/-- The longest name a directory entry may have. -/
def NAME_MAX : Nat := 255

def lookupNode : List (Loc × Node) → Loc → Option Node
  | [], _ => none
  | e :: rest, l => if e.1 = l then some e.2 else lookupNode rest l

/-- What a place holds; the root is always a directory. -/
def nodeAt (fs : FS) (l : Loc) : Option Node :=
  if l = [] then some Node.dir else lookupNode fs.nodes l

def isDir (fs : FS) (l : Loc) : Bool := decide (nodeAt fs l = some Node.dir)

/-- The tree without the entry at `l`. -/
def del (fs : FS) (l : Loc) : FS := { fs with nodes := fs.nodes.filter (fun e => e.1 ≠ l) }

/-- The tree with `n` at `l`, in place of what was there. -/
def put (fs : FS) (l : Loc) (n : Node) : FS :=
  { fs with nodes := (l, n) :: fs.nodes.filter (fun e => e.1 ≠ l) }

/-- Whether anything lies below `l`. -/
def hasEntries (fs : FS) (l : Loc) : Bool :=
  fs.nodes.any (fun e => decide (l <+: e.1 ∧ e.1 ≠ l))

/-- The names `.` and `..`. -/
def isDot (c : Name) : Bool := decide (c = [46] ∨ c = [46, 46])

/-- The place reached from `cur` by the component `c`. -/
def step (cur : Loc) (c : Name) : Loc :=
  if c = [46] then cur else if c = [46, 46] then cur.dropLast else cur ++ [c]

/-- Path resolution through the components before the last: each is looked up
in a directory (`ENOTDIR`, `ENOENT` otherwise) and is no longer than
`NAME_MAX` (`ENAMETOOLONG`); the place reached must be a directory too. -/
def walk (fs : FS) : Loc → List Name → Option Loc
  | cur, [] => if isDir fs cur then some cur else none
  | cur, c :: rest =>
    if c.length ≤ NAME_MAX ∧ isDir fs cur then walk fs (step cur c) rest else none

/-- The outcome of resolving a path: the place it names, whether it can only
name a directory (it ends in a slash, in `.` or in `..`), and whether its last
component is `.` or `..` (or the path is the root). -/
structure Target where
  loc : Loc
  dirOnly : Bool
  dot : Bool
deriving DecidableEq, Repr

/-- Path resolution: the components are the runs between slashes; a path
beginning with a slash starts at the root, any other at the working
directory.  `none` is `ENOENT`, `ENOTDIR` or `ENAMETOOLONG`. -/
def resolve (fs : FS) (path : Path) : Option Target :=
  if path = [] then none
  else
    let comps := tokens [47] path
    let start := if path.head? = some 47 then [] else fs.cwd
    match walk fs start comps.dropLast with
    | none => none
    | some parent =>
      match comps.getLast? with
      | none => some ⟨parent, true, true⟩
      | some final =>
        if NAME_MAX < final.length then none
        else
          some ⟨step parent final, isDot final || decide (path.getLast? = some 47), isDot final⟩

/-- `mkdir(path, 0777)`: a directory is made where the path names nothing;
otherwise (`EEXIST`, or the path does not resolve) nothing changes. -/
def mkdir (fs : FS) (path : Path) : FS :=
  match resolve fs path with
  | none => fs
  | some t => if t.dot = true ∨ (nodeAt fs t.loc).isSome = true then fs else put fs t.loc Node.dir

/-- `fopen(path, "r")`: fails where the path names nothing or names a regular
file by a path that ends in a slash; succeeds on a directory. -/
def fopen_r (fs : FS) (path : Path) : Option Handle :=
  match resolve fs path with
  | none => none
  | some t =>
    match nodeAt fs t.loc with
    | none => none
    | some Node.dir => some (Handle.directory fs.dirSize)
    | some (Node.file content) => if t.dirOnly = true then none else some (Handle.regular content)

/-- `fopen(path, "w")`: fails on a directory (`EISDIR`) and on a path that
ends in a slash, in `.` or in `..`; otherwise the file is created empty or
truncated. -/
def fopen_w (fs : FS) (path : Path) : Option FS :=
  match resolve fs path with
  | none => none
  | some t =>
    if t.dirOnly = true ∨ isDir fs t.loc = true then none else some (put fs t.loc (Node.file []))

/-- `fwrite` on the file opened for writing at `path`: the bytes are appended. -/
def fwrite (fs : FS) (path : Path) (data : List Nat) : FS :=
  match resolve fs path with
  | none => fs
  | some t =>
    match nodeAt fs t.loc with
    | some (Node.file content) => put fs t.loc (Node.file (content ++ data))
    | _ => fs

/-- `remove(path)` (glibc: `unlink`, and `rmdir` when that fails with
`EISDIR`): a regular file is unlinked unless the path ends in a slash; a
directory is removed when it is empty and the path does not end in `.` or
`..`. -/
def remove (fs : FS) (path : Path) : Option FS :=
  match resolve fs path with
  | none => none
  | some t =>
    if t.dot = true then none
    else
      match nodeAt fs t.loc with
      | none => none
      | some (Node.file _) => if t.dirOnly = true then none else some (del fs t.loc)
      | some Node.dir => if hasEntries fs t.loc = true then none else some (del fs t.loc)

/-- The file calls on the tree. -/
def posix : OS FS where
  mkdir := mkdir
  fopen_r := fopen_r
  fopen_w := fopen_w
  fwrite := fwrite
  remove := remove

/-- A disk that holds one empty directory, `srv`, the working directory of
the server. -/
def emptyDisk : FS := ⟨[([bytes "srv"], Node.dir)], [bytes "srv"], 4096⟩

/-- The storage as `main` leaves it before it accepts connections:
`mkdir(SERVER_ROOT, 0777)` (server.c 273). -/
def fresh : FS := posix.mkdir emptyDisk SERVER_ROOT

/-- A connection as accepted: nothing has been sent on it yet. -/
def connect (segs : List (List Nat)) (err : Bool) : Conn := ⟨segs, err, [], false⟩

/-- A `strtok` token: not empty and free of NUL, newline and space. -/
def isToken (t : List Nat) : Bool :=
  !t.isEmpty && t.all (fun b => b != 0 && b != 10 && b != 32)

/-- The optional permission argument of a WRITE command line. -/
def permTail : Option (List Nat) → List Nat
  | none => []
  | some t => 32 :: t

/-- Command line `WRITE <path> [<perm>]` (rfs.c 94 sends it with one
permission character). -/
def WRITE_line (p : Path) (perm : Option (List Nat)) : List Nat :=
  bytes "WRITE " ++ p ++ permTail perm ++ [10]

/-- Command line `GET <path>` (rfs.c 163). -/
def GET_line (p : Path) : List Nat := bytes "GET " ++ p ++ [10]

/-- Command line `RM <path>` (rfs.c 243). -/
def RM_line (p : Path) : List Nat := bytes "RM " ++ p ++ [10]

/-- Size line `"%ld\n"` for a size `n` (rfs.c 99). -/
def SIZE_line (n : Nat) : List Nat := decimal n ++ [10]

/-- Whether a WRITE command line is one the handler reads and parses in
whole: path and permission are tokens and the line fits `line[1024]`. -/
def wellFormed (p : Path) (perm : Option (List Nat)) : Bool :=
  isToken p && (match perm with | none => true | some t => isToken t) &&
    decide ((WRITE_line p perm).length ≤ 1023)

/-- The path `snprintf(full_path, ..., "%s/%s", SERVER_ROOT, remote_path)` yields. -/
def full_path (remote_path : Path) : Path := snprintf 1024 (SERVER_ROOT ++ [47] ++ remote_path)

/-- The sidecar path `snprintf(meta_path, ..., "%s.meta", full_path)` yields. -/
def meta_path (full_path : Path) : Path := snprintf 1100 (full_path ++ bytes ".meta")

/-- The first line of a connection as `handle_client` reads it: the count
returned by `recv_line` and the buffer. -/
def firstLine (sock : Conn) : Nat × List Nat :=
  let r := recv_line sock (buffer 1024) 1024
  (r.1, r.2.1.take r.1)

/-- The size line of a WRITE as `handle_client` reads it: the C string in
`size_line` after the second `recv_line`. -/
def sizeLine (sock : Conn) : List Nat :=
  let r := recv_line sock (buffer 1024) 1024
  cstr (recv_line r.2.2 (buffer 64) 64).2.1

/-- Command and path of a request as `handle_client` parses them from the
first line, `none` when it finds no line or fewer than two tokens. -/
def request (sock : Conn) : Option (List Nat × Path) :=
  let r := recv_line sock (buffer 1024) 1024
  if r.1 ≤ 0 then none
  else
    let t1 := strtok (cstr r.2.1) DELIM
    let t2 := strtok t1.2 DELIM
    match t1.1, t2.1 with
    | some cmd, some remote_path => some (cmd, remote_path)
    | _, _ => none

/-- One connection served by a fresh handler on the storage `fs`. -/
def serve (fs : FS) (sock : Conn) : World FS := handle_client posix ⟨fs, sock, []⟩

/-- Connections served one after the other: the storage at the end and the
bytes sent on each connection. -/
def serveAll (fs : FS) : List Conn → FS × List (List Nat)
  | [] => (fs, [])
  | sock :: rest =>
    let r := serveAll (serve fs sock).fs rest
    (r.1, (serve fs sock).sock.output :: r.2)

/-- The segments carry a well-formed WRITE addressed to `p`, with any
permission argument, the size line of any positive size and any bytes after it. -/
def WriteTo (p : Path) (segs : List (List Nat)) : Prop :=
  ∃ (perm : Option (List Nat)) (n : Nat) (rest : List Nat),
    wellFormed p perm = true ∧ 0 < n ∧
      segs.flatten = WRITE_line p perm ++ SIZE_line n ++ rest

/-- The segments carry a well-formed RM of `p`. -/
def RmOf (p : Path) (segs : List (List Nat)) : Prop :=
  isToken p = true ∧ (RM_line p).length ≤ 1023 ∧ segs.flatten = RM_line p

/-- White space of the C locale: space, tab, newline, vertical tab, form feed,
carriage return. -/
def WHITESPACE : List Nat := [32, 9, 10, 11, 12, 13]

/-- Whether a size line is the base-10 representation of a positive integer:
digits only up to the newline, at least one, value above zero. -/
def isPositiveDecimal (line : List Nat) : Bool :=
  let body := line.takeWhile (fun b => b ≠ 10)
  !body.isEmpty && body.all isdigit && decide (0 < digitsValue 0 body) &&
    (line.drop body.length == [10] || line.drop body.length == [])

/-- Whether a WRITE to `p` served on `fs` gets past its permission check
(server.c 148-149): the record read once the directories of the path are
made (142) is not `R`. -/
def passesCheck (fs : FS) (p : Path) : Bool :=
  decide (read_meta_file posix (ensure_directories posix fs p) (full_path p) ≠ 82)

/-- Whether a WRITE to `p` served on `fs` opens its data file (server.c 157),
the directories of the path made. -/
def opensData (fs : FS) (p : Path) : Bool :=
  (posix.fopen_w (ensure_directories posix fs p) (full_path p)).isSome

/-- Whether the `fopen` of `write_meta_file` (server.c 68) succeeds for a
WRITE to `p` served on `fs`; the handler ignores its failure (181). -/
def opensMeta (fs : FS) (p : Path) : Bool :=
  (posix.fopen_w (ensure_directories posix fs p) (meta_path (full_path p))).isSome

/-- Trees with the same working directory and the same directories: every
path resolves alike on them. -/
def SameDirs (fs1 fs2 : FS) : Prop :=
  fs1.cwd = fs2.cwd ∧ fs1.dirSize = fs2.dirSize ∧ ∀ l, isDir fs1 l = isDir fs2 l

/-- The tree `fs2` holds all that `fs1` holds, and beyond that only
directories. -/
def Grows (fs1 fs2 : FS) : Prop :=
  fs1.cwd = fs2.cwd ∧ fs1.dirSize = fs2.dirSize ∧
    (∀ l n, nodeAt fs1 l = some n → nodeAt fs2 l = some n) ∧
    (∀ l c, nodeAt fs2 l = some (Node.file c) → nodeAt fs1 l = some (Node.file c))

/-- Whether a call is made on a data file or on a permission record. -/
def Event.isFileOp : Event → Bool
  | Event.lock => false
  | Event.unlock => false
  | Event.ensure_dirs _ => false
  | _ => true

/-- The mutex discipline over a trace, from the state `held`: `lock` only
when free, `unlock` only when held, file calls only when held; the result is
the final state of the mutex, `none` when the discipline is broken. -/
def guardRun : Bool → List Event → Option Bool
  | held, [] => some held
  | held, Event.lock :: t => if held then none else guardRun true t
  | held, Event.unlock :: t => if held then guardRun false t else none
  | held, e :: t => if e.isFileOp && !held then none else guardRun held t

/-- The shapes of a disciplined trace: nothing but directory creation before
the mutex is taken, only file calls while it is held, its release last. -/
def Disciplined (t : List Event) : Prop :=
  ∃ pre mid, (pre = [] ∨ ∃ q, pre = [Event.ensure_dirs q]) ∧
    (∀ e ∈ mid, e.isFileOp = true) ∧
    (t = pre ∨ t = pre ++ [Event.lock] ++ mid ++ [Event.unlock])

/-- The length the line reader's contract prescribes for a stream: up to and
including the first newline, at most `maxlen - 1`, at most what arrives. -/
def lineLen (stream : List Nat) (maxlen : Nat) : Nat :=
  min ((stream.takeWhile (fun b => b ≠ 10)).length + 1) (min (maxlen - 1) stream.length)

end Server

set_option maxRecDepth 8000

namespace Server

theorem recvSegs_flatten (segs : List (List Nat)) (len : Nat) :
    (recvSegs segs len).1 ++ (recvSegs segs len).2.flatten = segs.flatten := by
  induction segs with
  | nil => simp [recvSegs]
  | cons seg rest ih =>
    by_cases h : seg = []
    · simp [recvSegs, h, ih]
    · simp [recvSegs, h, ← List.append_assoc]

theorem recvSegs_length_le (segs : List (List Nat)) (len : Nat) :
    (recvSegs segs len).1.length ≤ len := by
  induction segs with
  | nil => simp [recvSegs]
  | cons seg rest ih =>
    by_cases h : seg = []
    · simp [recvSegs, h, ih]
    · simp [recvSegs, h]

theorem recvSegs_eq_nil (segs : List (List Nat)) (len : Nat) (hlen : 0 < len) :
    (recvSegs segs len).1 = [] ↔ segs.flatten = [] := by
  induction segs with
  | nil => simp [recvSegs]
  | cons seg rest ih =>
    by_cases h : seg = []
    · simp [recvSegs, h, ih]
    · simp only [recvSegs, h, if_false, List.flatten_cons, List.append_eq_nil, false_and, iff_false]
      cases seg with
      | nil => exact absurd rfl h
      | cons a t => cases len with
        | zero => omega
        | succ m => simp

theorem recv_of_nil (sock : Conn) (len : Nat) (h0 : (recvSegs sock.input len).1 = []) :
    recv sock len = ((if (recvSegs sock.input len).2 = [] ∧ sock.err = true then -1 else 0), [],
      { sock with input := (recvSegs sock.input len).2 }) := by
  simp [recv, h0]

theorem recv_of_ne (sock : Conn) (len : Nat) (h0 : (recvSegs sock.input len).1 ≠ []) :
    recv sock len = (((recvSegs sock.input len).1.length : Int), (recvSegs sock.input len).1,
      { sock with input := (recvSegs sock.input len).2 }) := by
  simp [recv, h0]

@[simp] theorem recv_err (sock : Conn) (len : Nat) : (recv sock len).2.2.err = sock.err := by
  by_cases h0 : (recvSegs sock.input len).1 = []
  · rw [recv_of_nil _ _ h0]
  · rw [recv_of_ne _ _ h0]

@[simp] theorem recv_output (sock : Conn) (len : Nat) :
    (recv sock len).2.2.output = sock.output := by
  by_cases h0 : (recvSegs sock.input len).1 = []
  · rw [recv_of_nil _ _ h0]
  · rw [recv_of_ne _ _ h0]

@[simp] theorem recv_closed (sock : Conn) (len : Nat) :
    (recv sock len).2.2.closed = sock.closed := by
  by_cases h0 : (recvSegs sock.input len).1 = []
  · rw [recv_of_nil _ _ h0]
  · rw [recv_of_ne _ _ h0]

theorem recv_data_stream (sock : Conn) (len : Nat) :
    (recv sock len).2.1 ++ (recv sock len).2.2.stream = sock.stream := by
  have h := recvSegs_flatten sock.input len
  by_cases h0 : (recvSegs sock.input len).1 = []
  · rw [recv_of_nil _ _ h0]
    simpa [Conn.stream, h0] using h
  · rw [recv_of_ne _ _ h0]
    simpa [Conn.stream] using h

theorem recv_length_le (sock : Conn) (len : Nat) : (recv sock len).2.1.length ≤ len := by
  by_cases h0 : (recvSegs sock.input len).1 = []
  · rw [recv_of_nil _ _ h0]; simp
  · rw [recv_of_ne _ _ h0]; exact recvSegs_length_le _ _

theorem recv_data_nil_iff (sock : Conn) (len : Nat) (hlen : 0 < len) :
    (recv sock len).2.1 = [] ↔ sock.stream = [] := by
  by_cases h0 : (recvSegs sock.input len).1 = []
  · rw [recv_of_nil _ _ h0]
    simpa [Conn.stream] using (recvSegs_eq_nil sock.input len hlen).1 h0
  · rw [recv_of_ne _ _ h0]
    simp only [h0, false_iff, Conn.stream]
    exact fun h => h0 ((recvSegs_eq_nil sock.input len hlen).2 h)

theorem recv_ret_le_zero_iff (sock : Conn) (len : Nat) :
    (recv sock len).1 ≤ 0 ↔ (recv sock len).2.1 = [] := by
  by_cases h0 : (recvSegs sock.input len).1 = []
  · rw [recv_of_nil _ _ h0]
    simp only [iff_true]
    split <;> decide
  · rw [recv_of_ne _ _ h0]
    simp only [h0, iff_false, not_le]
    have : 0 < (recvSegs sock.input len).1.length := List.length_pos.2 h0
    exact_mod_cast this

theorem recv_ret_of_pos (sock : Conn) (len : Nat) (h : ¬ (recv sock len).1 ≤ 0) :
    (recv sock len).1 = ((recv sock len).2.1.length : Int) := by
  by_cases h0 : (recvSegs sock.input len).1 = []
  · rw [recv_of_nil _ _ h0] at h
    exfalso; apply h; simp only; split <;> decide
  · rw [recv_of_ne _ _ h0]

/-- One-byte `recv` on a stream with a first byte. -/
theorem recv_one_cons (sock : Conn) (b : Nat) (rest : List Nat) (h : sock.stream = b :: rest) :
    ¬ (recv sock 1).1 ≤ 0 ∧ (recv sock 1).2.1 = [b] ∧ (recv sock 1).2.2.stream = rest := by
  have hd := recv_data_stream sock 1
  have hl := recv_length_le sock 1
  have hn : (recv sock 1).2.1 ≠ [] := by
    rw [Ne, recv_data_nil_iff sock 1 (by decide), h]; simp
  rw [h] at hd
  refine ⟨by rw [recv_ret_le_zero_iff]; exact hn, ?_⟩
  generalize (recv sock 1).2.1 = d at hd hl hn
  generalize (recv sock 1).2.2.stream = s at hd
  match d, hn, hl with
  | [x], _, _ =>
    simp only [List.singleton_append, List.cons.injEq] at hd
    simp [hd.1, hd.2]
  | _ :: _ :: _, _, hl => simp at hl

theorem recv_one_nil (sock : Conn) (h : sock.stream = []) :
    (recv sock 1).1 ≤ 0 ∧ (recv sock 1).2.2.stream = [] := by
  have hd := recv_data_stream sock 1
  have hn := (recv_data_nil_iff sock 1 (by decide)).2 h
  refine ⟨(recv_ret_le_zero_iff _ _).2 hn, ?_⟩
  rw [hn, h] at hd
  simpa using hd

theorem lineLen_nil (maxlen : Nat) : lineLen [] maxlen = 0 := by simp [lineLen]

theorem recv_line_loop_spec (k : Nat) :
    ∀ (sock : Conn) (pre post : List Nat), k ≤ post.length →
      (recv_line_loop k sock (pre ++ post) pre.length).2.2
          = pre.length + lineLen sock.stream (k + 1) ∧
      (recv_line_loop k sock (pre ++ post) pre.length).2.1
          = pre ++ sock.stream.take (lineLen sock.stream (k + 1))
              ++ post.drop (lineLen sock.stream (k + 1)) ∧
      (recv_line_loop k sock (pre ++ post) pre.length).1.stream
          = sock.stream.drop (lineLen sock.stream (k + 1)) ∧
      (recv_line_loop k sock (pre ++ post) pre.length).1.err = sock.err ∧
      (recv_line_loop k sock (pre ++ post) pre.length).1.output = sock.output ∧
      (recv_line_loop k sock (pre ++ post) pre.length).1.closed = sock.closed := by
  induction k with
  | zero =>
    intro sock pre post _
    simp [recv_line_loop, lineLen]
  | succ k ih =>
    intro sock pre post hk
    cases hs : sock.stream with
    | nil =>
      obtain ⟨h1, h2⟩ := recv_one_nil sock hs
      simp [recv_line_loop, h1, h2, lineLen]
    | cons b rest =>
      obtain ⟨h1, h2, h3⟩ := recv_one_cons sock b rest hs
      cases post with
      | nil => simp at hk
      | cons x post' =>
        have hset : (pre ++ x :: post').set pre.length b = (pre ++ [b]) ++ post' := by
          simp
        by_cases hb : b = 10
        · simp [recv_line_loop, h1, h2, h3, hb, lineLen]
        · have hk' : k ≤ post'.length := by simpa using hk
          obtain ⟨i1, i2, i3, i4, i5, i6⟩ := ih (recv sock 1).2.2 (pre ++ [b]) post' hk'
          have hlen : lineLen (b :: rest) (k + 1 + 1) = lineLen rest (k + 1) + 1 := by
            simp only [lineLen, List.takeWhile_cons, ne_eq, hb, not_false_eq_true, decide_True,
              if_true, List.length_cons, Nat.add_sub_cancel]
            omega
          simp only [List.length_append, List.length_singleton] at i1 i2 i3 i4 i5 i6
          simp only [recv_line_loop, h1, if_false, h2, List.headD_cons, hb, hset, hlen, i1, i2,
            i3, i4, i5, i6, h3, recv_err, recv_output, recv_closed]
          simp [Nat.add_assoc, Nat.add_comm 1]

theorem lineLen_le (stream : List Nat) (maxlen : Nat) :
    lineLen stream maxlen ≤ maxlen - 1 ∧ lineLen stream maxlen ≤ stream.length := by
  unfold lineLen; omega

/-- What `recv_line` returns, in terms of the byte stream on the socket. -/
theorem recv_line_spec (sock : Conn) (buf : List Nat) (maxlen : Nat)
    (h1 : 1 ≤ maxlen) (hb : maxlen ≤ buf.length) :
    (recv_line sock buf maxlen).1 = lineLen sock.stream maxlen ∧
    (recv_line sock buf maxlen).2.1
      = sock.stream.take (lineLen sock.stream maxlen)
          ++ 0 :: buf.drop (lineLen sock.stream maxlen + 1) ∧
    (recv_line sock buf maxlen).2.2.stream = sock.stream.drop (lineLen sock.stream maxlen) ∧
    (recv_line sock buf maxlen).2.2.err = sock.err ∧
    (recv_line sock buf maxlen).2.2.output = sock.output ∧
    (recv_line sock buf maxlen).2.2.closed = sock.closed := by
  have hk : maxlen - 1 ≤ buf.length := by omega
  obtain ⟨i1, i2, i3, i4, i5, i6⟩ := recv_line_loop_spec (maxlen - 1) sock [] buf hk
  have hm : maxlen - 1 + 1 = maxlen := by omega
  simp only [List.nil_append, List.length_nil, Nat.zero_add, hm] at i1 i2 i3 i4 i5 i6
  obtain ⟨l1, l2⟩ := lineLen_le sock.stream maxlen
  refine ⟨i1, ?_, i3, i4, i5, i6⟩
  simp only [recv_line, i1, i2]
  have hlen : (sock.stream.take (lineLen sock.stream maxlen)).length
      = lineLen sock.stream maxlen := by
    simp [List.length_take, l2]
  have hd : lineLen sock.stream maxlen < buf.length := by omega
  rw [List.set_append_right _ _ (by rw [hlen]), hlen, Nat.sub_self]
  congr 1
  rw [List.drop_eq_getElem_cons hd]
  rfl

end Server

namespace Client

theorem recv_line_loop_eq (k : Nat) : ∀ (sock : Server.Conn) (buf : List Nat) (total : Nat),
    recv_line_loop k sock buf total = Server.recv_line_loop k sock buf total := by
  induction k with
  | zero => intro sock buf total; rfl
  | succ k ih =>
    intro sock buf total
    simp only [recv_line_loop, Server.recv_line_loop, ih]

theorem recv_line_eq (sock : Server.Conn) (buf : List Nat) (maxlen : Nat) :
    recv_line sock buf maxlen = Server.recv_line sock buf maxlen := by
  simp only [recv_line, Server.recv_line, recv_line_loop_eq]

end Client

namespace Server

/-- Claim C8 (line reader contract): for a buffer with room for `maxlen >= 1`
bytes, `recv_line` returns `n = lineLen stream maxlen`, the least of the
position just after the first newline, `maxlen - 1` and the number of bytes
that arrive; `n <= maxlen - 1`; the first `n` stream bytes are in
`buf[0..n)`, `buf[n]` is `0`, the buffer is untouched beyond it, exactly
those `n` bytes are consumed from the stream, the result is `0` on
immediate end of stream, and the client's copy returns the same triple. -/
theorem recv_line_contract (sock : Conn) (buf : List Nat) (maxlen : Nat)
    (h1 : 1 ≤ maxlen) (hb : maxlen ≤ buf.length) :
    (recv_line sock buf maxlen).1 ≤ maxlen - 1 ∧
    (recv_line sock buf maxlen).1 = lineLen sock.stream maxlen ∧
    (recv_line sock buf maxlen).2.1.take (recv_line sock buf maxlen).1
      = sock.stream.take (recv_line sock buf maxlen).1 ∧
    (recv_line sock buf maxlen).2.1.get? (recv_line sock buf maxlen).1 = some 0 ∧
    (recv_line sock buf maxlen).2.1.drop ((recv_line sock buf maxlen).1 + 1)
      = buf.drop ((recv_line sock buf maxlen).1 + 1) ∧
    (recv_line sock buf maxlen).2.2.stream = sock.stream.drop (recv_line sock buf maxlen).1 ∧
    (sock.stream = [] → (recv_line sock buf maxlen).1 = 0) ∧
    Client.recv_line sock buf maxlen = recv_line sock buf maxlen := by
  obtain ⟨i1, i2, i3, -, -, -⟩ := recv_line_spec sock buf maxlen h1 hb
  obtain ⟨l1, l2⟩ := lineLen_le sock.stream maxlen
  have hlen : (sock.stream.take (lineLen sock.stream maxlen)).length
      = lineLen sock.stream maxlen := by
    simp [List.length_take, l2]
  refine ⟨by rw [i1]; exact l1, i1, ?_, ?_, ?_, by rw [i3, i1], ?_,
    Client.recv_line_eq sock buf maxlen⟩
  · rw [i1, i2, List.take_append_eq_append_take, hlen, Nat.sub_self]
    simp [List.take_take]
  · rw [i1, i2, List.get?_eq_getElem?, List.getElem?_append_right (by rw [hlen]), hlen,
      Nat.sub_self]
    simp
  · rw [i1, i2, List.drop_append_eq_append_drop, hlen]
    simp [List.drop_eq_nil_of_le, l2]
  · intro hs
    rw [i1, hs, lineLen_nil]

/-- The contract of C8 at a concrete stream: two segments, a line of four
bytes ending in a newline, and a buffer of eight bytes. -/
theorem recv_line_contract_witness :
    (1 ≤ 8 ∧ 8 ≤ (List.replicate 8 7).length) ∧
    (recv_line ⟨[[71, 69], [84, 10, 65]], false, [], false⟩ (List.replicate 8 7) 8).1 = 4 ∧
    (recv_line ⟨[[71, 69], [84, 10, 65]], false, [], false⟩ (List.replicate 8 7) 8).2.1
      = [71, 69, 84, 10, 0, 7, 7, 7] :=
  ⟨⟨by decide, by decide⟩,
   (recv_line_contract ⟨[[71, 69], [84, 10, 65]], false, [], false⟩ (List.replicate 8 7) 8
      (by decide) (by decide)).2.1.trans (by decide),
   by decide⟩

theorem takeWhile_ne_append (l rest : List Nat) (c : Nat) (h : c ∉ l) :
    (l ++ c :: rest).takeWhile (fun b => b ≠ c) = l := by
  induction l with
  | nil => simp
  | cons a t ih =>
    simp only [List.mem_cons, not_or] at h
    have : a ≠ c := fun e => h.1 e.symm
    simpa [List.takeWhile_cons, this] using ih h.2

theorem lineLen_full (l rest : List Nat) (maxlen : Nat) (h : 10 ∉ l)
    (hlen : l.length + 2 ≤ maxlen) : lineLen (l ++ 10 :: rest) maxlen = l.length + 1 := by
  unfold lineLen
  rw [takeWhile_ne_append l rest 10 h]
  simp only [List.length_append, List.length_cons]
  omega

/-- `recv_line` on a stream that starts with a whole line fitting the buffer. -/
theorem recv_line_full (sock : Conn) (buf l rest : List Nat) (maxlen : Nat)
    (hs : sock.stream = l ++ 10 :: rest) (h : 10 ∉ l)
    (hlen : l.length + 2 ≤ maxlen) (hb : maxlen ≤ buf.length) :
    (recv_line sock buf maxlen).1 = l.length + 1 ∧
    (recv_line sock buf maxlen).2.1 = l ++ 10 :: 0 :: buf.drop (l.length + 2) ∧
    (recv_line sock buf maxlen).2.2.stream = rest ∧
    (recv_line sock buf maxlen).2.2.err = sock.err ∧
    (recv_line sock buf maxlen).2.2.output = sock.output ∧
    (recv_line sock buf maxlen).2.2.closed = sock.closed := by
  obtain ⟨i1, i2, i3, i4, i5, i6⟩ := recv_line_spec sock buf maxlen (by omega) hb
  rw [hs, lineLen_full l rest maxlen h hlen] at i1 i2 i3
  refine ⟨i1, ?_, ?_, i4, i5, i6⟩
  · rw [i2]
    have : (l ++ 10 :: rest).take (l.length + 1) = l ++ [10] := by
      rw [List.take_append_eq_append_take]
      simp
    rw [this]; simp
  · rw [i3]
    have : (l ++ 10 :: rest).drop (l.length + 1) = rest := by
      rw [List.drop_append_eq_append_drop]
      simp
    exact this

theorem cstr_line (l t : List Nat) (h : 0 ∉ l) : cstr (l ++ 0 :: t) = l := by
  unfold cstr
  exact takeWhile_ne_append l t 0 h

/-! ### `strtok` -/

theorem isToken_iff (t : List Nat) :
    isToken t = true ↔ t ≠ [] ∧ ∀ b ∈ t, b ≠ 0 ∧ b ≠ 10 ∧ b ≠ 32 := by
  cases t <;> simp [isToken, and_assoc]

theorem strtok_nil : strtok [] DELIM = (none, []) := by decide

theorem strtok_token (t rest : List Nat) (d : Nat) (ht : isToken t = true) (hd : d ∈ DELIM) :
    strtok (t ++ d :: rest) DELIM = (some t, rest) := by
  obtain ⟨hne, hall⟩ := (isToken_iff t).1 ht
  have hnd : ∀ b ∈ t, b ∉ DELIM := by
    intro b hb
    have := hall b hb
    simp [DELIM, this.2.1, this.2.2]
  cases t with
  | nil => exact absurd rfl hne
  | cons a t' =>
    have ha : a ∉ DELIM := hnd a (List.mem_cons_self _ _)
    have hdrop : ((a :: t') ++ d :: rest).dropWhile (fun b => decide (b ∈ DELIM))
        = (a :: t') ++ d :: rest := by
      simp [List.dropWhile_cons, ha]
    have htake : ∀ (u : List Nat), (∀ b ∈ u, b ∉ DELIM) →
        (u ++ d :: rest).takeWhile (fun b => decide (b ∉ DELIM)) = u ∧
        (u ++ d :: rest).dropWhile (fun b => decide (b ∉ DELIM)) = d :: rest := by
      intro u hu
      induction u with
      | nil => simp [List.takeWhile_cons, List.dropWhile_cons, hd]
      | cons x u ih =>
        have hx : x ∉ DELIM := hu x (List.mem_cons_self _ _)
        have := ih (fun b hb => hu b (List.mem_cons_of_mem _ hb))
        simpa [List.takeWhile_cons, List.dropWhile_cons, hx] using this
    obtain ⟨h1, h2⟩ := htake (a :: t') hnd
    unfold strtok
    simp only [hdrop, h1, h2]
    simp

theorem token_no_nul (t : List Nat) (ht : isToken t = true) : 0 ∉ t := by
  intro h
  exact ((isToken_iff t).1 ht).2 0 h |>.1 rfl

theorem token_no_nl (t : List Nat) (ht : isToken t = true) : 10 ∉ t := by
  intro h
  exact ((isToken_iff t).1 ht).2 10 h |>.2.1 rfl

theorem buffer_length (n : Nat) : (buffer n).length = n := by simp [buffer]

/-- The first `recv_line` and the two `strtok` calls of `handle_client` on a
stream that starts with `cmd ++ " " ++ p ++ tail ++ "\n"`, where `tail` is
empty or begins with a space. -/
theorem parse_command (sock : Conn) (cmd p tail rest : List Nat)
    (hcmd : isToken cmd = true) (hp : isToken p = true)
    (htail : 0 ∉ tail ∧ 10 ∉ tail)
    (hlen : (cmd ++ 32 :: p ++ tail ++ [10]).length ≤ 1023)
    (hs : sock.stream = cmd ++ 32 :: p ++ tail ++ [10] ++ rest) :
    ¬ (recv_line sock (buffer 1024) 1024).1 ≤ 0 ∧
    strtok (cstr (recv_line sock (buffer 1024) 1024).2.1) DELIM
      = (some cmd, p ++ tail ++ [10]) ∧
    (recv_line sock (buffer 1024) 1024).2.2.stream = rest ∧
    (recv_line sock (buffer 1024) 1024).2.2.err = sock.err ∧
    (recv_line sock (buffer 1024) 1024).2.2.output = sock.output ∧
    (recv_line sock (buffer 1024) 1024).2.2.closed = sock.closed := by
  have hs' : sock.stream = (cmd ++ 32 :: p ++ tail) ++ 10 :: rest := by
    rw [hs]; simp
  have h10 : 10 ∉ cmd ++ 32 :: p ++ tail := by
    simp only [List.mem_append, List.mem_cons, not_or]
    exact ⟨⟨token_no_nl cmd hcmd, by decide, token_no_nl p hp⟩, htail.2⟩
  have h0 : 0 ∉ (cmd ++ 32 :: p ++ tail) ++ [10] := by
    simp only [List.mem_append, List.mem_cons, List.mem_singleton, not_or, List.not_mem_nil,
      or_false]
    exact ⟨⟨⟨token_no_nul cmd hcmd, by decide, token_no_nul p hp⟩, htail.1⟩, by decide⟩
  have hl : (cmd ++ 32 :: p ++ tail).length + 2 ≤ 1024 := by
    simp only [List.length_append, List.length_cons, List.length_nil] at hlen ⊢
    omega
  obtain ⟨i1, i2, i3, i4, i5, i6⟩ :=
    recv_line_full sock (buffer 1024) _ rest 1024 hs' h10 hl (by rw [buffer_length])
  refine ⟨by rw [i1]; omega, ?_, i3, i4, i5, i6⟩
  rw [i2]
  have : (cmd ++ 32 :: p ++ tail) ++ 10 :: 0 ::
      List.drop ((cmd ++ 32 :: p ++ tail).length + 2) (buffer 1024)
      = ((cmd ++ 32 :: p ++ tail) ++ [10]) ++ 0 ::
        List.drop ((cmd ++ 32 :: p ++ tail).length + 2) (buffer 1024) := by
    generalize List.drop ((cmd ++ 32 :: p ++ tail).length + 2) (buffer 1024) = d
    simp
  rw [this, cstr_line _ _ h0]
  have : (cmd ++ 32 :: p ++ tail) ++ [10] = cmd ++ 32 :: (p ++ tail ++ [10]) := by simp
  rw [this]
  exact strtok_token cmd _ 32 hcmd (by decide)

theorem strtok_path_tail (p : Path) (perm : Option (List Nat)) (hp : isToken p = true)
    (hperm : ∀ t, perm = some t → isToken t = true) :
    (strtok (p ++ permTail perm ++ [10]) DELIM).1 = some p ∧
    (strtok (strtok (p ++ permTail perm ++ [10]) DELIM).2 DELIM).1 = perm := by
  cases perm with
  | none =>
    have : p ++ permTail none ++ [10] = p ++ 10 :: [] := by simp [permTail]
    rw [this, strtok_token p [] 10 hp (by decide)]
    exact ⟨rfl, by rw [strtok_nil]⟩
  | some t =>
    have : p ++ permTail (some t) ++ [10] = p ++ 32 :: (t ++ 10 :: []) := by simp [permTail]
    rw [this, strtok_token p _ 32 hp (by decide)]
    refine ⟨rfl, ?_⟩
    simp only
    rw [strtok_token t [] 10 (hperm t rfl) (by decide)]

theorem wellFormed_iff (p : Path) (perm : Option (List Nat)) :
    wellFormed p perm = true ↔
      isToken p = true ∧ (∀ t, perm = some t → isToken t = true) ∧
        (WRITE_line p perm).length ≤ 1023 := by
  cases perm <;> simp [wellFormed, and_assoc]

theorem permTail_clean (perm : Option (List Nat))
    (hperm : ∀ t, perm = some t → isToken t = true) :
    0 ∉ permTail perm ∧ 10 ∉ permTail perm := by
  cases perm with
  | none => simp [permTail]
  | some t =>
    have h0 := token_no_nul t (hperm t rfl)
    have h1 := token_no_nl t (hperm t rfl)
    simp [permTail, h0, h1]

theorem WRITE_line_eq (p : Path) (perm : Option (List Nat)) :
    WRITE_line p perm = bytes "WRITE" ++ 32 :: p ++ permTail perm ++ [10] := by
  simp [WRITE_line, bytes]

theorem GET_line_eq (p : Path) : GET_line p = bytes "GET" ++ 32 :: p ++ [] ++ [10] := by
  simp [GET_line, bytes]

theorem RM_line_eq (p : Path) : RM_line p = bytes "RM" ++ 32 :: p ++ [] ++ [10] := by
  simp [RM_line, bytes]

/-- Dispatch of a well-formed WRITE command line. -/
theorem handle_client_WRITE (os : OS σ) (w : World σ) (p : Path) (perm : Option (List Nat))
    (rest : List Nat) (hwf : wellFormed p perm = true)
    (hs : w.sock.stream = WRITE_line p perm ++ rest) :
    ∃ sock1 saved, handle_client os w = handle_write os { w with sock := sock1 } p saved ∧
      (strtok saved DELIM).1 = perm ∧ sock1.stream = rest ∧ sock1.err = w.sock.err ∧
      sock1.output = w.sock.output ∧ sock1.closed = w.sock.closed := by
  obtain ⟨hp, hperm, hlen⟩ := (wellFormed_iff p perm).1 hwf
  rw [WRITE_line_eq] at hs hlen
  obtain ⟨i1, i2, i3, i4, i5, i6⟩ := parse_command w.sock (bytes "WRITE") p (permTail perm) rest
    (by decide) hp (permTail_clean perm hperm) hlen hs
  obtain ⟨j1, j2⟩ := strtok_path_tail p perm hp hperm
  refine ⟨(recv_line w.sock (buffer 1024) 1024).2.2,
    (strtok (p ++ permTail perm ++ [10]) DELIM).2, ?_, j2, i3, i4, i5, i6⟩
  unfold handle_client
  simp only [i1, if_false, i2, j1, if_true]

/-- Dispatch of a well-formed GET command line. -/
theorem handle_client_GET (os : OS σ) (w : World σ) (p : Path) (rest : List Nat)
    (hp : isToken p = true) (hlen : (GET_line p).length ≤ 1023)
    (hs : w.sock.stream = GET_line p ++ rest) :
    ∃ sock1, handle_client os w = handle_get os { w with sock := sock1 } p ∧
      sock1.stream = rest ∧ sock1.err = w.sock.err ∧
      sock1.output = w.sock.output ∧ sock1.closed = w.sock.closed := by
  rw [GET_line_eq] at hs hlen
  obtain ⟨i1, i2, i3, i4, i5, i6⟩ := parse_command w.sock (bytes "GET") p [] rest
    (by decide) hp (by simp) hlen hs
  have j1 : (strtok (p ++ [] ++ [10]) DELIM).1 = some p := by
    have : p ++ [] ++ [10] = p ++ 10 :: [] := by simp
    rw [this, strtok_token p [] 10 hp (by decide)]
  refine ⟨(recv_line w.sock (buffer 1024) 1024).2.2, ?_, i3, i4, i5, i6⟩
  unfold handle_client
  have hne : bytes "GET" ≠ bytes "WRITE" := by decide
  simp only [i1, if_false, i2, j1, hne, if_true]

/-- Dispatch of a well-formed RM command line. -/
theorem handle_client_RM (os : OS σ) (w : World σ) (p : Path) (rest : List Nat)
    (hp : isToken p = true) (hlen : (RM_line p).length ≤ 1023)
    (hs : w.sock.stream = RM_line p ++ rest) :
    ∃ sock1, handle_client os w = handle_rm os { w with sock := sock1 } p ∧
      sock1.stream = rest ∧ sock1.err = w.sock.err ∧
      sock1.output = w.sock.output ∧ sock1.closed = w.sock.closed := by
  rw [RM_line_eq] at hs hlen
  obtain ⟨i1, i2, i3, i4, i5, i6⟩ := parse_command w.sock (bytes "RM") p [] rest
    (by decide) hp (by simp) hlen hs
  have j1 : (strtok (p ++ [] ++ [10]) DELIM).1 = some p := by
    have : p ++ [] ++ [10] = p ++ 10 :: [] := by simp
    rw [this, strtok_token p [] 10 hp (by decide)]
  refine ⟨(recv_line w.sock (buffer 1024) 1024).2.2, ?_, i3, i4, i5, i6⟩
  unfold handle_client
  have hne : bytes "RM" ≠ bytes "WRITE" := by decide
  have hne2 : bytes "RM" ≠ bytes "GET" := by decide
  simp only [i1, if_false, i2, j1, hne, hne2, if_true]

theorem wellFormed_GET (p : Path) (perm : Option (List Nat)) (hwf : wellFormed p perm = true) :
    isToken p = true ∧ (GET_line p).length ≤ 1023 ∧ (RM_line p).length ≤ 1023 := by
  obtain ⟨hp, -, hlen⟩ := (wellFormed_iff p perm).1 hwf
  refine ⟨hp, ?_, ?_⟩
  · have e1 : (bytes "WRITE ").length = 6 := by decide
    have e2 : (bytes "GET ").length = 4 := by decide
    simp only [WRITE_line, GET_line, List.length_append, e1, e2, List.length_singleton] at hlen ⊢
    omega
  · have e1 : (bytes "WRITE ").length = 6 := by decide
    have e2 : (bytes "RM ").length = 3 := by decide
    simp only [WRITE_line, RM_line, List.length_append, e1, e2, List.length_singleton] at hlen ⊢
    omega

/-! ### `decimal` and `atol` -/

theorem decimalDigits_digit (f : Nat) : ∀ (n : Nat), ∀ b ∈ decimalDigits f n, 48 ≤ b ∧ b ≤ 57 := by
  induction f with
  | zero => intro n b hb; simp [decimalDigits] at hb
  | succ f ih =>
    intro n b hb
    unfold decimalDigits at hb
    split at hb
    · simp only [List.mem_singleton] at hb; omega
    · simp only [List.mem_append, List.mem_singleton] at hb
      rcases hb with hb | hb
      · exact ih _ b hb
      · omega

theorem decimalDigits_ne_nil (f n : Nat) : decimalDigits (f + 1) n ≠ [] := by
  unfold decimalDigits
  split <;> simp

theorem digitsValue_digit (acc b : Nat) (rest : List Nat) (h : 48 ≤ b ∧ b ≤ 57) :
    digitsValue acc (b :: rest) = digitsValue (acc * 10 + (b - 48)) rest := by
  simp [digitsValue, isdigit, h.1, h.2]

theorem digitsValue_stop (acc b : Nat) (rest : List Nat) (h : b < 48 ∨ 57 < b) :
    digitsValue acc (b :: rest) = acc := by
  have : ¬ (48 ≤ b ∧ b ≤ 57) := by omega
  simp [digitsValue, isdigit, this]

theorem digitsValue_decimalDigits (f : Nat) : ∀ (n : Nat) (r : List Nat), n < 10 ^ f →
    digitsValue 0 (decimalDigits f n ++ r) = digitsValue n r := by
  induction f with
  | zero => intro n r h; simp at h; subst h; simp [decimalDigits]
  | succ f ih =>
    intro n r h
    unfold decimalDigits
    split
    · rename_i h10
      rw [List.singleton_append, digitsValue_digit 0 (48 + n) r (by omega)]
      congr 1; omega
    · rename_i h10
      have hq : n / 10 < 10 ^ f := by
        rw [Nat.div_lt_iff_lt_mul (by decide)]
        rw [pow_succ] at h; exact h
      rw [List.append_assoc, ih (n / 10) _ hq, List.singleton_append,
        digitsValue_digit (n / 10) (48 + n % 10) r (by omega)]
      congr 1; omega

theorem decimalDigits_length (f : Nat) : ∀ (n k : Nat), n < 10 ^ (k + 1) →
    (decimalDigits f n).length ≤ k + 1 := by
  induction f with
  | zero => intro n k _; simp [decimalDigits]
  | succ f ih =>
    intro n k h
    unfold decimalDigits
    split
    · simp
    · rename_i h10
      cases k with
      | zero => simp at h; omega
      | succ k =>
        have hq : n / 10 < 10 ^ (k + 1) := by
          rw [Nat.div_lt_iff_lt_mul (by decide)]
          rw [pow_succ] at h; exact h
        have := ih (n / 10) k hq
        simp only [List.length_append, List.length_singleton]
        omega

theorem lt_ten_pow_succ (n : Nat) : n < 10 ^ (n + 1) :=
  lt_trans (Nat.lt_pow_self (by decide) n) (Nat.pow_lt_pow_right (by decide) (Nat.lt_succ_self n))

theorem decimal_digit (n : Nat) : ∀ b ∈ decimal n, 48 ≤ b ∧ b ≤ 57 :=
  decimalDigits_digit (n + 1) n

theorem decimal_length (n : Nat) (h : n < 2 ^ 63) : (decimal n).length ≤ 19 := by
  apply decimalDigits_length (n + 1) n 18
  have : (2 : Nat) ^ 63 < 10 ^ (18 + 1) := by norm_num
  omega

theorem digitsValue_decimal (n : Nat) (r : List Nat) :
    digitsValue 0 (decimal n ++ r) = digitsValue n r :=
  digitsValue_decimalDigits (n + 1) n r (lt_ten_pow_succ n)

theorem atol_decimal (n : Nat) (t : List Nat) (h : n < 2 ^ 63) :
    atol (decimal n ++ 10 :: t) = (n : Int) := by
  have hne := decimalDigits_ne_nil n n
  have hd := decimal_digit n
  have hv := digitsValue_decimal n (10 :: t)
  rw [digitsValue_stop n 10 t (by omega)] at hv
  unfold decimal at hd hv ⊢
  cases hds : decimalDigits (n + 1) n with
  | nil => exact absurd hds hne
  | cons d ds =>
    rw [hds] at hd hv
    have hdd := hd d (List.mem_cons_self _ _)
    have hsp : isspace d = false := by
      simp only [isspace, Bool.decide_or, Bool.decide_and, Bool.or_eq_false_iff,
        decide_eq_false_iff_not, Bool.and_eq_false_imp, decide_eq_true_eq]
      omega
    have hval : (digitsValue 0 (d :: (ds ++ 10 :: t)) : Int) = (n : Int) := by
      rw [← List.cons_append, hv]
    have hsv : signedValue (d :: (ds ++ 10 :: t)) = (n : Int) := by
      unfold signedValue
      split
      · rename_i heq; simp only [List.cons.injEq] at heq; omega
      · rename_i heq; simp only [List.cons.injEq] at heq; omega
      · exact hval
    unfold atol
    simp only [List.cons_append, List.dropWhile_cons, hsp, Bool.false_eq_true, if_false]
    rw [hsv]
    have h1 : ¬ ((n : Int) > LONG_MAX) := by
      simp only [LONG_MAX, gt_iff_lt, not_lt]
      have : (n : Int) < 2 ^ 63 := by exact_mod_cast h
      omega
    have h2 : ¬ ((n : Int) < LONG_MIN) := by
      simp only [LONG_MIN, not_lt]
      have : (0 : Int) ≤ n := Int.ofNat_nonneg n
      have : (0 : Int) < 2 ^ 63 := by norm_num
      omega
    simp only [clampLong, h1, h2, if_false]

/-- The second `recv_line` of a WRITE on a stream that starts with the size
line of a positive `long`. -/
theorem parse_size (sock : Conn) (n : Nat) (rest : List Nat) (h : n < 2 ^ 63)
    (hs : sock.stream = SIZE_line n ++ rest) :
    ¬ (recv_line sock (buffer 64) 64).1 ≤ 0 ∧
    atol (cstr (recv_line sock (buffer 64) 64).2.1) = (n : Int) ∧
    (recv_line sock (buffer 64) 64).2.2.stream = rest ∧
    (recv_line sock (buffer 64) 64).2.2.err = sock.err ∧
    (recv_line sock (buffer 64) 64).2.2.output = sock.output ∧
    (recv_line sock (buffer 64) 64).2.2.closed = sock.closed := by
  have hd := decimal_digit n
  have hl := decimal_length n h
  have hs' : sock.stream = decimal n ++ 10 :: rest := by rw [hs]; simp [SIZE_line]
  have h10 : 10 ∉ decimal n := fun hm => by have := hd 10 hm; omega
  have h0 : 0 ∉ decimal n ++ [10] := by
    simp only [List.mem_append, List.mem_singleton, not_or]
    exact ⟨fun hm => by have := hd 0 hm; omega, by decide⟩
  obtain ⟨i1, i2, i3, i4, i5, i6⟩ :=
    recv_line_full sock (buffer 64) (decimal n) rest 64 hs' h10 (by omega)
      (by rw [buffer_length])
  refine ⟨by rw [i1]; omega, ?_, i3, i4, i5, i6⟩
  rw [i2]
  have : decimal n ++ 10 :: 0 :: List.drop ((decimal n).length + 2) (buffer 64)
      = (decimal n ++ [10]) ++ 0 :: List.drop ((decimal n).length + 2) (buffer 64) := by
    generalize List.drop ((decimal n).length + 2) (buffer 64) = d
    simp
  rw [this, cstr_line _ _ h0]
  have : decimal n ++ [10] = decimal n ++ 10 :: [] := rfl
  rw [this]
  exact atol_decimal n [] h

theorem digitsValue_ge (l : List Nat) : ∀ (acc : Nat), acc ≤ digitsValue acc l := by
  induction l with
  | nil => intro acc; exact le_refl _
  | cons b rest ih =>
    intro acc
    unfold digitsValue
    split
    · exact le_trans (by omega) (ih (acc * 10 + (b - 48)))
    · exact le_refl _

theorem decimalDigits_head (f : Nat) : ∀ (n : Nat), 0 < n → n < 10 ^ f →
    ∃ d t, decimalDigits f n = d :: t ∧ 49 ≤ d ∧ d ≤ 57 := by
  induction f with
  | zero => intro n h0 h; simp at h; omega
  | succ f ih =>
    intro n h0 h
    unfold decimalDigits
    split
    · exact ⟨48 + n, [], rfl, by omega, by omega⟩
    · rename_i h10
      have hq : n / 10 < 10 ^ f := by
        rw [Nat.div_lt_iff_lt_mul (by decide)]
        rw [pow_succ] at h; exact h
      obtain ⟨d, t, e, h1, h2⟩ := ih (n / 10) (by omega) hq
      exact ⟨d, t ++ [48 + n % 10], by rw [e]; rfl, h1, h2⟩

/-- The second `recv_line` of a WRITE on a stream that starts with the size
line of any positive size: a line is read and `atol` finds it positive, also
when the digits overflow `long` or the buffer. -/
theorem parse_size_pos (sock : Conn) (n : Nat) (rest : List Nat) (h0 : 0 < n)
    (hs : sock.stream = SIZE_line n ++ rest) :
    ¬ (recv_line sock (buffer 64) 64).1 ≤ 0 ∧
    0 < atol (cstr (recv_line sock (buffer 64) 64).2.1) := by
  obtain ⟨d, t, hd, hd1, hd2⟩ := decimalDigits_head (n + 1) n h0 (lt_ten_pow_succ n)
  have hdig := decimal_digit n
  have hs' : sock.stream = decimal n ++ 10 :: rest := by rw [hs]; simp [SIZE_line]
  have h10 : 10 ∉ decimal n := fun hm => by have := hdig 10 hm; omega
  obtain ⟨i1, i2, -⟩ := recv_line_spec sock (buffer 64) 64 (by decide) (by rw [buffer_length])
  have hlen : lineLen sock.stream 64 = min ((decimal n).length + 1) 63 := by
    rw [hs']
    unfold lineLen
    rw [takeWhile_ne_append _ _ _ h10]
    simp only [List.length_append, List.length_cons]
    omega
  have hdl : 0 < (decimal n).length := by
    unfold decimal; rw [hd]; simp
  have hk : 0 < lineLen sock.stream 64 := by rw [hlen]; omega
  refine ⟨by rw [i1]; omega, ?_⟩
  -- the line read is a prefix of the digits and the newline
  have hpre : sock.stream.take (lineLen sock.stream 64)
      = (decimal n).take (lineLen sock.stream 64)
        ++ (10 :: rest).take (lineLen sock.stream 64 - (decimal n).length) := by
    rw [hs', List.take_append_eq_append_take]
  have hno0 : 0 ∉ sock.stream.take (lineLen sock.stream 64) := by
    rw [hpre]
    intro hm
    rcases List.mem_append.1 hm with hm | hm
    · have := hdig 0 (List.mem_of_mem_take hm); omega
    · have hle : lineLen sock.stream 64 - (decimal n).length ≤ 1 := by rw [hlen]; omega
      have hsub : (10 :: rest).take (lineLen sock.stream 64 - (decimal n).length) = []
          ∨ (10 :: rest).take (lineLen sock.stream 64 - (decimal n).length) = [10] := by
        rcases Nat.le_one_iff_eq_zero_or_eq_one.1 hle with e | e <;> rw [e] <;> simp
      rcases hsub with e | e <;> rw [e] at hm <;> simp at hm
  have hhead : ∃ t', sock.stream.take (lineLen sock.stream 64) = d :: t' := by
    rw [hpre]
    unfold decimal
    rw [hd]
    obtain ⟨m, hm⟩ : ∃ m, lineLen sock.stream 64 = m + 1 := ⟨lineLen sock.stream 64 - 1, by omega⟩
    rw [hm]
    exact ⟨_, rfl⟩
  obtain ⟨t', ht'⟩ := hhead
  rw [i2, cstr_line _ _ hno0, ht']
  have hsp : isspace d = false := by
    simp only [isspace, Bool.decide_or, Bool.decide_and, Bool.or_eq_false_iff,
      decide_eq_false_iff_not, Bool.and_eq_false_imp, decide_eq_true_eq]
    omega
  have hsv : signedValue (d :: t') = (digitsValue 0 (d :: t') : Int) := by
    unfold signedValue
    split
    · rename_i heq; simp only [List.cons.injEq] at heq; omega
    · rename_i heq; simp only [List.cons.injEq] at heq; omega
    · rfl
  have hval : 1 ≤ digitsValue 0 (d :: t') := by
    rw [digitsValue_digit 0 d t' (by omega)]
    exact le_trans (by omega) (digitsValue_ge t' (0 * 10 + (d - 48)))
  unfold atol
  simp only [List.dropWhile_cons, hsp, Bool.false_eq_true, if_false]
  rw [hsv]
  have hv : (1 : Int) ≤ (digitsValue 0 (d :: t') : Int) := by exact_mod_cast hval
  unfold clampLong
  split
  · simp only [LONG_MAX]; norm_num
  · split
    · rename_i hlt; simp only [LONG_MIN] at hlt; omega
    · omega

/-! ### The transform -/

theorem xor_data_all (d : List Nat) : xor_data d d.length = d.map (fun b => b ^^^ XOR_KEY) := by
  simp [xor_data]

theorem xor_xor (b : Nat) : (b ^^^ XOR_KEY) ^^^ XOR_KEY = b := by
  rw [Nat.xor_assoc]; simp

theorem map_xor_xor (l : List Nat) :
    (l.map (fun b => b ^^^ XOR_KEY)).map (fun b => b ^^^ XOR_KEY) = l := by
  simp [List.map_map, Function.comp_def, xor_xor]

/-! ### The body loops -/

/-- The WRITE body loop over a file whose states `F c` are indexed by the
content `c` written so far: the first `n` bytes of the stream (all of it if
it is shorter) are appended, transformed, to the open file. -/
theorem write_body_fold (os : OS σ) (fp : Path) (F : List Nat → σ)
    (hF : ∀ c d, os.fwrite (F c) fp d = F (c ++ d)) (fuel : Nat) :
    ∀ (n : Nat) (w : World σ) (c : List Nat),
      n ≤ fuel → w.fs = F c →
      (write_body os fp fuel n w).fs
        = F (c ++ (w.sock.stream.take n).map (fun b => b ^^^ XOR_KEY)) ∧
      (write_body os fp fuel n w).sock.stream = w.sock.stream.drop n ∧
      (write_body os fp fuel n w).sock.err = w.sock.err ∧
      (write_body os fp fuel n w).sock.output = w.sock.output ∧
      (write_body os fp fuel n w).sock.closed = w.sock.closed := by
  induction fuel with
  | zero =>
    intro n w c hn hf
    have : n = 0 := by omega
    subst this
    simp [write_body, hf]
  | succ fuel ih =>
    intro n w c hn hf
    unfold write_body
    by_cases hpos : n > 0
    · simp only [hpos, if_true]
      generalize hchunk : (if n > 1024 then 1024 else n) = chunk
      have hc1 : 0 < chunk := by rw [← hchunk]; split <;> omega
      have hc2 : chunk ≤ n := by rw [← hchunk]; split <;> omega
      have hds := recv_data_stream w.sock chunk
      have hle := recv_length_le w.sock chunk
      by_cases hr : (recv w.sock chunk).1 ≤ 0
      · simp only [hr, if_true]
        have hnil := (recv_ret_le_zero_iff _ _).1 hr
        have hs : w.sock.stream = [] := (recv_data_nil_iff _ _ hc1).1 hnil
        rw [hnil, hs] at hds
        simp only [List.nil_append] at hds
        simp [hf, hs, hds]
      · simp only [hr, if_false]
        have hret := recv_ret_of_pos _ _ hr
        have hne : (recv w.sock chunk).2.1 ≠ [] := fun h => hr ((recv_ret_le_zero_iff _ _).2 h)
        have hlen : 0 < (recv w.sock chunk).2.1.length := List.length_pos.2 hne
        rw [hret, Int.toNat_ofNat, xor_data_all,
          ← List.length_map (recv w.sock chunk).2.1 (fun b => b ^^^ XOR_KEY), List.take_length,
          List.length_map]
        generalize hd : (recv w.sock chunk).2.1 = d at hds hle hlen
        have hfs : os.fwrite w.fs fp (d.map (fun b => b ^^^ XOR_KEY))
            = F (c ++ d.map (fun b => b ^^^ XOR_KEY)) := by
          rw [hf, hF]
        obtain ⟨j1, j3, j4, j5, j6⟩ := ih (n - d.length)
          { fs := os.fwrite w.fs fp (d.map (fun b => b ^^^ XOR_KEY)),
            sock := (recv w.sock chunk).2.2,
            trace := w.trace ++ [Event.data_write fp] }
          (c ++ d.map (fun b => b ^^^ XOR_KEY)) (by omega) hfs
        have htake : w.sock.stream.take n = d ++ (recv w.sock chunk).2.2.stream.take (n - d.length) := by
          rw [← hds, List.take_append_eq_append_take, List.take_of_length_le (by omega)]
        have hdrop : w.sock.stream.drop n = (recv w.sock chunk).2.2.stream.drop (n - d.length) := by
          rw [← hds, List.drop_append_eq_append_drop, List.drop_of_length_le (by omega)]
          simp
        refine ⟨?_, ?_, ?_, ?_, ?_⟩
        · rw [j1, htake]; simp
        · rw [j3, hdrop]
        · rw [j4]; simp
        · rw [j5]; simp
        · rw [j6]; simp
    · have : n = 0 := by omega
      subst this
      simp [hf]

/-- The WRITE body loop never sends and only logs data writes, whatever the
file system does. -/
theorem write_body_trace (os : OS σ) (fp : Path) (fuel : Nat) :
    ∀ (n : Nat) (w : World σ),
      (write_body os fp fuel n w).sock.output = w.sock.output ∧
      ∃ k, (write_body os fp fuel n w).trace
        = w.trace ++ List.replicate k (Event.data_write fp) := by
  induction fuel with
  | zero => intro n w; exact ⟨rfl, 0, by simp [write_body]⟩
  | succ fuel ih =>
    intro n w
    unfold write_body
    by_cases hpos : n > 0
    · simp only [hpos, if_true]
      generalize (if n > 1024 then 1024 else n) = chunk
      by_cases hr : (recv w.sock chunk).1 ≤ 0
      · simp only [hr, if_true]
        exact ⟨by simp, 0, by simp⟩
      · simp only [hr, if_false]
        obtain ⟨j1, k, j2⟩ := ih
          (n - (recv w.sock chunk).1.toNat)
          { fs := os.fwrite w.fs fp
              ((xor_data (recv w.sock chunk).2.1 (recv w.sock chunk).1.toNat).take
                (recv w.sock chunk).1.toNat),
            sock := (recv w.sock chunk).2.2,
            trace := w.trace ++ [Event.data_write fp] }
        refine ⟨by rw [j1]; simp, k + 1, ?_⟩
        rw [j2, List.replicate_succ]
        simp
    · simp only [hpos, if_false]
      exact ⟨trivial, 0, by simp⟩

/-- The GET body loop on a regular file of `n` bytes: the file is sent,
transformed. -/
theorem get_body_spec (fp : Path) (fuel : Nat) :
    ∀ (n : Nat) (file : List Nat) (w : World σ), n ≤ fuel → file.length = n →
      (get_body fp fuel n (Handle.regular file) w).sock.output
        = w.sock.output ++ file.map (fun b => b ^^^ XOR_KEY) ∧
      (get_body fp fuel n (Handle.regular file) w).fs = w.fs ∧
      (get_body fp fuel n (Handle.regular file) w).sock.input = w.sock.input ∧
      (get_body fp fuel n (Handle.regular file) w).sock.err = w.sock.err ∧
      (get_body fp fuel n (Handle.regular file) w).sock.closed = w.sock.closed := by
  induction fuel with
  | zero =>
    intro n file w hn hl
    have : n = 0 := by omega
    subst this
    have : file = [] := List.length_eq_zero.1 hl
    subst this
    exact ⟨by simp [get_body], rfl, rfl, rfl, rfl⟩
  | succ fuel ih =>
    intro n file w hn hl
    unfold get_body
    by_cases hpos : n > 0
    · simp only [hpos, if_true, fread]
      generalize hchunk : (if n > 1024 then 1024 else n) = chunk
      have hc1 : 0 < chunk := by rw [← hchunk]; split <;> omega
      have hc2 : chunk ≤ n := by rw [← hchunk]; split <;> omega
      have htl : (file.take chunk).length = chunk := by
        rw [List.length_take]; omega
      rw [xor_data_all, ← List.length_map (file.take chunk) (fun b => b ^^^ XOR_KEY),
        List.take_length, List.length_map, htl]
      obtain ⟨j1, j2, j3, j4, j5⟩ := ih (n - chunk) (file.drop chunk)
        ((w.log (Event.data_read fp)).send ((file.take chunk).map (fun b => b ^^^ XOR_KEY)))
        (by omega) (by rw [List.length_drop]; omega)
      refine ⟨?_, ?_, ?_, ?_, ?_⟩
      · rw [j1]
        simp only [World.send, World.log, send, List.append_assoc, ← List.map_append,
          List.take_append_drop]
      · rw [j2]; rfl
      · rw [j3]; rfl
      · rw [j4]; rfl
      · rw [j5]; rfl
    · have : n = 0 := by omega
      subst this
      have : file = [] := List.length_eq_zero.1 hl
      subst this
      exact ⟨by simp, rfl, rfl, rfl, rfl⟩

/-- The GET body loop never touches the storage, sends only after what was
sent, and logs only reads of the data file, whatever the stream delivers. -/
theorem get_body_trace (fp : Path) (fuel : Nat) :
    ∀ (n : Nat) (f : Handle) (w : World σ),
      (get_body fp fuel n f w).fs = w.fs ∧
      w.sock.output <+: (get_body fp fuel n f w).sock.output ∧
      (get_body fp fuel n f w).sock.input = w.sock.input ∧
      ∃ k, (get_body fp fuel n f w).trace
        = w.trace ++ List.replicate k (Event.data_read fp) := by
  induction fuel with
  | zero => intro n f w; exact ⟨rfl, List.prefix_refl _, rfl, 0, by simp [get_body]⟩
  | succ fuel ih =>
    intro n f w
    unfold get_body
    by_cases hpos : n > 0
    · simp only [hpos, if_true]
      generalize (if n > 1024 then 1024 else n) = chunk
      cases hfr : fread f chunk with
      | none =>
        exact ⟨rfl, List.prefix_refl _, rfl, 1, by simp [World.log]⟩
      | some r =>
        simp only
        obtain ⟨j1, j2, j3, k, j4⟩ := ih (n - r.1.length) r.2
          ((w.log (Event.data_read fp)).send ((xor_data r.1 r.1.length).take r.1.length))
        refine ⟨by rw [j1]; rfl, ?_, by rw [j3]; rfl, k + 1, ?_⟩
        · exact List.IsPrefix.trans (List.prefix_append _ _) j2
        · rw [j4, List.replicate_succ]
          simp [World.send, World.log]
    · simp only [hpos, if_false]
      exact ⟨trivial, List.prefix_refl _, trivial, 0, by simp⟩

theorem snprintf_fits (size : Nat) (s : List Nat) (h : s.length ≤ size - 1) :
    snprintf size s = s := by
  unfold snprintf
  exact List.take_of_length_le h

theorem full_path_length (p : Path) : (full_path p).length ≤ 1023 := by
  simp only [full_path, snprintf, List.length_take]
  omega

theorem meta_path_eq (fp : Path) (h : fp.length ≤ 1023) : meta_path fp = fp ++ bytes ".meta" := by
  unfold meta_path
  apply snprintf_fits
  have : (bytes ".meta").length = 5 := by decide
  simp only [List.length_append, this]
  omega

theorem meta_full_path (p : Path) :
    meta_path (full_path p) = full_path p ++ bytes ".meta" :=
  meta_path_eq _ (full_path_length p)

theorem connect_stream (segs : List (List Nat)) (err : Bool) :
    (connect segs err).stream = segs.flatten := rfl

/-! ### The handler on arbitrary input -/

/-- The line buffers of `handle_client` have room: `recv_line` leaves the
rest of the socket as it was. -/
theorem recv_line_buffer (sock : Conn) (size : Nat) (h : 1 ≤ size) :
    (recv_line sock (buffer size) size).1 = lineLen sock.stream size ∧
    (recv_line sock (buffer size) size).2.2.stream
      = sock.stream.drop (lineLen sock.stream size) ∧
    (recv_line sock (buffer size) size).2.2.err = sock.err ∧
    (recv_line sock (buffer size) size).2.2.output = sock.output ∧
    (recv_line sock (buffer size) size).2.2.closed = sock.closed := by
  obtain ⟨i1, -, i3, i4, i5, i6⟩ :=
    recv_line_spec sock (buffer size) size h (by rw [buffer_length])
  exact ⟨i1, i3, i4, i5, i6⟩

/-- How `handle_client` dispatches, for any first line. -/
theorem handle_client_cases (os : OS σ) (w : World σ) :
    ((recv_line w.sock (buffer 1024) 1024).1 = 0 ∧ request w.sock = none ∧
      handle_client os w
        = World.close { w with sock := (recv_line w.sock (buffer 1024) 1024).2.2 }) ∨
    (0 < (recv_line w.sock (buffer 1024) 1024).1 ∧ request w.sock = none ∧
      handle_client os w
        = World.close (World.send { w with sock := (recv_line w.sock (buffer 1024) 1024).2.2 }
            (bytes "ERROR: Missing command or path\n"))) ∨
    (∃ cmd q saved, 0 < (recv_line w.sock (buffer 1024) 1024).1 ∧
      request w.sock = some (cmd, q) ∧
      ((cmd = bytes "WRITE" ∧ handle_client os w
          = handle_write os { w with sock := (recv_line w.sock (buffer 1024) 1024).2.2 } q saved) ∨
       (cmd = bytes "GET" ∧ handle_client os w
          = handle_get os { w with sock := (recv_line w.sock (buffer 1024) 1024).2.2 } q) ∨
       (cmd = bytes "RM" ∧ handle_client os w
          = handle_rm os { w with sock := (recv_line w.sock (buffer 1024) 1024).2.2 } q) ∨
       (cmd ≠ bytes "WRITE" ∧ cmd ≠ bytes "GET" ∧ cmd ≠ bytes "RM" ∧ handle_client os w
          = World.close (World.send
              { w with sock := (recv_line w.sock (buffer 1024) 1024).2.2 }
              (bytes "ERROR: Unrecognized command\n"))))) := by
  unfold handle_client request
  by_cases h0 : (recv_line w.sock (buffer 1024) 1024).1 ≤ 0
  · left
    simp only [h0, if_true, and_self, and_true]
    omega
  · right
    have hpos : 0 < (recv_line w.sock (buffer 1024) 1024).1 := by omega
    simp only [h0, if_false, hpos, true_and]
    cases h1 : (strtok (cstr (recv_line w.sock (buffer 1024) 1024).2.1) DELIM).1 with
    | none => left; simp
    | some cmd =>
      cases h2 : (strtok (strtok (cstr (recv_line w.sock (buffer 1024) 1024).2.1) DELIM).2
          DELIM).1 with
      | none => left; simp
      | some q =>
        right
        refine ⟨cmd, q, (strtok (strtok (cstr (recv_line w.sock (buffer 1024) 1024).2.1)
          DELIM).2 DELIM).2, rfl, ?_⟩
        simp only
        by_cases c1 : cmd = bytes "WRITE"
        · left; exact ⟨c1, by rw [if_pos c1]⟩
        · by_cases c2 : cmd = bytes "GET"
          · right; left; exact ⟨c2, by rw [if_neg c1, if_pos c2]⟩
          · by_cases c3 : cmd = bytes "RM"
            · right; right; left; exact ⟨c3, by rw [if_neg c1, if_neg c2, if_pos c3]⟩
            · right; right; right
              exact ⟨c1, c2, c3, by rw [if_neg c1, if_neg c2, if_neg c3]⟩

/-- The outcomes of the WRITE branch, for any input and file system. -/
theorem handle_write_cases (os : OS σ) (w : World σ) (q saved : List Nat) :
    -- no size line, or a size that is not positive
    (((recv_line w.sock (buffer 64) 64).1 = 0 ∨
        atol (cstr (recv_line w.sock (buffer 64) 64).2.1) ≤ 0) ∧
      (handle_write os w q saved).sock.output = w.sock.output ∧
      (handle_write os w q saved).fs = w.fs ∧
      (handle_write os w q saved).trace = w.trace) ∨
    -- read-only
    (0 < atol (cstr (recv_line w.sock (buffer 64) 64).2.1) ∧
      read_meta_file os (ensure_directories os w.fs q) (full_path q) = 82 ∧
      (handle_write os w q saved).sock.output
        = w.sock.output ++ bytes "ERROR: File is read-only\n" ∧
      (handle_write os w q saved).fs = ensure_directories os w.fs q ∧
      (handle_write os w q saved).trace
        = w.trace ++ [Event.ensure_dirs q, Event.lock, Event.meta_read (full_path q),
            Event.unlock]) ∨
    -- the data file cannot be opened
    (0 < atol (cstr (recv_line w.sock (buffer 64) 64).2.1) ∧
      os.fopen_w (ensure_directories os w.fs q) (full_path q) = none ∧
      (handle_write os w q saved).sock.output = w.sock.output ∧
      (handle_write os w q saved).fs = ensure_directories os w.fs q ∧
      (handle_write os w q saved).trace
        = w.trace ++ [Event.ensure_dirs q, Event.lock, Event.meta_read (full_path q),
            Event.data_open (full_path q), Event.unlock]) ∨
    -- body received, permission stored
    (∃ fs1 n w0 k, 0 < atol (cstr (recv_line w.sock (buffer 64) 64).2.1) ∧
      os.fopen_w (ensure_directories os w.fs q) (full_path q) = some fs1 ∧
      read_meta_file os (ensure_directories os w.fs q) (full_path q) ≠ 82 ∧
      0 < n ∧ w0.fs = fs1 ∧ w0.sock.stream
        = w.sock.stream.drop (lineLen w.sock.stream 64) ∧
      (handle_write os w q saved).sock.output = w.sock.output ++ bytes "OK\n" ∧
      (handle_write os w q saved).fs
        = (write_meta_file os (write_body os (full_path q) n n w0).fs (full_path q)
            (permissionOf (strtok saved DELIM).1)).1 ∧
      (handle_write os w q saved).trace
        = w.trace ++ [Event.ensure_dirs q, Event.lock, Event.meta_read (full_path q),
            Event.data_open (full_path q)] ++ List.replicate k (Event.data_write (full_path q))
            ++ [Event.data_close (full_path q), Event.meta_write (full_path q),
              Event.unlock]) := by
  obtain ⟨r1, r2, r3, r4, r5⟩ := recv_line_buffer w.sock 64 (by decide)
  have hfp : snprintf 1024 (SERVER_ROOT ++ [47] ++ q) = full_path q := rfl
  unfold handle_write
  simp only [hfp]
  by_cases h0 : (recv_line w.sock (buffer 64) 64).1 ≤ 0
  · left
    simp only [h0, if_true, World.close, r4, and_self, and_true]
    left; omega
  · simp only [h0, if_false]
    by_cases h1 : atol (cstr (recv_line w.sock (buffer 64) 64).2.1) ≤ 0
    · left
      simp only [h1, if_true, World.close, r4, and_self, and_true, or_true]
    · simp only [h1, if_false]
      right
      by_cases h2 : read_meta_file os (ensure_directories os w.fs q) (full_path q) = 82
      · left
        refine ⟨by omega, ?_⟩
        simp only [World.log, h2, if_true, World.close, World.send, send, r4, List.append_assoc,
          List.cons_append, List.nil_append, and_self]
      · right
        simp only [World.log, h2, if_false]
        cases h3 : os.fopen_w (ensure_directories os w.fs q) (full_path q) with
        | none =>
          left
          refine ⟨by omega, ?_⟩
          simp only [World.close, r4, List.append_assoc, List.cons_append, List.nil_append,
            and_self]
        | some fs1 =>
          right
          obtain ⟨t1, k, t2⟩ := write_body_trace os (full_path q)
            (atol (cstr (recv_line w.sock (buffer 64) 64).2.1)).toNat
            (atol (cstr (recv_line w.sock (buffer 64) 64).2.1)).toNat
            { fs := fs1, sock := (recv_line w.sock (buffer 64) 64).2.2,
              trace := w.trace ++ [Event.ensure_dirs q] ++ [Event.lock]
                ++ [Event.meta_read (full_path q)] ++ [Event.data_open (full_path q)] }
          dsimp only at t1 t2
          refine ⟨fs1, (atol (cstr (recv_line w.sock (buffer 64) 64).2.1)).toNat, _, k,
            by omega, rfl,
            h2, by omega, rfl, r2, ?_, rfl, ?_⟩
          · simp only [World.close, World.send, send, t1, r4]
          · simp only [List.append_assoc, List.cons_append, List.nil_append] at t2
            simp only [World.close, World.send, List.append_assoc, List.cons_append,
              List.nil_append, t2]

/-- The outcomes of the GET branch, for any file system. -/
theorem handle_get_cases (os : OS σ) (w : World σ) (q : List Nat) :
    (os.fopen_r w.fs (full_path q) = none ∧
      (handle_get os w q).sock.output = w.sock.output ++ bytes "ERROR\n" ∧
      (handle_get os w q).fs = w.fs ∧
      (handle_get os w q).sock.input = w.sock.input ∧
      (handle_get os w q).trace
        = w.trace ++ [Event.lock, Event.data_open (full_path q), Event.unlock]) ∨
    (∃ f k, os.fopen_r w.fs (full_path q) = some f ∧
      (w.sock.output ++ snprintf 64 (printLong (ftell f) ++ [10]))
        <+: (handle_get os w q).sock.output ∧
      (handle_get os w q).fs = w.fs ∧
      (handle_get os w q).sock.input = w.sock.input ∧
      (handle_get os w q).trace
        = w.trace ++ [Event.lock, Event.data_open (full_path q)]
            ++ List.replicate k (Event.data_read (full_path q))
            ++ [Event.data_close (full_path q), Event.unlock]) := by
  have hfp : snprintf 1024 (SERVER_ROOT ++ [47] ++ q) = full_path q := rfl
  unfold handle_get
  simp only [hfp, World.log]
  cases hc : os.fopen_r w.fs (full_path q) with
  | none =>
    left
    simp only [World.close, World.send, send, List.append_assoc, List.cons_append,
      List.nil_append, and_self]
  | some f =>
    right
    obtain ⟨j2, j1, j3, k, j6⟩ := get_body_trace (full_path q) (ftell f).toNat (ftell f).toNat f
      (World.send
        { fs := w.fs, sock := w.sock,
          trace := w.trace ++ [Event.lock] ++ [Event.data_open (full_path q)] }
        (snprintf 64 (printLong (ftell f) ++ [10])))
    simp only [World.send, send, List.append_assoc, List.cons_append, List.nil_append]
      at j1 j2 j3 j6
    refine ⟨f, k, rfl, ?_, ?_, ?_, ?_⟩
    · simpa only [World.close, World.send, send, List.append_assoc, List.cons_append,
        List.nil_append] using j1
    · simp only [World.close, World.send, send, List.append_assoc, List.cons_append,
        List.nil_append, j2]
    · simp only [World.close, World.send, send, List.append_assoc, List.cons_append,
        List.nil_append, j3]
    · simp only [World.close, World.send, send, List.append_assoc, List.cons_append,
        List.nil_append, j6]

/-- A GET of a path that opens as a regular file: the size line, then the
file transformed back. -/
theorem handle_get_regular (os : OS σ) (w : World σ) (p c : List Nat)
    (hc : os.fopen_r w.fs (full_path p) = some (Handle.regular c)) (hlen : c.length < 2 ^ 63) :
    (handle_get os w p).sock.output
      = w.sock.output ++ SIZE_line c.length ++ c.map (fun b => b ^^^ XOR_KEY) ∧
    (handle_get os w p).fs = w.fs := by
  have hfp : snprintf 1024 (SERVER_ROOT ++ [47] ++ p) = full_path p := rfl
  have hsz : snprintf 64 (decimal c.length ++ [10]) = SIZE_line c.length := by
    apply snprintf_fits
    have := decimal_length c.length hlen
    simp only [List.length_append, List.length_singleton]
    omega
  have hpl : printLong (c.length : Int) = decimal c.length := by
    simp [printLong]
  unfold handle_get
  simp only [hfp, World.log, hc, ftell, hpl, hsz, World.close, World.send, Int.toNat_ofNat]
  obtain ⟨j1, j2, -⟩ := get_body_spec (full_path p) c.length c.length c
    { fs := w.fs, sock := send w.sock (SIZE_line c.length),
      trace := w.trace ++ [Event.lock] ++ [Event.data_open (full_path p)] } (le_refl _) rfl
  refine ⟨?_, ?_⟩
  · rw [j1]; simp [send]
  · rw [j2]

/-- A GET of a path that cannot be opened. -/
theorem handle_get_missing (os : OS σ) (w : World σ) (p : List Nat)
    (hc : os.fopen_r w.fs (full_path p) = none) :
    (handle_get os w p).sock.output = w.sock.output ++ bytes "ERROR\n" ∧
    (handle_get os w p).fs = w.fs := by
  have hfp : snprintf 1024 (SERVER_ROOT ++ [47] ++ p) = full_path p := rfl
  unfold handle_get
  simp only [hfp, World.log, hc, World.close, World.send, send, and_self]

/-- The outcomes of the RM branch, for any file system. -/
theorem handle_rm_cases (os : OS σ) (w : World σ) (q : List Nat) :
    (read_meta_file os w.fs (full_path q) = 82 ∧
      (handle_rm os w q).sock.output = w.sock.output ++ bytes "ERROR\n" ∧
      (handle_rm os w q).fs = w.fs ∧
      (handle_rm os w q).sock.input = w.sock.input ∧
      (handle_rm os w q).trace
        = w.trace ++ [Event.lock, Event.meta_read (full_path q), Event.unlock]) ∨
    (∃ fs1, os.remove w.fs (full_path q) = some fs1 ∧
      read_meta_file os w.fs (full_path q) ≠ 82 ∧
      (handle_rm os w q).sock.output = w.sock.output ++ bytes "OK\n" ∧
      (handle_rm os w q).fs = (os.remove fs1 (meta_path (full_path q))).getD fs1 ∧
      (handle_rm os w q).sock.input = w.sock.input ∧
      (handle_rm os w q).trace
        = w.trace ++ [Event.lock, Event.meta_read (full_path q),
            Event.data_remove (full_path q), Event.meta_remove (full_path q),
            Event.unlock]) ∨
    (os.remove w.fs (full_path q) = none ∧
      (handle_rm os w q).sock.output = w.sock.output ++ bytes "ERROR\n" ∧
      (handle_rm os w q).fs = w.fs ∧
      (handle_rm os w q).sock.input = w.sock.input ∧
      (handle_rm os w q).trace
        = w.trace ++ [Event.lock, Event.meta_read (full_path q),
            Event.data_remove (full_path q), Event.unlock]) := by
  have hfp : snprintf 1024 (SERVER_ROOT ++ [47] ++ q) = full_path q := rfl
  have hmp : snprintf 1100 (full_path q ++ bytes ".meta") = meta_path (full_path q) := rfl
  unfold handle_rm
  simp only [hfp, hmp, World.log]
  by_cases h2 : read_meta_file os w.fs (full_path q) = 82
  · left
    simp only [h2, if_true, World.close, World.send, send, List.append_assoc, List.cons_append,
      List.nil_append, and_self]
  · right
    simp only [h2, if_false]
    cases h3 : os.remove w.fs (full_path q) with
    | none =>
      right
      simp only [World.close, World.send, send, List.append_assoc, List.cons_append,
        List.nil_append, and_self]
    | some fs1 =>
      left
      refine ⟨fs1, rfl, fun h => h2 h, ?_, ?_, ?_, ?_⟩ <;>
        simp only [World.close, World.send, send, List.append_assoc, List.cons_append,
          List.nil_append]

end Server

namespace Server

variable {σ : Type}

/-! ### The mutex discipline -/

theorem guardRun_fileops (mid rest : List Event) (h : ∀ e ∈ mid, e.isFileOp = true) :
    guardRun true (mid ++ rest) = guardRun true rest := by
  induction mid with
  | nil => rfl
  | cons e mid ih =>
    have he := h e (List.mem_cons_self _ _)
    have := ih (fun x hx => h x (List.mem_cons_of_mem _ hx))
    cases e <;> simp_all [guardRun, Event.isFileOp]

theorem count_lock_fileops (mid : List Event) (h : ∀ e ∈ mid, e.isFileOp = true) :
    mid.count Event.lock = 0 ∧ mid.count Event.unlock = 0 := by
  constructor
  · rw [List.count_eq_zero]
    intro hm
    have := h _ hm
    simp [Event.isFileOp] at this
  · rw [List.count_eq_zero]
    intro hm
    have := h _ hm
    simp [Event.isFileOp] at this

theorem disciplined_guard (t : List Event) (h : Disciplined t) :
    guardRun false t = some false ∧ t.count Event.lock ≤ 1 ∧
      t.count Event.unlock = t.count Event.lock := by
  obtain ⟨pre, mid, hpre, hmid, ht⟩ := h
  obtain ⟨c1, c2⟩ := count_lock_fileops mid hmid
  have g := guardRun_fileops mid [Event.unlock] hmid
  rcases hpre with rfl | ⟨q, rfl⟩ <;> rcases ht with rfl | rfl
  · exact ⟨rfl, by simp, by simp⟩
  · refine ⟨?_, ?_, ?_⟩
    · simp only [List.nil_append, List.singleton_append, List.cons_append, guardRun,
        Bool.false_eq_true, if_false]
      show guardRun true (mid ++ [Event.unlock]) = some false
      rw [g]; rfl
    · simp [List.count_cons, c1]
    · simp [List.count_cons, c1, c2]
  · exact ⟨rfl, by simp [List.count_cons], by simp [List.count_cons]⟩
  · refine ⟨?_, ?_, ?_⟩
    · simp only [List.singleton_append, List.cons_append, List.nil_append, guardRun,
        Event.isFileOp, Bool.false_and, Bool.false_eq_true, if_false]
      show guardRun true (mid ++ [Event.unlock]) = some false
      rw [g]; rfl
    · simp [List.count_cons, c1]
    · simp [List.count_cons, c1, c2]

theorem mem_replicate_fileop (k : Nat) (e x : Event) (he : e.isFileOp = true)
    (hx : x ∈ List.replicate k e) : x.isFileOp = true := by
  rw [List.mem_replicate] at hx
  rw [hx.2]; exact he

theorem handle_client_disciplined (os : OS σ) (fs : σ) (sock : Conn) :
    Disciplined (handle_client os ⟨fs, sock, []⟩).trace := by
  rcases handle_client_cases os ⟨fs, sock, []⟩ with ⟨-, -, h⟩ | ⟨-, -, h⟩ |
    ⟨cmd, q, saved, -, -, h⟩
  · rw [h]; exact ⟨[], [], Or.inl rfl, by simp, Or.inl rfl⟩
  · rw [h]; exact ⟨[], [], Or.inl rfl, by simp, Or.inl rfl⟩
  · rcases h with ⟨-, h⟩ | ⟨-, h⟩ | ⟨-, h⟩ | ⟨-, -, -, h⟩
    · rw [h]
      rcases handle_write_cases os _ q saved with ⟨-, -, -, t⟩ | ⟨-, -, -, -, t⟩ |
        ⟨-, -, -, -, t⟩ | ⟨fs1, n, w0, k, -, -, -, -, -, -, -, -, t⟩
      · rw [t]; exact ⟨[], [], Or.inl rfl, by simp, Or.inl rfl⟩
      · rw [t]
        exact ⟨[Event.ensure_dirs q], [Event.meta_read (full_path q)], Or.inr ⟨q, rfl⟩,
          by simp [Event.isFileOp], Or.inr rfl⟩
      · rw [t]
        exact ⟨[Event.ensure_dirs q],
          [Event.meta_read (full_path q), Event.data_open (full_path q)], Or.inr ⟨q, rfl⟩,
          by simp [Event.isFileOp], Or.inr rfl⟩
      · rw [t]
        refine ⟨[Event.ensure_dirs q],
          [Event.meta_read (full_path q), Event.data_open (full_path q)]
            ++ List.replicate k (Event.data_write (full_path q))
            ++ [Event.data_close (full_path q), Event.meta_write (full_path q)],
          Or.inr ⟨q, rfl⟩, ?_, Or.inr (by simp)⟩
        intro e he
        simp only [List.mem_append, List.mem_cons, List.mem_singleton, List.not_mem_nil,
          or_false] at he
        rcases he with ((rfl | rfl) | he) | (rfl | rfl)
        · rfl
        · rfl
        · exact mem_replicate_fileop k (Event.data_write (full_path q)) e rfl he
        · rfl
        · rfl
    · rw [h]
      rcases handle_get_cases os _ q with ⟨-, -, -, -, t⟩ | ⟨c, k, -, -, -, -, t⟩
      · rw [t]
        exact ⟨[], [Event.data_open (full_path q)], Or.inl rfl, by simp [Event.isFileOp],
          Or.inr rfl⟩
      · rw [t]
        refine ⟨[], [Event.data_open (full_path q)]
            ++ List.replicate k (Event.data_read (full_path q))
            ++ [Event.data_close (full_path q)], Or.inl rfl, ?_, Or.inr (by simp)⟩
        intro e he
        simp only [List.mem_append, List.mem_singleton] at he
        rcases he with (rfl | he) | rfl
        · rfl
        · exact mem_replicate_fileop k (Event.data_read (full_path q)) e rfl he
        · rfl
    · rw [h]
      rcases handle_rm_cases os _ q with ⟨-, -, -, -, t⟩ | ⟨fs1, -, -, -, -, -, t⟩ |
        ⟨-, -, -, -, t⟩
      · rw [t]
        exact ⟨[], [Event.meta_read (full_path q)], Or.inl rfl, by simp [Event.isFileOp],
          Or.inr rfl⟩
      · rw [t]
        exact ⟨[], [Event.meta_read (full_path q), Event.data_remove (full_path q),
          Event.meta_remove (full_path q)], Or.inl rfl, by simp [Event.isFileOp], Or.inr rfl⟩
      · rw [t]
        exact ⟨[], [Event.meta_read (full_path q), Event.data_remove (full_path q)],
          Or.inl rfl, by simp [Event.isFileOp], Or.inr rfl⟩
    · rw [h]; exact ⟨[], [], Or.inl rfl, by simp, Or.inl rfl⟩

/-- Claim C10 (guard discipline): for every file system behaviour, storage
and connection, the calls of one `handle_client` run are either free of
mutex and file calls, or consist of at most the directory creation, then one
`lock`, then only calls on data files and permission records, then one
`unlock` as the last call.  Hence the run obeys the mutex automaton
(`lock` when free, `unlock` when held, file calls only when held) and ends
with the mutex free, having locked at most once and unlocked as often. -/
theorem guard_discipline (os : OS σ) (fs : σ) (sock : Conn) :
    Disciplined (handle_client os ⟨fs, sock, []⟩).trace ∧
    guardRun false (handle_client os ⟨fs, sock, []⟩).trace = some false ∧
    (handle_client os ⟨fs, sock, []⟩).trace.count Event.lock ≤ 1 ∧
    (handle_client os ⟨fs, sock, []⟩).trace.count Event.unlock
      = (handle_client os ⟨fs, sock, []⟩).trace.count Event.lock :=
  ⟨handle_client_disciplined os fs sock,
    disciplined_guard _ (handle_client_disciplined os fs sock)⟩

/-- Claim C6, as amended (size-line rejection): for every file system
behaviour, when the handler parses a request as a WRITE and the size line it
reads has no positive value as `atol` reads it (optional white space, an
optional sign, then the leading decimal digits; none, or no line at all, give
`0`), it sends no byte and makes no call on the storage tree: no directory,
no data file and no permission record is created or changed. -/
theorem size_line_rejection (os : OS σ) (w : World σ) (q : Path)
    (hreq : request w.sock = some (bytes "WRITE", q))
    (hsize : atol (sizeLine w.sock) ≤ 0) :
    (handle_client os w).sock.output = w.sock.output ∧
    (handle_client os w).fs = w.fs ∧
    (handle_client os w).trace = w.trace := by
  obtain ⟨-, -, -, r4, -⟩ := recv_line_buffer w.sock 1024 (by decide)
  rcases handle_client_cases os w with ⟨-, h, -⟩ | ⟨-, h, -⟩ | ⟨cmd, q', saved, -, h, hc⟩
  · rw [h] at hreq; exact absurd hreq (by simp)
  · rw [h] at hreq; exact absurd hreq (by simp)
  · rw [h] at hreq
    simp only [Option.some.injEq, Prod.mk.injEq] at hreq
    obtain ⟨rfl, rfl⟩ := hreq
    rcases hc with ⟨-, h⟩ | ⟨c, -⟩ | ⟨c, -⟩ | ⟨c, -⟩
    · rw [h]
      rcases handle_write_cases os { w with sock := (recv_line w.sock (buffer 1024) 1024).2.2 }
        q' saved with ⟨-, o, f, t⟩ | ⟨hpos, -⟩ | ⟨hpos, -⟩ | ⟨_, _, _, _, hpos, -⟩
      · exact ⟨by rw [o]; exact r4, f, t⟩
      · exact absurd hsize (not_le.2 hpos)
      · exact absurd hsize (not_le.2 hpos)
      · exact absurd hsize (not_le.2 hpos)
    · exact absurd c (by decide)
    · exact absurd c (by decide)
    · exact absurd rfl c

/-- The rejection of C6 at a WRITE whose size line is `-5`. -/
theorem size_line_rejection_witness :
    (handle_client posix ⟨fresh, connect [bytes "WRITE d/x\n-5\nhello"] false, []⟩).sock.output
      = [] ∧
    (handle_client posix ⟨fresh, connect [bytes "WRITE d/x\n-5\nhello"] false, []⟩).fs
      = fresh ∧
    (handle_client posix ⟨fresh, connect [bytes "WRITE d/x\n-5\nhello"] false, []⟩).trace
      = [] :=
  size_line_rejection posix ⟨fresh, connect [bytes "WRITE d/x\n-5\nhello"] false, []⟩
    (bytes "d/x") (by decide) (by decide)

/-- Claim C6 as stated fails: the size line `12abc` is not the base-10
representation of a positive integer, yet the WRITE is carried out: the
directory `server_root/d` is made, twelve bytes are stored in the data file,
the permission record is written and `OK` is sent. -/
theorem size_line_rejection_counterexample :
    isPositiveDecimal (bytes "12abc\n") = false ∧
    request (connect [bytes "WRITE d/x\n12abc\nhello world!"] false)
      = some (bytes "WRITE", bytes "d/x") ∧
    sizeLine (connect [bytes "WRITE d/x\n12abc\nhello world!"] false) = bytes "12abc\n" ∧
    (serve fresh (connect [bytes "WRITE d/x\n12abc\nhello world!"] false)).sock.output
      = bytes "OK\n" ∧
    (serve fresh (connect [bytes "WRITE d/x\n12abc\nhello world!"] false)).fs.nodes
      = [([bytes "srv", bytes "server_root", bytes "d", bytes "x.meta"], Node.file [87]),
          ([bytes "srv", bytes "server_root", bytes "d", bytes "x"],
            Node.file ((bytes "hello world!").map (fun b => b ^^^ XOR_KEY))),
          ([bytes "srv", bytes "server_root", bytes "d"], Node.dir),
          ([bytes "srv", bytes "server_root"], Node.dir), ([bytes "srv"], Node.dir)] := by
  decide

/-! ### Tokens and `strtok` -/

theorem tokensAux_spec (d : List Nat) (s : List Nat) : ∀ (cur : List Nat),
    tokensAux d cur s =
      if cur ++ s.takeWhile (fun b => b ∉ d) = [] then
        tokensAux d [] ((s.dropWhile (fun b => b ∉ d)).drop 1)
      else (cur ++ s.takeWhile (fun b => b ∉ d))
        :: tokensAux d [] ((s.dropWhile (fun b => b ∉ d)).drop 1) := by
  induction s with
  | nil =>
    intro cur
    by_cases hc : cur = [] <;> simp [tokensAux, hc]
  | cons b rest ih =>
    intro cur
    by_cases hb : b ∈ d
    · by_cases hc : cur = [] <;>
        simp [tokensAux, hb, hc, List.takeWhile_cons, List.dropWhile_cons]
    · rw [tokensAux, if_neg hb, ih (cur ++ [b])]
      simp [hb, List.takeWhile_cons, List.dropWhile_cons]

theorem tokensAux_skip (d : List Nat) (s : List Nat) :
    tokensAux d [] (s.dropWhile (fun b => b ∈ d)) = tokensAux d [] s := by
  induction s with
  | nil => rfl
  | cons b rest ih =>
    by_cases hb : b ∈ d
    · simp only [List.dropWhile_cons, hb, decide_True, if_true, ih, tokensAux]
    · simp only [List.dropWhile_cons, hb, decide_False, Bool.false_eq_true, if_false]

/-- The tokens of a string are what successive `strtok` calls return. -/
theorem tokens_strtok (d : List Nat) (s : List Nat) :
    tokens d s = match (strtok s d).1 with
      | none => []
      | some a => a :: tokens d (strtok s d).2 := by
  unfold tokens strtok
  rw [← tokensAux_skip d s]
  by_cases h : s.dropWhile (fun b => b ∈ d) = []
  · simp only [h, if_true]
    rfl
  · simp only [h, if_false]
    rw [tokensAux_spec]
    have hne : (s.dropWhile (fun b => b ∈ d)).takeWhile (fun b => b ∉ d) ≠ [] := by
      cases hs : s.dropWhile (fun b => b ∈ d) with
      | nil => exact absurd hs h
      | cons x t =>
        have hx := List.head_dropWhile_not (fun b => decide (b ∈ d)) s (by rw [hs]; simp)
        simp only [hs, List.head_cons, decide_eq_true_eq] at hx
        simp [List.takeWhile_cons, hx]
    simp only [List.nil_append, hne, if_false]

theorem cstr_append_nul (a b : List Nat) : cstr (a ++ 0 :: b) = cstr a := by
  unfold cstr
  induction a with
  | nil => simp
  | cons x t ih =>
    by_cases hx : x = 0
    · simp [List.takeWhile_cons, hx]
    · simp only [List.cons_append, List.takeWhile_cons, ne_eq, hx, not_false_eq_true,
        decide_True, if_true, ih]

theorem firstLine_fst (sock : Conn) :
    (firstLine sock).1 = (recv_line sock (buffer 1024) 1024).1 := rfl

theorem cstr_firstLine (sock : Conn) :
    cstr (firstLine sock).2 = cstr (recv_line sock (buffer 1024) 1024).2.1 := by
  obtain ⟨i1, i2, -⟩ := recv_line_spec sock (buffer 1024) 1024 (by decide)
    (by rw [buffer_length])
  obtain ⟨-, l2⟩ := lineLen_le sock.stream 1024
  have hlen : (sock.stream.take (lineLen sock.stream 1024)).length = lineLen sock.stream 1024 := by
    simp [List.length_take, l2]
  unfold firstLine
  simp only
  rw [i1, i2, List.take_append_eq_append_take, hlen, Nat.sub_self, List.take_zero,
    List.append_nil, List.take_take, Nat.min_self, cstr_append_nul]

/-- What `handle_client` parses, in terms of the tokens of the line. -/
theorem request_tokens (sock : Conn) (hline : 0 < (firstLine sock).1) :
    (request sock = none ↔ (tokens DELIM (cstr (firstLine sock).2)).length < 2) ∧
    (∀ cmd q, request sock = some (cmd, q) →
      (tokens DELIM (cstr (firstLine sock).2)).head? = some cmd) := by
  rw [cstr_firstLine]
  rw [firstLine_fst] at hline
  have h0 : ¬ (recv_line sock (buffer 1024) 1024).1 ≤ 0 := by omega
  unfold request
  simp only [h0, if_false]
  rw [tokens_strtok]
  cases h1 : (strtok (cstr (recv_line sock (buffer 1024) 1024).2.1) DELIM).1 with
  | none => simp
  | some cmd =>
    simp only
    rw [tokens_strtok]
    cases h2 : (strtok (strtok (cstr (recv_line sock (buffer 1024) 1024).2.1) DELIM).2
        DELIM).1 with
    | none => simp
    | some q => simp

theorem size_reply_head (n : Int) (xs : List Nat) :
    ∃ d t, snprintf 64 (printLong n ++ [10]) ++ xs = d :: t ∧ d ≠ 69 := by
  unfold printLong
  by_cases hn : n < 0
  · rw [if_pos hn]
    exact ⟨45, List.take 62 (decimal n.natAbs ++ [10]) ++ xs, by simp [snprintf], by decide⟩
  · rw [if_neg hn]
    have hne := decimalDigits_ne_nil n.toNat n.toNat
    have hd := decimal_digit n.toNat
    unfold decimal at hd ⊢
    cases hds : decimalDigits (n.toNat + 1) n.toNat with
    | nil => exact absurd hds hne
    | cons d ds =>
      rw [hds] at hd
      have := hd d (List.mem_cons_self _ _)
      exact ⟨d, List.take 62 (ds ++ [10]) ++ xs, by simp [snprintf], by omega⟩

/-- No reply of the WRITE, GET and RM branches is one of the dispatcher's two
error lines. -/
theorem branch_reply_ne (out x : List Nat)
    (h : x = [] ∨ x = bytes "ERROR: File is read-only\n" ∨ x = bytes "OK\n" ∨
      x = bytes "ERROR\n" ∨ ∃ d t, x = d :: t ∧ d ≠ 69) :
    out ++ x ≠ out ++ bytes "ERROR: Missing command or path\n" ∧
    out ++ x ≠ out ++ bytes "ERROR: Unrecognized command\n" := by
  have key : x ≠ bytes "ERROR: Missing command or path\n" ∧
      x ≠ bytes "ERROR: Unrecognized command\n" := by
    rcases h with rfl | rfl | rfl | rfl | ⟨d, t, rfl, h1⟩
    · exact ⟨by decide, by decide⟩
    · exact ⟨by decide, by decide⟩
    · exact ⟨by decide, by decide⟩
    · exact ⟨by decide, by decide⟩
    · constructor
      · intro h
        have : d = 69 := by
          have := congrArg List.head? h
          simpa [bytes] using this
        exact h1 this
      · intro h
        have : d = 69 := by
          have := congrArg List.head? h
          simpa [bytes] using this
        exact h1 this
  exact ⟨fun h => key.1 (List.append_cancel_left h), fun h => key.2 (List.append_cancel_left h)⟩

/-- The reply of the branches WRITE, GET and RM, whatever the file system. -/
theorem branch_reply (os : OS σ) (w : World σ) (q saved : List Nat) :
    (∃ x, (handle_write os w q saved).sock.output = w.sock.output ++ x ∧
      (x = [] ∨ x = bytes "ERROR: File is read-only\n" ∨ x = bytes "OK\n" ∨
        x = bytes "ERROR\n" ∨ ∃ d t, x = d :: t ∧ d ≠ 69)) ∧
    (∃ x, (handle_get os w q).sock.output = w.sock.output ++ x ∧
      (x = [] ∨ x = bytes "ERROR: File is read-only\n" ∨ x = bytes "OK\n" ∨
        x = bytes "ERROR\n" ∨ ∃ d t, x = d :: t ∧ d ≠ 69)) ∧
    (∃ x, (handle_rm os w q).sock.output = w.sock.output ++ x ∧
      (x = [] ∨ x = bytes "ERROR: File is read-only\n" ∨ x = bytes "OK\n" ∨
        x = bytes "ERROR\n" ∨ ∃ d t, x = d :: t ∧ d ≠ 69)) := by
  refine ⟨?_, ?_, ?_⟩
  · rcases handle_write_cases os w q saved with ⟨-, o, -⟩ | ⟨-, -, o, -⟩ | ⟨-, -, o, -⟩ |
      ⟨_, _, _, _, -, -, -, -, -, -, o, -⟩
    · exact ⟨[], by rw [o, List.append_nil], Or.inl rfl⟩
    · exact ⟨_, o, Or.inr (Or.inl rfl)⟩
    · exact ⟨[], by rw [o, List.append_nil], Or.inl rfl⟩
    · exact ⟨_, o, Or.inr (Or.inr (Or.inl rfl))⟩
  · rcases handle_get_cases os w q with ⟨-, o, -⟩ | ⟨c, k, -, o, -⟩
    · exact ⟨_, o, Or.inr (Or.inr (Or.inr (Or.inl rfl)))⟩
    · obtain ⟨rest, o⟩ := o
      exact ⟨snprintf 64 (printLong (ftell c) ++ [10]) ++ rest,
        by rw [← o, List.append_assoc],
        Or.inr (Or.inr (Or.inr (Or.inr (size_reply_head _ _))))⟩
  · rcases handle_rm_cases os w q with ⟨-, o, -⟩ | ⟨_, -, -, o, -⟩ | ⟨-, o, -⟩
    · exact ⟨_, o, Or.inr (Or.inr (Or.inr (Or.inl rfl)))⟩
    · exact ⟨_, o, Or.inr (Or.inr (Or.inl rfl))⟩
    · exact ⟨_, o, Or.inr (Or.inr (Or.inr (Or.inl rfl)))⟩

/-- Claim C9, as amended (dispatcher error classification): for every file
system behaviour and every non-empty first line, with the tokens taken as the
maximal runs of bytes other than space and newline in the line up to its
first NUL byte, the reply is exactly `ERROR: Missing command or path` if and
only if there are fewer than two tokens; otherwise it is exactly
`ERROR: Unrecognized command` if and only if the first token is none of
`WRITE`, `GET`, `RM`; and in both error cases nothing beyond the first line
is read from the connection and no call is made on the storage tree. -/
theorem dispatcher_errors (os : OS σ) (w : World σ) (hline : 0 < (firstLine w.sock).1) :
    ((handle_client os w).sock.output
        = w.sock.output ++ bytes "ERROR: Missing command or path\n" ↔
      (tokens DELIM (cstr (firstLine w.sock).2)).length < 2) ∧
    (2 ≤ (tokens DELIM (cstr (firstLine w.sock).2)).length →
      ((handle_client os w).sock.output
          = w.sock.output ++ bytes "ERROR: Unrecognized command\n" ↔
        ∀ cmd, (tokens DELIM (cstr (firstLine w.sock).2)).head? = some cmd →
          cmd ≠ bytes "WRITE" ∧ cmd ≠ bytes "GET" ∧ cmd ≠ bytes "RM")) ∧
    (((handle_client os w).sock.output
          = w.sock.output ++ bytes "ERROR: Missing command or path\n" ∨
        (handle_client os w).sock.output
          = w.sock.output ++ bytes "ERROR: Unrecognized command\n") →
      (handle_client os w).sock.stream = w.sock.stream.drop (firstLine w.sock).1 ∧
      (handle_client os w).fs = w.fs ∧
      (handle_client os w).trace = w.trace) := by
  obtain ⟨r1, r2, -, r4, -⟩ := recv_line_buffer w.sock 1024 (by decide)
  obtain ⟨t1, t2⟩ := request_tokens w.sock hline
  have hmu : bytes "ERROR: Unrecognized command\n" ≠ bytes "ERROR: Missing command or path\n" := by
    decide
  rcases handle_client_cases os w with ⟨h0, -, -⟩ | ⟨-, hreq, h⟩ | ⟨cmd, q, saved, -, hreq, hc⟩
  · rw [firstLine_fst] at hline; omega
  · -- fewer than two tokens
    have hlt := t1.1 hreq
    have hout : (handle_client os w).sock.output
        = w.sock.output ++ bytes "ERROR: Missing command or path\n" := by
      rw [h]; simp only [World.close, World.send, send, r4]
    refine ⟨⟨fun _ => hlt, fun _ => hout⟩, fun h2 => by omega, fun _ => ?_⟩
    rw [h]
    refine ⟨?_, rfl, rfl⟩
    simp only [World.close, World.send, send, Conn.stream, firstLine_fst, r1]
    exact r2
  · have hhead := t2 cmd q hreq
    have hge : ¬ (tokens DELIM (cstr (firstLine w.sock).2)).length < 2 := by
      intro hlt
      rw [t1.2 hlt] at hreq
      exact absurd hreq (by simp)
    obtain ⟨bw, bg, br⟩ := branch_reply os
      { w with sock := (recv_line w.sock (buffer 1024) 1024).2.2 } q saved
    have known : cmd = bytes "WRITE" ∨ cmd = bytes "GET" ∨ cmd = bytes "RM" →
        (handle_client os w).sock.output
            ≠ w.sock.output ++ bytes "ERROR: Missing command or path\n" ∧
          (handle_client os w).sock.output
            ≠ w.sock.output ++ bytes "ERROR: Unrecognized command\n" := by
      intro hk
      rcases hc with ⟨-, h⟩ | ⟨-, h⟩ | ⟨-, h⟩ | ⟨c1, c2, c3, -⟩
      · obtain ⟨x, hx, hset⟩ := bw
        rw [h, hx]; simp only [r4]; exact branch_reply_ne _ x hset
      · obtain ⟨x, hx, hset⟩ := bg
        rw [h, hx]; simp only [r4]; exact branch_reply_ne _ x hset
      · obtain ⟨x, hx, hset⟩ := br
        rw [h, hx]; simp only [r4]; exact branch_reply_ne _ x hset
      · rcases hk with hk | hk | hk
        · exact absurd hk c1
        · exact absurd hk c2
        · exact absurd hk c3
    by_cases hk : cmd = bytes "WRITE" ∨ cmd = bytes "GET" ∨ cmd = bytes "RM"
    · obtain ⟨n1, n2⟩ := known hk
      refine ⟨⟨fun h => absurd h n1, fun h => absurd h hge⟩, fun _ => ⟨fun h => absurd h n2, ?_⟩,
        fun h => ?_⟩
      · intro hall
        obtain ⟨a1, a2, a3⟩ := hall cmd hhead
        rcases hk with hk | hk | hk
        · exact absurd hk a1
        · exact absurd hk a2
        · exact absurd hk a3
      · rcases h with h | h
        · exact absurd h n1
        · exact absurd h n2
    · have c1 : cmd ≠ bytes "WRITE" := fun h => hk (Or.inl h)
      have c2 : cmd ≠ bytes "GET" := fun h => hk (Or.inr (Or.inl h))
      have c3 : cmd ≠ bytes "RM" := fun h => hk (Or.inr (Or.inr h))
      have h : handle_client os w = World.close (World.send
          { w with sock := (recv_line w.sock (buffer 1024) 1024).2.2 }
          (bytes "ERROR: Unrecognized command\n")) := by
        rcases hc with ⟨c, -⟩ | ⟨c, -⟩ | ⟨c, -⟩ | ⟨-, -, -, h⟩
        · exact absurd c c1
        · exact absurd c c2
        · exact absurd c c3
        · exact h
      have hout : (handle_client os w).sock.output
          = w.sock.output ++ bytes "ERROR: Unrecognized command\n" := by
        rw [h]; simp only [World.close, World.send, send, r4]
      refine ⟨⟨fun hm => ?_, fun h => absurd h hge⟩, fun _ => ⟨fun _ => ?_, fun _ => hout⟩,
        fun _ => ?_⟩
      · rw [hout] at hm
        exact absurd (List.append_cancel_left hm) hmu
      · intro cmd' hcmd'
        rw [hhead] at hcmd'
        simp only [Option.some.injEq] at hcmd'
        subst hcmd'
        exact ⟨c1, c2, c3⟩
      · rw [h]
        refine ⟨?_, rfl, rfl⟩
        simp only [World.close, World.send, send, Conn.stream, firstLine_fst, r1]
        exact r2

/-- The classification of C9 at the line `PUT a`, which has two tokens, the
first no command, and bytes behind it that stay unread. -/
theorem dispatcher_errors_witness :
    (2 ≤ (tokens DELIM (cstr (firstLine (connect [bytes "PUT a\nmore"] false)).2)).length →
      ((handle_client posix ⟨fresh, connect [bytes "PUT a\nmore"] false, []⟩).sock.output
          = (connect [bytes "PUT a\nmore"] false).output
              ++ bytes "ERROR: Unrecognized command\n" ↔
        ∀ cmd, (tokens DELIM (cstr (firstLine (connect [bytes "PUT a\nmore"] false)).2)).head?
            = some cmd →
          cmd ≠ bytes "WRITE" ∧ cmd ≠ bytes "GET" ∧ cmd ≠ bytes "RM")) ∧
    (handle_client posix ⟨fresh, connect [bytes "PUT a\nmore"] false, []⟩).sock.output
      = bytes "ERROR: Unrecognized command\n" ∧
    (handle_client posix ⟨fresh, connect [bytes "PUT a\nmore"] false, []⟩).sock.stream
      = bytes "more" :=
  ⟨(dispatcher_errors posix ⟨fresh, connect [bytes "PUT a\nmore"] false, []⟩
      (by decide)).2.1, by decide, by decide⟩

/-- Claim C9 as stated fails: the line `GET<TAB>a` splits at white space into
the two tokens `GET` and `a`, the first a command, yet the reply is exactly
`ERROR: Missing command or path`, because the handler separates tokens at
space and newline only.  Likewise the line `GET<NUL> a` has two tokens even
when split at space and newline only, the first not a command, yet the reply
is the same, because the handler reads the line as a C string. -/
theorem dispatcher_errors_counterexample :
    firstLine (connect [bytes "GET\ta\n"] false) = (6, bytes "GET\ta\n") ∧
    tokens WHITESPACE (bytes "GET\ta\n") = [bytes "GET", bytes "a"] ∧
    (serve fresh (connect [bytes "GET\ta\n"] false)).sock.output
      = bytes "ERROR: Missing command or path\n" ∧
    firstLine (connect [[71, 69, 84, 0, 32, 97, 10]] false) = (7, [71, 69, 84, 0, 32, 97, 10]) ∧
    tokens DELIM [71, 69, 84, 0, 32, 97, 10] = [[71, 69, 84, 0], [97]] ∧
    tokens WHITESPACE [71, 69, 84, 0, 32, 97, 10] = [[71, 69, 84, 0], [97]] ∧
    (serve fresh (connect [[71, 69, 84, 0, 32, 97, 10]] false)).sock.output
      = bytes "ERROR: Missing command or path\n" := by
  decide

/-! ### The tree -/

theorem lookupNode_filter (ns : List (Loc × Node)) (l q : Loc) :
    lookupNode (ns.filter (fun e => e.1 ≠ l)) q = if q = l then none else lookupNode ns q := by
  induction ns with
  | nil => simp [lookupNode]
  | cons e rest ih =>
    by_cases he : e.1 = l
    · have hf : (e :: rest).filter (fun e => e.1 ≠ l) = rest.filter (fun e => e.1 ≠ l) := by
        simp [List.filter_cons, he]
      rw [hf, ih]
      by_cases hq : q = l
      · simp [hq]
      · have : ¬ e.1 = q := fun h => hq (h ▸ he)
        simp [hq, lookupNode, this]
    · have hf : (e :: rest).filter (fun e => e.1 ≠ l) = e :: rest.filter (fun e => e.1 ≠ l) := by
        simp [List.filter_cons, he]
      rw [hf]
      by_cases hq : q = l
      · subst hq
        simp only [lookupNode, he, if_false, ih, if_true]
      · simp only [lookupNode, ih, hq, if_false]

theorem lookupNode_mem (ns : List (Loc × Node)) (l : Loc) (n : Node)
    (h : lookupNode ns l = some n) : (l, n) ∈ ns := by
  induction ns with
  | nil => simp [lookupNode] at h
  | cons e rest ih =>
    by_cases he : e.1 = l
    · simp only [lookupNode, he, if_true, Option.some.injEq] at h
      have : e = (l, n) := by
        cases e
        simp only at he h
        rw [he, h]
      rw [this]
      exact List.mem_cons_self _ _
    · simp only [lookupNode, he, if_false] at h
      exact List.mem_cons_of_mem _ (ih h)

theorem nodeAt_root (fs : FS) : nodeAt fs [] = some Node.dir := by
  simp [nodeAt]

theorem isDir_iff (fs : FS) (l : Loc) : isDir fs l = true ↔ nodeAt fs l = some Node.dir := by
  simp [isDir]

theorem isDir_false_iff (fs : FS) (l : Loc) :
    isDir fs l = false ↔ nodeAt fs l ≠ some Node.dir := by
  simp [isDir]

theorem ne_nil_of_not_isDir (fs : FS) (l : Loc) (h : isDir fs l = false) : l ≠ [] := by
  intro hl
  subst hl
  simp [isDir, nodeAt] at h

theorem ne_nil_of_nodeAt_none (fs : FS) (l : Loc) (h : nodeAt fs l = none) : l ≠ [] := by
  intro hl
  subst hl
  simp [nodeAt] at h

theorem ne_nil_of_nodeAt_file (fs : FS) (l : Loc) (c : List Nat)
    (h : nodeAt fs l = some (Node.file c)) : l ≠ [] := by
  intro hl
  subst hl
  simp [nodeAt] at h

theorem nodeAt_put (fs : FS) (l : Loc) (n : Node) (q : Loc) (hl : l ≠ []) :
    nodeAt (put fs l n) q = if q = l then some n else nodeAt fs q := by
  by_cases hq : q = []
  · subst hq
    have : ¬ ([] : Loc) = l := fun h => hl h.symm
    simp [nodeAt, this]
  · simp only [nodeAt, put, hq, if_false, lookupNode, lookupNode_filter]
    by_cases h : q = l
    · simp [h]
    · have : ¬ l = q := fun e => h e.symm
      simp [h, this]

theorem nodeAt_del (fs : FS) (l : Loc) (q : Loc) (hl : l ≠ []) :
    nodeAt (del fs l) q = if q = l then none else nodeAt fs q := by
  by_cases hq : q = []
  · subst hq
    have : ¬ ([] : Loc) = l := fun h => hl h.symm
    simp [nodeAt, this]
  · simp only [nodeAt, del, hq, if_false, lookupNode_filter]

theorem nodeAt_del_some (fs : FS) (l q : Loc) (n : Node)
    (h : nodeAt (del fs l) q = some n) : nodeAt fs q = some n := by
  unfold nodeAt del at *
  by_cases hq : q = []
  · simpa [hq] using h
  · simp only [hq, if_false, lookupNode_filter] at h ⊢
    by_cases e : q = l
    · simp [e] at h
    · simpa [e] using h

theorem put_put (fs : FS) (l : Loc) (a b : Node) : put (put fs l a) l b = put fs l b := by
  simp [put, List.filter_cons, List.filter_filter]

theorem put_cwd (fs : FS) (l : Loc) (n : Node) : (put fs l n).cwd = fs.cwd := rfl

theorem put_dirSize (fs : FS) (l : Loc) (n : Node) : (put fs l n).dirSize = fs.dirSize := rfl

theorem del_cwd (fs : FS) (l : Loc) : (del fs l).cwd = fs.cwd := rfl

theorem del_dirSize (fs : FS) (l : Loc) : (del fs l).dirSize = fs.dirSize := rfl

/-! ### Trees with the same directories -/

theorem sameDirs_refl (fs : FS) : SameDirs fs fs := ⟨rfl, rfl, fun _ => rfl⟩

theorem sameDirs_symm {fs1 fs2 : FS} (h : SameDirs fs1 fs2) : SameDirs fs2 fs1 :=
  ⟨h.1.symm, h.2.1.symm, fun l => (h.2.2 l).symm⟩

theorem sameDirs_trans {fs1 fs2 fs3 : FS} (h : SameDirs fs1 fs2) (g : SameDirs fs2 fs3) :
    SameDirs fs1 fs3 :=
  ⟨h.1.trans g.1, h.2.1.trans g.2.1, fun l => (h.2.2 l).trans (g.2.2 l)⟩

/-- A regular file stored where no directory is leaves the directories as
they are. -/
theorem sameDirs_put_file (fs : FS) (l : Loc) (c : List Nat) (h : isDir fs l = false) :
    SameDirs fs (put fs l (Node.file c)) := by
  refine ⟨rfl, rfl, fun q => ?_⟩
  have hl := ne_nil_of_not_isDir fs l h
  unfold isDir
  rw [nodeAt_put fs l _ q hl]
  by_cases e : q = l
  · subst e
    have := (isDir_false_iff fs q).1 h
    simp [this]
  · simp [e]

theorem walk_congr (fs1 fs2 : FS) (h : ∀ l, isDir fs1 l = isDir fs2 l) (cs : List Name) :
    ∀ cur, walk fs1 cur cs = walk fs2 cur cs := by
  induction cs with
  | nil => intro cur; simp only [walk, h]
  | cons c rest ih => intro cur; simp only [walk, h, ih]

theorem resolve_congr {fs1 fs2 : FS} (h : SameDirs fs1 fs2) (s : Path) :
    resolve fs1 s = resolve fs2 s := by
  simp only [resolve, h.1, walk_congr fs1 fs2 h.2.2]

theorem walk_mono (fs1 fs2 : FS) (h : ∀ l, isDir fs1 l = true → isDir fs2 l = true)
    (cs : List Name) : ∀ cur x, walk fs1 cur cs = some x → walk fs2 cur cs = some x := by
  induction cs with
  | nil =>
    intro cur x hx
    simp only [walk] at hx ⊢
    by_cases hd : isDir fs1 cur = true
    · rw [if_pos hd] at hx
      rw [if_pos (h _ hd)]
      exact hx
    · rw [if_neg hd] at hx
      exact absurd hx (by simp)
  | cons c rest ih =>
    intro cur x hx
    simp only [walk] at hx ⊢
    by_cases hd : c.length ≤ NAME_MAX ∧ isDir fs1 cur = true
    · rw [if_pos hd] at hx
      rw [if_pos ⟨hd.1, h _ hd.2⟩]
      exact ih _ _ hx
    · rw [if_neg hd] at hx
      exact absurd hx (by simp)

theorem resolve_mono (fs1 fs2 : FS) (hc : fs1.cwd = fs2.cwd)
    (h : ∀ l, isDir fs1 l = true → isDir fs2 l = true) (s : Path) (t : Target)
    (ht : resolve fs1 s = some t) : resolve fs2 s = some t := by
  unfold resolve at ht ⊢
  by_cases hs : s = []
  · rw [if_pos hs] at ht
    exact absurd ht (by simp)
  · rw [if_neg hs] at ht ⊢
    simp only at ht ⊢
    rw [← hc]
    cases hw : walk fs1 (if s.head? = some 47 then [] else fs1.cwd) (tokens [47] s).dropLast with
    | none => rw [hw] at ht; exact absurd ht (by simp)
    | some parent =>
      rw [hw] at ht
      rw [walk_mono fs1 fs2 h _ _ _ hw]
      exact ht

theorem walk_det (fs : FS) (cs : List Name) :
    ∀ cur x, walk fs cur cs = some x → x = cs.foldl step cur := by
  induction cs with
  | nil =>
    intro cur x hx
    simp only [walk] at hx
    by_cases hd : isDir fs cur = true
    · rw [if_pos hd] at hx
      simp only [Option.some.injEq] at hx
      simp [hx]
    · rw [if_neg hd] at hx
      exact absurd hx (by simp)
  | cons c rest ih =>
    intro cur x hx
    simp only [walk] at hx
    by_cases hd : c.length ≤ NAME_MAX ∧ isDir fs cur = true
    · rw [if_pos hd] at hx
      simp only [List.foldl_cons]
      exact ih _ _ hx
    · rw [if_neg hd] at hx
      exact absurd hx (by simp)

/-- The place a path names does not depend on the tree, only on the working
directory: the tree decides whether the path resolves. -/
theorem resolve_det (fs1 fs2 : FS) (hc : fs1.cwd = fs2.cwd) (s : Path) (t1 t2 : Target)
    (h1 : resolve fs1 s = some t1) (h2 : resolve fs2 s = some t2) : t1 = t2 := by
  unfold resolve at h1 h2
  by_cases hs : s = []
  · rw [if_pos hs] at h1
    exact absurd h1 (by simp)
  · rw [if_neg hs] at h1 h2
    simp only at h1 h2
    rw [← hc] at h2
    cases hw1 : walk fs1 (if s.head? = some 47 then [] else fs1.cwd) (tokens [47] s).dropLast with
    | none => rw [hw1] at h1; exact absurd h1 (by simp)
    | some p1 =>
      cases hw2 : walk fs2 (if s.head? = some 47 then [] else fs1.cwd)
          (tokens [47] s).dropLast with
      | none => rw [hw2] at h2; exact absurd h2 (by simp)
      | some p2 =>
        rw [hw1] at h1
        rw [hw2] at h2
        have e1 := walk_det _ _ _ _ hw1
        have e2 := walk_det _ _ _ _ hw2
        rw [← e2] at e1
        subst e1
        rw [h1] at h2
        exact Option.some.inj h2

/-! ### Trees that grow -/

theorem grows_refl (fs : FS) : Grows fs fs := ⟨rfl, rfl, fun _ _ h => h, fun _ _ h => h⟩

theorem grows_trans {fs1 fs2 fs3 : FS} (h : Grows fs1 fs2) (g : Grows fs2 fs3) :
    Grows fs1 fs3 :=
  ⟨h.1.trans g.1, h.2.1.trans g.2.1, fun l n x => g.2.2.1 l n (h.2.2.1 l n x),
    fun l c x => h.2.2.2 l c (g.2.2.2 l c x)⟩

theorem grows_isDir {fs1 fs2 : FS} (h : Grows fs1 fs2) (l : Loc) (hd : isDir fs1 l = true) :
    isDir fs2 l = true :=
  (isDir_iff fs2 l).2 (h.2.2.1 l _ ((isDir_iff fs1 l).1 hd))

theorem grows_resolve {fs1 fs2 : FS} (h : Grows fs1 fs2) (s : Path) (t : Target)
    (ht : resolve fs1 s = some t) : resolve fs2 s = some t :=
  resolve_mono fs1 fs2 h.1 (fun l => grows_isDir h l) s t ht

theorem mkdir_grows (fs : FS) (s : Path) : Grows fs (mkdir fs s) := by
  unfold mkdir
  cases hr : resolve fs s with
  | none => exact grows_refl fs
  | some t =>
    simp only
    by_cases hc : t.dot = true ∨ (nodeAt fs t.loc).isSome = true
    · rw [if_pos hc]
      exact grows_refl fs
    · rw [if_neg hc]
      have hn : nodeAt fs t.loc = none := by
        cases hx : nodeAt fs t.loc with
        | none => rfl
        | some n => exact absurd (Or.inr (by rw [hx]; rfl)) hc
      have hl := ne_nil_of_nodeAt_none fs t.loc hn
      refine ⟨rfl, rfl, fun l n x => ?_, fun l c x => ?_⟩
      · rw [nodeAt_put fs t.loc _ l hl]
        by_cases e : l = t.loc
        · rw [e, hn] at x
          exact absurd x (by simp)
        · rw [if_neg e]
          exact x
      · rw [nodeAt_put fs t.loc _ l hl] at x
        by_cases e : l = t.loc
        · rw [if_pos e] at x
          exact absurd x (by simp)
        · rw [if_neg e] at x
          exact x

theorem posix_mkdir (fs : FS) (s : Path) : posix.mkdir fs s = mkdir fs s := rfl

theorem posix_fopen_r (fs : FS) (s : Path) : posix.fopen_r fs s = fopen_r fs s := rfl

theorem posix_fopen_w (fs : FS) (s : Path) : posix.fopen_w fs s = fopen_w fs s := rfl

theorem posix_fwrite (fs : FS) (s : Path) (d : List Nat) :
    posix.fwrite fs s d = fwrite fs s d := rfl

theorem posix_remove (fs : FS) (s : Path) : posix.remove fs s = remove fs s := rfl

/-- Making the directories of a path keeps every file and every directory. -/
theorem ensure_directories_grows (fs : FS) (p : Path) :
    Grows fs (ensure_directories posix fs p) := by
  unfold ensure_directories
  simp only [posix_mkdir]
  refine grows_trans ?_ (mkdir_grows _ _)
  generalize (List.range (snprintf 1024 (SERVER_ROOT ++ [47] ++ dirname p)).length) = l
  induction l generalizing fs with
  | nil => exact grows_refl fs
  | cons i l ih =>
    simp only [List.foldl_cons]
    split
    · exact grows_trans (mkdir_grows _ _) (ih _)
    · exact ih _

/-! ### The file calls -/

theorem fopen_w_some (fs : FS) (s : Path) (fs1 : FS) :
    fopen_w fs s = some fs1 ↔
      ∃ t, resolve fs s = some t ∧ t.dirOnly = false ∧ isDir fs t.loc = false ∧
        fs1 = put fs t.loc (Node.file []) := by
  unfold fopen_w
  cases hr : resolve fs s with
  | none => simp
  | some t =>
    simp only
    by_cases hc : t.dirOnly = true ∨ isDir fs t.loc = true
    · rw [if_pos hc]
      constructor
      · intro h; exact absurd h (by simp)
      · rintro ⟨t', ht', h1, h2, -⟩
        simp only [Option.some.injEq] at ht'
        subst ht'
        rcases hc with hc | hc
        · rw [hc] at h1; exact absurd h1 (by simp)
        · rw [hc] at h2; exact absurd h2 (by simp)
    · rw [if_neg hc]
      have h1 : t.dirOnly = false := by
        cases hx : t.dirOnly with
        | false => rfl
        | true => exact absurd (Or.inl hx) hc
      have h2 : isDir fs t.loc = false := by
        cases hx : isDir fs t.loc with
        | false => rfl
        | true => exact absurd (Or.inr hx) hc
      constructor
      · intro h
        simp only [Option.some.injEq] at h
        exact ⟨t, rfl, h1, h2, h.symm⟩
      · rintro ⟨t', ht', -, -, h⟩
        simp only [Option.some.injEq] at ht'
        subst ht'
        rw [h]

theorem fopen_w_isSome (fs : FS) (s : Path) :
    (fopen_w fs s).isSome = true ↔
      ∃ t, resolve fs s = some t ∧ t.dirOnly = false ∧ isDir fs t.loc = false := by
  constructor
  · intro h
    cases hx : fopen_w fs s with
    | none => rw [hx] at h; exact absurd h (by simp)
    | some fs1 =>
      obtain ⟨t, h1, h2, h3, -⟩ := (fopen_w_some fs s fs1).1 hx
      exact ⟨t, h1, h2, h3⟩
  · rintro ⟨t, h1, h2, h3⟩
    rw [(fopen_w_some fs s _).2 ⟨t, h1, h2, h3, rfl⟩]
    rfl

theorem fopen_w_none (fs : FS) (s : Path) (h : (fopen_w fs s).isSome = false) :
    fopen_w fs s = none := by
  cases hx : fopen_w fs s with
  | none => rfl
  | some _ => rw [hx] at h; exact absurd h (by simp)

/-- Whether a file can be opened for writing depends on the directories only. -/
theorem fopen_w_isSome_congr {fs1 fs2 : FS} (h : SameDirs fs1 fs2) (s : Path) :
    (fopen_w fs1 s).isSome = (fopen_w fs2 s).isSome := by
  have key : ∀ a b : FS, SameDirs a b → (fopen_w a s).isSome = true →
      (fopen_w b s).isSome = true := by
    intro a b hab ha
    obtain ⟨t, h1, h2, h3⟩ := (fopen_w_isSome a s).1 ha
    exact (fopen_w_isSome b s).2 ⟨t, by rw [← resolve_congr hab]; exact h1, h2,
      by rw [← hab.2.2]; exact h3⟩
  cases h1 : (fopen_w fs1 s).isSome with
  | true => exact (key fs1 fs2 h h1).symm
  | false =>
    cases h2 : (fopen_w fs2 s).isSome with
    | false => rfl
    | true =>
      have := key fs2 fs1 (sameDirs_symm h) h2
      rw [h1] at this
      exact absurd this (by simp)

theorem fwrite_file (fs : FS) (s : Path) (t : Target) (c d : List Nat)
    (hr : resolve fs s = some t) (hn : nodeAt fs t.loc = some (Node.file c)) :
    fwrite fs s d = put fs t.loc (Node.file (c ++ d)) := by
  unfold fwrite
  rw [hr]
  simp only [hn]

/-- The states of a file that has been opened for writing at the place
`t.loc`, by the content written so far: each `fwrite` appends. -/
theorem fwrite_put (fs : FS) (s : Path) (t : Target) (c d : List Nat)
    (hr : resolve fs s = some t) (hd : isDir fs t.loc = false) :
    fwrite (put fs t.loc (Node.file c)) s d = put fs t.loc (Node.file (c ++ d)) := by
  have hl := ne_nil_of_not_isDir fs t.loc hd
  rw [fwrite_file (put fs t.loc (Node.file c)) s t c d
    (by rw [← resolve_congr (sameDirs_put_file fs t.loc c hd)]; exact hr)
    (by rw [nodeAt_put _ _ _ _ hl, if_pos rfl]), put_put]

theorem fopen_r_regular (fs : FS) (s : Path) (c : List Nat) :
    fopen_r fs s = some (Handle.regular c) ↔
      ∃ t, resolve fs s = some t ∧ t.dirOnly = false ∧ nodeAt fs t.loc = some (Node.file c) := by
  unfold fopen_r
  cases hr : resolve fs s with
  | none => simp
  | some t =>
    simp only
    cases hn : nodeAt fs t.loc with
    | none => simp [hn]
    | some n =>
      cases n with
      | dir => simp [hn]
      | file content =>
        simp only
        by_cases hd : t.dirOnly = true
        · rw [if_pos hd]
          simp [hd]
        · rw [if_neg hd]
          have hd' : t.dirOnly = false := by
            cases hx : t.dirOnly with
            | false => rfl
            | true => exact absurd hx hd
          simp [hd', hn]

theorem fopen_r_grows {fs1 fs2 : FS} (h : Grows fs1 fs2) (s : Path) (f : Handle)
    (hf : fopen_r fs1 s = some f) : fopen_r fs2 s = some f := by
  unfold fopen_r at hf ⊢
  cases hr : resolve fs1 s with
  | none => rw [hr] at hf; exact absurd hf (by simp)
  | some t =>
    rw [hr] at hf
    rw [grows_resolve h s t hr]
    simp only at hf ⊢
    cases hn : nodeAt fs1 t.loc with
    | none => rw [hn] at hf; exact absurd hf (by simp)
    | some n =>
      rw [hn] at hf
      rw [h.2.2.1 _ _ hn, ← h.2.1]
      exact hf

/-- Opening for reading sees the same on trees that resolve the path alike
and hold the same at the place it names. -/
theorem fopen_r_congr (fs1 fs2 : FS) (s : Path) (hr : resolve fs1 s = resolve fs2 s)
    (hs : fs1.dirSize = fs2.dirSize)
    (hn : ∀ t, resolve fs1 s = some t → nodeAt fs1 t.loc = nodeAt fs2 t.loc) :
    fopen_r fs1 s = fopen_r fs2 s := by
  unfold fopen_r
  rw [← hr]
  cases hx : resolve fs1 s with
  | none => rfl
  | some t =>
    simp only
    rw [← hn t hx, hs]

theorem read_meta_file_posix (fs : FS) (fp : Path) :
    read_meta_file posix fs fp =
      match fopen_r fs (meta_path fp) with
      | none => 87
      | some m => if fgetc m ≠ 82 ∧ fgetc m ≠ 87 then 87 else fgetc m := rfl

theorem read_meta_file_R (fs : FS) (fp : Path) :
    read_meta_file posix fs fp = 82 ↔
      ∃ c, fopen_r fs (meta_path fp) = some (Handle.regular (82 :: c)) := by
  rw [read_meta_file_posix]
  cases hf : fopen_r fs (meta_path fp) with
  | none => simp
  | some m =>
    cases m with
    | directory k => simp [fgetc]
    | regular content =>
      cases content with
      | nil => simp [fgetc]
      | cons b rest =>
        simp only [fgetc, List.headD_cons, Option.some.injEq, Handle.regular.injEq,
          List.cons.injEq]
        constructor
        · intro h
          by_cases hb : b = 82
          · exact ⟨rest, by rw [hb]; exact ⟨rfl, rfl⟩⟩
          · by_cases hb' : b = 87
            · simp [hb'] at h
            · simp [hb, hb'] at h
        · rintro ⟨c, hb, -⟩
          simp [hb]

theorem read_meta_file_values (fs : FS) (fp : Path) :
    read_meta_file posix fs fp = 82 ∨ read_meta_file posix fs fp = 87 := by
  rw [read_meta_file_posix]
  cases hf : fopen_r fs (meta_path fp) with
  | none => simp
  | some m =>
    simp only
    by_cases h1 : fgetc m = 82
    · simp [h1]
    · by_cases h2 : fgetc m = 87
      · simp [h2]
      · simp [h1, h2]

theorem read_meta_file_congr (fs1 fs2 : FS) (fp : Path)
    (h : fopen_r fs1 (meta_path fp) = fopen_r fs2 (meta_path fp)) :
    read_meta_file posix fs1 fp = read_meta_file posix fs2 fp := by
  rw [read_meta_file_posix, read_meta_file_posix, h]

/-! ### The components of a path and of its sidecar path -/

/-- The tokens of a string without delimiters. -/
theorem tokensAux_free (d : List Nat) (sfx : List Nat) (hs : ∀ b ∈ sfx, b ∉ d) :
    ∀ cur, tokensAux d cur sfx = if cur ++ sfx = [] then [] else [cur ++ sfx] := by
  induction sfx with
  | nil =>
    intro cur
    by_cases hc : cur = [] <;> simp [tokensAux, hc]
  | cons b rest ih =>
    intro cur
    have hb : b ∉ d := hs b (List.mem_cons_self _ _)
    rw [tokensAux, if_neg hb, ih (fun x hx => hs x (List.mem_cons_of_mem _ hx))]
    simp

/-- A suffix without delimiters, behind a string that does not end in a
delimiter, lengthens the last token. -/
theorem tokensAux_suffix (d : List Nat) (sfx : List Nat) (hs : ∀ b ∈ sfx, b ∉ d)
    (s : List Nat) :
    ∀ cur, (s = [] → cur ≠ []) → (∀ x, s.getLast? = some x → x ∉ d) →
      ∃ init last, tokensAux d cur s = init ++ [last] ∧
        tokensAux d cur (s ++ sfx) = init ++ [last ++ sfx] := by
  induction s with
  | nil =>
    intro cur hc _
    have hc' := hc rfl
    refine ⟨[], cur, by simp [tokensAux, hc'], ?_⟩
    rw [List.nil_append, tokensAux_free d sfx hs]
    simp [hc']
  | cons b rest ih =>
    intro cur _ hl
    by_cases hb : b ∈ d
    · have hrest : rest ≠ [] := by
        intro h
        subst h
        exact hl b (by simp) hb
      have hl' : ∀ x, rest.getLast? = some x → x ∉ d := by
        intro x hx
        apply hl x
        cases rest with
        | nil => exact absurd rfl hrest
        | cons y ys => rw [List.getLast?_cons_cons]; exact hx
      obtain ⟨init, last, h1, h2⟩ := ih [] (fun h => absurd h hrest) hl'
      by_cases hc : cur = []
      · refine ⟨init, last, ?_, ?_⟩
        · rw [tokensAux, if_pos hb, if_pos hc, h1]
        · rw [List.cons_append, tokensAux, if_pos hb, if_pos hc, h2]
      · refine ⟨cur :: init, last, ?_, ?_⟩
        · rw [tokensAux, if_pos hb, if_neg hc, h1]; rfl
        · rw [List.cons_append, tokensAux, if_pos hb, if_neg hc, h2]; rfl
    · have hl' : ∀ x, rest.getLast? = some x → x ∉ d := by
        intro x hx
        apply hl x
        cases rest with
        | nil => simp at hx
        | cons y ys => rw [List.getLast?_cons_cons]; exact hx
      obtain ⟨init, last, h1, h2⟩ := ih (cur ++ [b]) (fun _ => by simp) hl'
      refine ⟨init, last, ?_, ?_⟩
      · rw [tokensAux, if_neg hb, h1]
      · rw [List.cons_append, tokensAux, if_neg hb, h2]

theorem tokensAux_cons_mem (d : List Nat) (cur : List Nat) (b : Nat) (rest : List Nat)
    (hb : b ∈ d) :
    tokensAux d cur (b :: rest)
      = if cur = [] then tokensAux d [] rest else cur :: tokensAux d [] rest := by
  rw [tokensAux, if_pos hb]

theorem tokensAux_cons_not_mem (d : List Nat) (cur : List Nat) (b : Nat) (rest : List Nat)
    (hb : b ∉ d) :
    tokensAux d cur (b :: rest) = tokensAux d (cur ++ [b]) rest := by
  rw [tokensAux, if_neg hb]

/-- A suffix without delimiters, behind a string that ends in a delimiter, is
one more token. -/
theorem tokensAux_suffix_delim (d : List Nat) (sfx : List Nat) (hs : ∀ b ∈ sfx, b ∉ d)
    (hne : sfx ≠ []) (s : List Nat) :
    ∀ cur, (∃ x, s.getLast? = some x ∧ x ∈ d) →
      tokensAux d cur (s ++ sfx) = tokensAux d cur s ++ [sfx] := by
  induction s with
  | nil => intro cur ⟨x, hx, _⟩; simp at hx
  | cons b rest ih =>
    intro cur ⟨x, hx, hxd⟩
    cases rest with
    | nil =>
      simp only [List.getLast?_singleton, Option.some.injEq] at hx
      subst hx
      have hfree := tokensAux_free d sfx hs []
      simp only [List.nil_append, hne, if_false] at hfree
      by_cases hc : cur = []
      · simp [tokensAux, hxd, hc, hfree]
      · simp [tokensAux, hxd, hc, hfree]
    | cons y ys =>
      rw [List.getLast?_cons_cons] at hx
      by_cases hb : b ∈ d
      · by_cases hc : cur = []
        · rw [List.cons_append, tokensAux_cons_mem d cur b _ hb, if_pos hc, ih [] ⟨x, hx, hxd⟩,
            tokensAux_cons_mem d cur b _ hb, if_pos hc]
        · rw [List.cons_append, tokensAux_cons_mem d cur b _ hb, if_neg hc, ih [] ⟨x, hx, hxd⟩,
            tokensAux_cons_mem d cur b _ hb, if_neg hc]
          rfl
      · rw [List.cons_append, tokensAux_cons_not_mem d cur b _ hb,
          ih (cur ++ [b]) ⟨x, hx, hxd⟩, tokensAux_cons_not_mem d cur b _ hb]

theorem meta_no_slash : ∀ b ∈ bytes ".meta", b ∉ [47] := by decide

theorem meta_ne_nil : bytes ".meta" ≠ [] := by decide

/-- How a path resolves, by its components. -/
theorem resolve_snoc (fs : FS) (s : Path) (init : List Name) (final : Name) (hs : s ≠ [])
    (ht : tokens [47] s = init ++ [final]) :
    resolve fs s =
      match walk fs (if s.head? = some 47 then [] else fs.cwd) init with
      | none => none
      | some parent =>
        if NAME_MAX < final.length then none
        else some ⟨step parent final, isDot final || decide (s.getLast? = some 47),
          isDot final⟩ := by
  unfold resolve
  rw [if_neg hs]
  simp only [ht, List.dropLast_concat, List.getLast?_append, List.getLast?_singleton,
    Option.or]

theorem step_plain (cur : Loc) (c : Name) (h : isDot c = false) : step cur c = cur ++ [c] := by
  unfold isDot at h
  simp only [decide_eq_false_iff_not, not_or] at h
  unfold step
  rw [if_neg h.1, if_neg h.2]

theorem isDot_meta (final : Name) : isDot (final ++ bytes ".meta") = false := by
  unfold isDot
  simp only [decide_eq_false_iff_not, not_or]
  have h5 : (bytes ".meta").length = 5 := by decide
  constructor
  · intro h
    have := congrArg List.length h
    simp only [List.length_append, h5, List.length_singleton] at this
    omega
  · intro h
    have := congrArg List.length h
    simp only [List.length_append, h5, List.length_cons, List.length_nil] at this
    omega

theorem getLast_meta (s : Path) : (s ++ bytes ".meta").getLast? = some 97 := by
  rw [List.getLast?_append]
  rfl

theorem head_meta (s : Path) (hs : s ≠ []) : (s ++ bytes ".meta").head? = s.head? := by
  cases s with
  | nil => exact absurd rfl hs
  | cons b rest => rfl

/-- A path that resolves to something other than by `.` or `..`: its
components, the directory reached before the last, the place named. -/
theorem resolve_split (fs : FS) (s : Path) (t : Target) (hr : resolve fs s = some t)
    (hdot : t.dot = false) :
    s ≠ [] ∧ ∃ init final parent, tokens [47] s = init ++ [final] ∧ isDot final = false ∧
      final.length ≤ NAME_MAX ∧
      walk fs (if s.head? = some 47 then [] else fs.cwd) init = some parent ∧
      t.loc = parent ++ [final] ∧ t.dirOnly = decide (s.getLast? = some 47) := by
  have hs : s ≠ [] := by
    intro h
    subst h
    simp [resolve] at hr
  refine ⟨hs, ?_⟩
  rcases List.eq_nil_or_concat (tokens [47] s) with hnil | ⟨init, final, hcat⟩
  rotate_left
  · rw [List.concat_eq_append] at hcat
    rw [resolve_snoc fs s init final hs hcat] at hr
    cases hw : walk fs (if s.head? = some 47 then [] else fs.cwd) init with
    | none => rw [hw] at hr; exact absurd hr (by simp)
    | some parent =>
      rw [hw] at hr
      simp only at hr
      by_cases hlen : NAME_MAX < final.length
      · rw [if_pos hlen] at hr; exact absurd hr (by simp)
      · rw [if_neg hlen] at hr
        simp only [Option.some.injEq] at hr
        have hd : isDot final = false := by rw [← hr] at hdot; exact hdot
        refine ⟨init, final, parent, hcat, hd, by omega, hw, ?_, ?_⟩
        · rw [← hr, step_plain _ _ hd]
        · rw [← hr, hd, Bool.false_or]
  · unfold resolve at hr
    rw [if_neg hs] at hr
    simp only [hnil, List.dropLast_nil, List.getLast?_nil] at hr
    cases hw : walk fs (if s.head? = some 47 then [] else fs.cwd) [] with
    | none => rw [hw] at hr; exact absurd hr (by simp)
    | some parent =>
      rw [hw] at hr
      simp only [Option.some.injEq] at hr
      rw [← hr] at hdot
      exact absurd hdot (by simp)

/-- The components of the sidecar path of a path that names a file. -/
theorem tokens_meta (s : Path) (init : List Name) (final : Name) (hs : s ≠ [])
    (ht : tokens [47] s = init ++ [final]) (hl : s.getLast? ≠ some 47) :
    tokens [47] (s ++ bytes ".meta") = init ++ [final ++ bytes ".meta"] := by
  obtain ⟨init', last', h1, h2⟩ := tokensAux_suffix [47] (bytes ".meta") meta_no_slash s []
    (fun h => absurd h hs) (fun x hx hmem => by
      simp only [List.mem_singleton] at hmem
      subst hmem
      exact hl hx)
  unfold tokens at ht ⊢
  rw [h1] at ht
  have e1 : init' = init := List.append_inj_left' ht rfl
  have e2 : [last'] = [final] := List.append_inj_right' ht rfl
  simp only [List.cons.injEq, and_true] at e2
  rw [h2, e1, e2]

/-- The components of the sidecar path of a path that ends in a slash. -/
theorem tokens_meta_slash (s : Path) (hl : s.getLast? = some 47) :
    tokens [47] (s ++ bytes ".meta") = tokens [47] s ++ [bytes ".meta"] := by
  unfold tokens
  exact tokensAux_suffix_delim [47] (bytes ".meta") meta_no_slash meta_ne_nil s []
    ⟨47, hl, by simp⟩

/-- How the sidecar path of a path resolves, on any tree, when the path names
a file on some tree with the same working directory: through the same
directories, to the name of the file followed by `.meta`, unless that name is
too long. -/
theorem resolve_meta (fs fs' : FS) (hc : fs.cwd = fs'.cwd) (s : Path) (t : Target)
    (hr : resolve fs s = some t) (hd : t.dirOnly = false) :
    ∃ init final parent, t.loc = parent ++ [final] ∧
      walk fs (if s.head? = some 47 then [] else fs.cwd) init = some parent ∧
      tokens [47] s = init ++ [final] ∧
      resolve fs' (s ++ bytes ".meta") =
        match walk fs' (if s.head? = some 47 then [] else fs.cwd) init with
        | none => none
        | some parent' =>
          if NAME_MAX < (final ++ bytes ".meta").length then none
          else some ⟨parent' ++ [final ++ bytes ".meta"], false, false⟩ := by
  have hdot : t.dot = false := by
    unfold resolve at hr
    by_cases hs : s = []
    · rw [if_pos hs] at hr; exact absurd hr (by simp)
    · rw [if_neg hs] at hr
      simp only at hr
      cases hw : walk fs (if s.head? = some 47 then [] else fs.cwd) (tokens [47] s).dropLast with
      | none => rw [hw] at hr; exact absurd hr (by simp)
      | some parent =>
        rw [hw] at hr
        simp only at hr
        cases hg : (tokens [47] s).getLast? with
        | none =>
          rw [hg] at hr
          simp only [Option.some.injEq] at hr
          rw [← hr] at hd
          exact absurd hd (by simp)
        | some final =>
          rw [hg] at hr
          simp only at hr
          by_cases hlen : NAME_MAX < final.length
          · rw [if_pos hlen] at hr; exact absurd hr (by simp)
          · rw [if_neg hlen] at hr
            simp only [Option.some.injEq] at hr
            rw [← hr] at hd ⊢
            simp only [Bool.or_eq_false_iff] at hd
            exact hd.1
  obtain ⟨hs, init, final, parent, ht, hfd, hlen, hw, hloc, hdo⟩ := resolve_split fs s t hr hdot
  have hl : s.getLast? ≠ some 47 := by
    rw [hd] at hdo
    intro h
    rw [h] at hdo
    simp at hdo
  refine ⟨init, final, parent, hloc, hw, ht, ?_⟩
  rw [resolve_snoc fs' (s ++ bytes ".meta") init (final ++ bytes ".meta") (by simp [hs])
    (tokens_meta s init final hs ht hl), head_meta s hs, getLast_meta, isDot_meta, ← hc]
  cases hw' : walk fs' (if s.head? = some 47 then [] else fs.cwd) init with
  | none => rfl
  | some parent' =>
    simp only [step_plain _ _ (isDot_meta final)]
    rfl

/-- The sidecar of a file is another place than the file. -/
theorem snoc_meta_ne (parent : Loc) (final : Name) :
    parent ++ [final ++ bytes ".meta"] ≠ parent ++ [final] := by
  intro h
  have h1 := List.append_cancel_left h
  simp only [List.cons.injEq, and_true] at h1
  have := congrArg List.length h1
  have h5 : (bytes ".meta").length = 5 := by decide
  simp only [List.length_append, h5] at this
  omega

/-- How the sidecar path of a path that does not end in a slash resolves, by
the components of the path. -/
theorem resolve_meta_tokens (fs : FS) (s : Path) (init : List Name) (final : Name)
    (hs : s ≠ []) (ht : tokens [47] s = init ++ [final]) (hl : s.getLast? ≠ some 47) :
    resolve fs (s ++ bytes ".meta") =
      match walk fs (if s.head? = some 47 then [] else fs.cwd) init with
      | none => none
      | some parent =>
        if NAME_MAX < (final ++ bytes ".meta").length then none
        else some ⟨parent ++ [final ++ bytes ".meta"], false, false⟩ := by
  rw [resolve_snoc fs (s ++ bytes ".meta") init (final ++ bytes ".meta") (by simp [hs])
    (tokens_meta s init final hs ht hl), head_meta s hs, getLast_meta, isDot_meta]
  cases walk fs (if s.head? = some 47 then [] else fs.cwd) init with
  | none => rfl
  | some parent =>
    simp only [step_plain _ _ (isDot_meta final)]
    rfl

/-- How the sidecar path of a path that ends in a slash resolves: to the
name `.meta` in the directory the path names. -/
theorem resolve_meta_slash (fs : FS) (s : Path) (hs : s ≠ []) (hl : s.getLast? = some 47) :
    resolve fs (s ++ bytes ".meta") =
      match walk fs (if s.head? = some 47 then [] else fs.cwd) (tokens [47] s) with
      | none => none
      | some parent => some ⟨parent ++ [bytes ".meta"], false, false⟩ := by
  rw [resolve_snoc fs (s ++ bytes ".meta") (tokens [47] s) (bytes ".meta") (by simp [hs])
    (tokens_meta_slash s hl), head_meta s hs, getLast_meta]
  have h1 : isDot (bytes ".meta") = false := by decide
  have h2 : ¬ NAME_MAX < (bytes ".meta").length := by decide
  cases walk fs (if s.head? = some 47 then [] else fs.cwd) (tokens [47] s) with
  | none => rfl
  | some parent =>
    simp only [h1, h2, if_false, step_plain _ _ h1]
    rfl

/-! ### The WRITE branch on the tree -/

theorem passesCheck_iff (fs : FS) (p : Path) :
    passesCheck fs p = true ↔
      read_meta_file posix (ensure_directories posix fs p) (full_path p) ≠ 82 := by
  simp [passesCheck]

theorem passesCheck_false_iff (fs : FS) (p : Path) :
    passesCheck fs p = false ↔
      read_meta_file posix (ensure_directories posix fs p) (full_path p) = 82 := by
  simp [passesCheck]

theorem opensData_iff (fs : FS) (p : Path) :
    opensData fs p = true ↔
      ∃ t, resolve (ensure_directories posix fs p) (full_path p) = some t ∧
        t.dirOnly = false ∧ isDir (ensure_directories posix fs p) t.loc = false := by
  unfold opensData
  rw [posix_fopen_w, fopen_w_isSome]

/-- The sidecar file written by `write_meta_file`, on a tree where the
sidecar path names a place that holds no directory. -/
theorem write_meta_file_some (fs : FS) (fp : Path) (perm : Nat) (tm : Target)
    (hr : resolve fs (meta_path fp) = some tm) (hd : tm.dirOnly = false)
    (hnd : isDir fs tm.loc = false) :
    (write_meta_file posix fs fp perm).1 = put fs tm.loc (Node.file [perm]) := by
  have hmp : snprintf 1100 (fp ++ bytes ".meta") = meta_path fp := rfl
  have ho : fopen_w fs (meta_path fp) = some (put fs tm.loc (Node.file [])) :=
    (fopen_w_some fs _ _).2 ⟨tm, hr, hd, hnd, rfl⟩
  unfold write_meta_file
  simp only [hmp, posix_fopen_w, ho, posix_fwrite]
  rw [fwrite_put fs (meta_path fp) tm [] [perm] hr hnd]
  rfl

/-- When the sidecar cannot be opened, `write_meta_file` changes nothing. -/
theorem write_meta_file_none (fs : FS) (fp : Path) (perm : Nat)
    (h : fopen_w fs (meta_path fp) = none) :
    (write_meta_file posix fs fp perm).1 = fs := by
  have hmp : snprintf 1100 (fp ++ bytes ".meta") = meta_path fp := rfl
  unfold write_meta_file
  simp only [hmp, posix_fopen_w, h]

/-- A WRITE whose size line is that of a positive `long`, which passes its
permission check and opens its data file at the place `t.loc`: the first `n`
bytes of the rest of the stream (or all of it, if the peer stops early) are
stored there transformed, then the permission is written, and `OK` is sent. -/
theorem handle_write_accepted (w : World FS) (p saved : List Nat) (n : Nat) (S : List Nat)
    (t : Target) (hn0 : 0 < n) (hn : n < 2 ^ 63) (hs : w.sock.stream = SIZE_line n ++ S)
    (hperm : read_meta_file posix (ensure_directories posix w.fs p) (full_path p) ≠ 82)
    (hr : resolve (ensure_directories posix w.fs p) (full_path p) = some t)
    (hd : t.dirOnly = false) (hnd : isDir (ensure_directories posix w.fs p) t.loc = false) :
    (handle_write posix w p saved).fs
      = (write_meta_file posix
          (put (ensure_directories posix w.fs p) t.loc
            (Node.file ((S.take n).map (fun b => b ^^^ XOR_KEY))))
          (full_path p) (permissionOf (strtok saved DELIM).1)).1 ∧
    (handle_write posix w p saved).sock.output = w.sock.output ++ bytes "OK\n" ∧
    (handle_write posix w p saved).sock.stream = S.drop n := by
  obtain ⟨i1, i2, i3, i4, i5, i6⟩ := parse_size w.sock n S hn hs
  have hpos : ¬ ((n : Int) ≤ 0) := by omega
  have ho : fopen_w (ensure_directories posix w.fs p) (full_path p)
      = some (put (ensure_directories posix w.fs p) t.loc (Node.file [])) :=
    (fopen_w_some _ _ _).2 ⟨t, hr, hd, hnd, rfl⟩
  obtain ⟨j1, j3, j4, j5, j6⟩ := write_body_fold posix (full_path p)
    (fun c => put (ensure_directories posix w.fs p) t.loc (Node.file c))
    (fun c d => fwrite_put _ _ t c d hr hnd) n n
    { fs := put (ensure_directories posix w.fs p) t.loc (Node.file []),
      sock := (recv_line w.sock (buffer 64) 64).2.2,
      trace := w.trace ++ [Event.ensure_dirs p] ++ [Event.lock]
        ++ [Event.meta_read (full_path p)] ++ [Event.data_open (full_path p)] }
    [] (le_refl n) rfl
  simp only [List.nil_append, i3, i5] at j1 j3 j5
  have hfp : snprintf 1024 (SERVER_ROOT ++ [47] ++ p) = full_path p := rfl
  unfold handle_write
  simp only [i1, if_false, i2, hpos, World.log, hperm, World.send, World.close, send,
    Int.toNat_ofNat, posix_fopen_w, ho, hfp, if_false]
  refine ⟨?_, ?_, ?_⟩
  · rw [j1]
  · rw [j5]
  · exact j3

/-- The WRITE branch on a path that does not pass the permission check, once
a positive size has been read. -/
theorem handle_write_refused (w : World FS) (q saved : List Nat)
    (hline : ¬ (recv_line w.sock (buffer 64) 64).1 ≤ 0)
    (hsize : 0 < atol (cstr (recv_line w.sock (buffer 64) 64).2.1))
    (hperm : read_meta_file posix (ensure_directories posix w.fs q) (full_path q) = 82) :
    (handle_write posix w q saved).fs = ensure_directories posix w.fs q ∧
    (handle_write posix w q saved).sock.output
      = w.sock.output ++ bytes "ERROR: File is read-only\n" := by
  obtain ⟨-, -, -, r4, -⟩ := recv_line_buffer w.sock 64 (by decide)
  have hfp : snprintf 1024 (SERVER_ROOT ++ [47] ++ q) = full_path q := rfl
  have hs : ¬ atol (cstr (recv_line w.sock (buffer 64) 64).2.1) ≤ 0 := not_le.2 hsize
  unfold handle_write
  simp only [hline, if_false, hs, hfp, World.log, hperm, if_true, World.send, World.close, send,
    r4, and_self]

/-- The WRITE branch on a path that passes the permission check but whose
data file cannot be opened, once a positive size has been read. -/
theorem handle_write_unopened (w : World FS) (q saved : List Nat)
    (hline : ¬ (recv_line w.sock (buffer 64) 64).1 ≤ 0)
    (hsize : 0 < atol (cstr (recv_line w.sock (buffer 64) 64).2.1))
    (hperm : read_meta_file posix (ensure_directories posix w.fs q) (full_path q) ≠ 82)
    (hopen : fopen_w (ensure_directories posix w.fs q) (full_path q) = none) :
    (handle_write posix w q saved).fs = ensure_directories posix w.fs q ∧
    (handle_write posix w q saved).sock.output = w.sock.output := by
  obtain ⟨-, -, -, r4, -⟩ := recv_line_buffer w.sock 64 (by decide)
  have hfp : snprintf 1024 (SERVER_ROOT ++ [47] ++ q) = full_path q := rfl
  have hs : ¬ atol (cstr (recv_line w.sock (buffer 64) 64).2.1) ≤ 0 := not_le.2 hsize
  unfold handle_write
  simp only [hline, if_false, hs, hfp, World.log, hperm, World.send, World.close, send,
    r4, posix_fopen_w, hopen, and_self]

/-- A well-formed WRITE with the size line of any positive size, served on a
path that does not pass the permission check: refused, only the directories
of the path are made. -/
theorem serve_write_refused (fs : FS) (p : Path) (perm : Option (List Nat)) (n : Nat)
    (S : List Nat) (segs : List (List Nat)) (err : Bool)
    (hwf : wellFormed p perm = true) (hn0 : 0 < n)
    (hs : segs.flatten = WRITE_line p perm ++ SIZE_line n ++ S)
    (hc : passesCheck fs p = false) :
    (serve fs (connect segs err)).sock.output = bytes "ERROR: File is read-only\n" ∧
    (serve fs (connect segs err)).fs = ensure_directories posix fs p := by
  obtain ⟨sock1, saved, h1, h2, h3, h4, h5, h6⟩ :=
    handle_client_WRITE posix ⟨fs, connect segs err, []⟩ p perm (SIZE_line n ++ S) hwf
      (by rw [connect_stream, hs, List.append_assoc])
  obtain ⟨s1, s2⟩ := parse_size_pos sock1 n S hn0 h3
  obtain ⟨j1, j2⟩ := handle_write_refused ⟨fs, sock1, []⟩ p saved s1 s2
    ((passesCheck_false_iff fs p).1 hc)
  unfold serve
  rw [h1]
  exact ⟨by rw [j2, h5]; rfl, j1⟩

/-- A well-formed WRITE with the size line of any positive size, served on a
path that passes the permission check but whose data file cannot be opened:
nothing is sent, only the directories of the path are made. -/
theorem serve_write_unopened (fs : FS) (p : Path) (perm : Option (List Nat)) (n : Nat)
    (S : List Nat) (segs : List (List Nat)) (err : Bool)
    (hwf : wellFormed p perm = true) (hn0 : 0 < n)
    (hs : segs.flatten = WRITE_line p perm ++ SIZE_line n ++ S)
    (hc : passesCheck fs p = true) (ho : opensData fs p = false) :
    (serve fs (connect segs err)).sock.output = [] ∧
    (serve fs (connect segs err)).fs = ensure_directories posix fs p := by
  obtain ⟨sock1, saved, h1, h2, h3, h4, h5, h6⟩ :=
    handle_client_WRITE posix ⟨fs, connect segs err, []⟩ p perm (SIZE_line n ++ S) hwf
      (by rw [connect_stream, hs, List.append_assoc])
  obtain ⟨s1, s2⟩ := parse_size_pos sock1 n S hn0 h3
  obtain ⟨j1, j2⟩ := handle_write_unopened ⟨fs, sock1, []⟩ p saved s1 s2
    ((passesCheck_iff fs p).1 hc) (fopen_w_none _ _ ho)
  unfold serve
  rw [h1]
  exact ⟨by rw [j2, h5]; rfl, j1⟩

/-- A well-formed WRITE with the size line of a positive `long`, served on a
path that passes the permission check and whose data file opens. -/
theorem serve_write_accepted (fs : FS) (p : Path) (perm : Option (List Nat)) (n : Nat)
    (S : List Nat) (segs : List (List Nat)) (err : Bool)
    (hwf : wellFormed p perm = true) (hn0 : 0 < n) (hn : n < 2 ^ 63)
    (hs : segs.flatten = WRITE_line p perm ++ SIZE_line n ++ S)
    (hc : passesCheck fs p = true) (ho : opensData fs p = true) :
    ∃ t, resolve (ensure_directories posix fs p) (full_path p) = some t ∧
      t.dirOnly = false ∧ isDir (ensure_directories posix fs p) t.loc = false ∧
      (serve fs (connect segs err)).sock.output = bytes "OK\n" ∧
      (serve fs (connect segs err)).fs
        = (write_meta_file posix
            (put (ensure_directories posix fs p) t.loc
              (Node.file ((S.take n).map (fun b => b ^^^ XOR_KEY))))
            (full_path p) (permissionOf perm)).1 := by
  obtain ⟨sock1, saved, h1, h2, h3, h4, h5, h6⟩ :=
    handle_client_WRITE posix ⟨fs, connect segs err, []⟩ p perm (SIZE_line n ++ S) hwf
      (by rw [connect_stream, hs, List.append_assoc])
  obtain ⟨t, hr, hd, hnd⟩ := (opensData_iff fs p).1 ho
  obtain ⟨j1, j2, -⟩ := handle_write_accepted ⟨fs, sock1, []⟩ p saved n S t hn0 hn h3
    ((passesCheck_iff fs p).1 hc) hr hd hnd
  unfold serve
  rw [h1]
  refine ⟨t, hr, hd, hnd, by rw [j2, h5]; rfl, ?_⟩
  rw [j1, h2]

/-! ### The storage after an accepted WRITE -/

/-- The storage an accepted WRITE leaves: its data file holds the bytes
stored; its sidecar holds the permission when the sidecar could be opened,
and otherwise the permission of the path reads `W` from then on, whatever
directories are made; every other place is as it was. -/
theorem accepted_state (fs1 fsF : FS) (p : Path) (t : Target) (X : List Nat) (perm : Nat)
    (hr : resolve fs1 (full_path p) = some t) (hd : t.dirOnly = false)
    (hnd : isDir fs1 t.loc = false)
    (hF : fsF = (write_meta_file posix (put fs1 t.loc (Node.file X)) (full_path p) perm).1) :
    SameDirs fs1 fsF ∧
    nodeAt fsF t.loc = some (Node.file X) ∧
    fopen_r fsF (full_path p) = some (Handle.regular X) ∧
    ((fopen_w fs1 (meta_path (full_path p))).isSome = true →
      fopen_r fsF (meta_path (full_path p)) = some (Handle.regular [perm])) ∧
    ((fopen_w fs1 (meta_path (full_path p))).isSome = false →
      ∀ fs', Grows fsF fs' → read_meta_file posix fs' (full_path p) = 87) ∧
    (∀ l, l ≠ t.loc →
      (∀ tm, resolve fs1 (meta_path (full_path p)) = some tm → l ≠ tm.loc) →
      nodeAt fsF l = nodeAt fs1 l) := by
  have hl := ne_nil_of_not_isDir fs1 t.loc hnd
  have hsb : SameDirs fs1 (put fs1 t.loc (Node.file X)) := sameDirs_put_file fs1 t.loc X hnd
  obtain ⟨init, final, parent, hloc, hw, htok, hmeta⟩ :=
    resolve_meta fs1 fs1 rfl (full_path p) t hr hd
  have hmeta' := fun fs' hc => (resolve_meta fs1 fs' hc (full_path p) t hr hd)
  rw [hw] at hmeta
  simp only at hmeta
  rw [← meta_full_path] at hmeta
  by_cases hopen : (fopen_w fs1 (meta_path (full_path p))).isSome = true
  · -- the sidecar is written
    obtain ⟨tm, hrm, hdm, hndm⟩ := (fopen_w_isSome fs1 _).1 hopen
    have hlen : ¬ NAME_MAX < (final ++ bytes ".meta").length := by
      intro h
      rw [hrm, if_pos h] at hmeta
      exact absurd hmeta (by simp)
    rw [hrm, if_neg hlen] at hmeta
    simp only [Option.some.injEq] at hmeta
    have htl : tm.loc = parent ++ [final ++ bytes ".meta"] := by rw [hmeta]
    have hne : tm.loc ≠ t.loc := by
      rw [htl, hloc]
      exact snoc_meta_ne parent final
    have hlm := ne_nil_of_not_isDir fs1 tm.loc hndm
    have hndm' : isDir (put fs1 t.loc (Node.file X)) tm.loc = false := by
      rw [← hsb.2.2]; exact hndm
    have hrm' : resolve (put fs1 t.loc (Node.file X)) (meta_path (full_path p)) = some tm := by
      rw [← resolve_congr hsb]; exact hrm
    rw [write_meta_file_some _ _ perm tm hrm' hdm hndm'] at hF
    have hsF : SameDirs fs1 fsF := by
      rw [hF]
      exact sameDirs_trans hsb (sameDirs_put_file _ _ _ hndm')
    have hnT : nodeAt fsF t.loc = some (Node.file X) := by
      rw [hF, nodeAt_put _ _ _ _ hlm, if_neg (Ne.symm hne), nodeAt_put _ _ _ _ hl, if_pos rfl]
    have hnM : nodeAt fsF tm.loc = some (Node.file [perm]) := by
      rw [hF, nodeAt_put _ _ _ _ hlm, if_pos rfl]
    refine ⟨hsF, hnT, ?_, fun _ => ?_, fun h => ?_, fun l h1 h2 => ?_⟩
    · exact (fopen_r_regular fsF _ X).2 ⟨t, by rw [← resolve_congr hsF]; exact hr, hd, hnT⟩
    · exact (fopen_r_regular fsF _ [perm]).2
        ⟨tm, by rw [← resolve_congr hsF]; exact hrm, hdm, hnM⟩
    · rw [hopen] at h
      exact absurd h (by simp)
    · rw [hF, nodeAt_put _ _ _ _ hlm, if_neg (h2 tm hrm), nodeAt_put _ _ _ _ hl, if_neg h1]
  · -- the sidecar cannot be opened
    have hopen' : (fopen_w fs1 (meta_path (full_path p))).isSome = false := by
      cases hx : (fopen_w fs1 (meta_path (full_path p))).isSome with
      | false => rfl
      | true => exact absurd hx hopen
    have hopenb : fopen_w (put fs1 t.loc (Node.file X)) (meta_path (full_path p)) = none := by
      apply fopen_w_none
      rw [← fopen_w_isSome_congr hsb]
      exact hopen'
    rw [write_meta_file_none _ _ perm hopenb] at hF
    have hsF : SameDirs fs1 fsF := by rw [hF]; exact hsb
    have hnT : nodeAt fsF t.loc = some (Node.file X) := by
      rw [hF, nodeAt_put _ _ _ _ hl, if_pos rfl]
    refine ⟨hsF, hnT, ?_, fun h => ?_, fun _ fs' hg => ?_, fun l h1 _ => ?_⟩
    · exact (fopen_r_regular fsF _ X).2 ⟨t, by rw [← resolve_congr hsF]; exact hr, hd, hnT⟩
    · rw [hopen'] at h
      exact absurd h (by simp)
    · rcases read_meta_file_values fs' (full_path p) with h82 | h87
      · exfalso
        obtain ⟨c, hc⟩ := (read_meta_file_R fs' (full_path p)).1 h82
        obtain ⟨tm, hrm, hdm, hnm⟩ := (fopen_r_regular fs' _ _).1 hc
        have hcwd : fs1.cwd = fs'.cwd := hsF.1.trans hg.1
        obtain ⟨init', final', parent', hloc', hw', htok', hm'⟩ := hmeta' fs' hcwd
        have e1 : init' = init := List.append_inj_left' (htok'.symm.trans htok) rfl
        have e2 : final' = final := by
          have := List.append_inj_right' (htok'.symm.trans htok) rfl
          simpa using this
        subst e1 e2
        rw [← meta_full_path, hrm] at hm'
        cases hwx : walk fs' (if (full_path p).head? = some 47 then [] else fs1.cwd) init' with
        | none => rw [hwx] at hm'; exact absurd hm' (by simp)
        | some px =>
          rw [hwx] at hm'
          simp only at hm'
          by_cases hlen : NAME_MAX < (final' ++ bytes ".meta").length
          · rw [if_pos hlen] at hm'; exact absurd hm' (by simp)
          · rw [if_neg hlen] at hm'
            simp only [Option.some.injEq] at hm'
            have epx : px = parent := by
              rw [walk_det _ _ _ _ hwx, walk_det _ _ _ _ hw]
            subst epx
            rw [if_neg hlen] at hmeta
            -- on `fs1` the sidecar path resolves, so it names a directory there
            have hM : isDir fs1 (px ++ [final' ++ bytes ".meta"]) = true := by
              cases hx : isDir fs1 (px ++ [final' ++ bytes ".meta"]) with
              | true => rfl
              | false =>
                have := (fopen_w_isSome fs1 _).2 ⟨_, hmeta, rfl, hx⟩
                rw [hopen'] at this
                exact absurd this (by simp)
            have hMF : nodeAt fsF (px ++ [final' ++ bytes ".meta"]) = some Node.dir := by
              rw [← isDir_iff, ← hsF.2.2]; exact hM
            have := hg.2.2.1 _ _ hMF
            rw [hm'] at hnm
            simp only at hnm
            rw [this] at hnm
            exact absurd hnm (by simp)
      · exact h87
    · rw [hF, nodeAt_put _ _ _ _ hl, if_neg h1]

/-! ### GET and RM on the tree -/

/-- A well-formed GET served on a path that opens as a regular file. -/
theorem serve_get_regular (fs : FS) (p c : List Nat) (segs : List (List Nat)) (err : Bool)
    (hp : isToken p = true) (hlen : (GET_line p).length ≤ 1023)
    (hs : segs.flatten = GET_line p)
    (hc : fopen_r fs (full_path p) = some (Handle.regular c)) (hcl : c.length < 2 ^ 63) :
    (serve fs (connect segs err)).sock.output
      = SIZE_line c.length ++ c.map (fun b => b ^^^ XOR_KEY) ∧
    (serve fs (connect segs err)).fs = fs := by
  obtain ⟨sock1, h1, h3, h4, h5, h6⟩ :=
    handle_client_GET posix ⟨fs, connect segs err, []⟩ p [] hp hlen
      (by rw [connect_stream, hs, List.append_nil])
  obtain ⟨j1, j2⟩ := handle_get_regular posix { fs := fs, sock := sock1, trace := [] } p c hc hcl
  unfold serve
  rw [h1]
  refine ⟨?_, j2⟩
  rw [j1, h5]
  rfl

/-- A well-formed GET served on a path that cannot be opened. -/
theorem serve_get_missing (fs : FS) (p : List Nat) (segs : List (List Nat)) (err : Bool)
    (hp : isToken p = true) (hlen : (GET_line p).length ≤ 1023)
    (hs : segs.flatten = GET_line p)
    (hc : fopen_r fs (full_path p) = none) :
    (serve fs (connect segs err)).sock.output = bytes "ERROR\n" ∧
    (serve fs (connect segs err)).fs = fs := by
  obtain ⟨sock1, h1, h3, h4, h5, h6⟩ :=
    handle_client_GET posix ⟨fs, connect segs err, []⟩ p [] hp hlen
      (by rw [connect_stream, hs, List.append_nil])
  obtain ⟨j1, j2⟩ := handle_get_missing posix { fs := fs, sock := sock1, trace := [] } p hc
  unfold serve
  rw [h1]
  refine ⟨?_, j2⟩
  rw [j1, h5]
  rfl

/-- A well-formed RM served: refused on a path whose permission reads `R`,
answered `OK` when `remove` succeeds on the data file, after which the
sidecar is removed if it can be, and answered `ERROR` otherwise. -/
theorem serve_rm_cases (fs : FS) (p : List Nat) (segs : List (List Nat)) (err : Bool)
    (hp : isToken p = true) (hlen : (RM_line p).length ≤ 1023)
    (hs : segs.flatten = RM_line p) :
    (read_meta_file posix fs (full_path p) = 82 ∧
      (serve fs (connect segs err)).sock.output = bytes "ERROR\n" ∧
      (serve fs (connect segs err)).fs = fs) ∨
    (∃ fs1, remove fs (full_path p) = some fs1 ∧
      read_meta_file posix fs (full_path p) ≠ 82 ∧
      (serve fs (connect segs err)).sock.output = bytes "OK\n" ∧
      (serve fs (connect segs err)).fs = (remove fs1 (meta_path (full_path p))).getD fs1) ∨
    (remove fs (full_path p) = none ∧
      read_meta_file posix fs (full_path p) ≠ 82 ∧
      (serve fs (connect segs err)).sock.output = bytes "ERROR\n" ∧
      (serve fs (connect segs err)).fs = fs) := by
  obtain ⟨sock1, h1, h3, h4, h5, h6⟩ :=
    handle_client_RM posix ⟨fs, connect segs err, []⟩ p [] hp hlen
      (by rw [connect_stream, hs, List.append_nil])
  have hfp : snprintf 1024 (SERVER_ROOT ++ [47] ++ p) = full_path p := rfl
  have hmp : snprintf 1100 (full_path p ++ bytes ".meta") = meta_path (full_path p) := rfl
  have ho : sock1.output = [] := h5
  unfold serve
  rw [h1]
  unfold handle_rm
  simp only [hfp, hmp, World.log]
  by_cases h2 : read_meta_file posix fs (full_path p) = 82
  · left
    simp only [h2, if_true, World.close, World.send, send, ho, List.nil_append, and_self]
  · right
    simp only [h2, if_false, posix_remove]
    cases h3 : remove fs (full_path p) with
    | none =>
      right
      simp only [World.close, World.send, send, ho, List.nil_append, true_and, and_true]
      exact h2
    | some fs1 =>
      left
      exact ⟨fs1, rfl, h2, by simp only [World.close, World.send, send, ho, List.nil_append],
        rfl⟩

theorem remove_some (fs : FS) (s : Path) (fs1 : FS) (h : remove fs s = some fs1) :
    ∃ t, resolve fs s = some t ∧ t.dot = false ∧ fs1 = del fs t.loc ∧
      ((∃ c, nodeAt fs t.loc = some (Node.file c) ∧ t.dirOnly = false) ∨
        (nodeAt fs t.loc = some Node.dir ∧ hasEntries fs t.loc = false)) := by
  unfold remove at h
  cases hr : resolve fs s with
  | none => rw [hr] at h; exact absurd h (by simp)
  | some t =>
    rw [hr] at h
    simp only at h
    by_cases hdot : t.dot = true
    · rw [if_pos hdot] at h; exact absurd h (by simp)
    · rw [if_neg hdot] at h
      have hdot' : t.dot = false := by
        cases hx : t.dot with
        | false => rfl
        | true => exact absurd hx hdot
      cases hn : nodeAt fs t.loc with
      | none => rw [hn] at h; exact absurd h (by simp)
      | some n =>
        rw [hn] at h
        cases n with
        | file c =>
          simp only at h
          by_cases hd : t.dirOnly = true
          · rw [if_pos hd] at h; exact absurd h (by simp)
          · rw [if_neg hd] at h
            simp only [Option.some.injEq] at h
            have hd' : t.dirOnly = false := by
              cases hx : t.dirOnly with
              | false => rfl
              | true => exact absurd hx hd
            exact ⟨t, rfl, hdot', h.symm, Or.inl ⟨c, hn, hd'⟩⟩
        | dir =>
          simp only at h
          by_cases he : hasEntries fs t.loc = true
          · rw [if_pos he] at h; exact absurd h (by simp)
          · rw [if_neg he] at h
            simp only [Option.some.injEq] at h
            have he' : hasEntries fs t.loc = false := by
              cases hx : hasEntries fs t.loc with
              | false => rfl
              | true => exact absurd hx he
            exact ⟨t, rfl, hdot', h.symm, Or.inr ⟨hn, he'⟩⟩

/-- A regular file named by a path that does not end in a slash, in `.` or
in `..` can be removed. -/
theorem remove_file (fs : FS) (s : Path) (t : Target) (c : List Nat)
    (hr : resolve fs s = some t) (hdot : t.dot = false) (hd : t.dirOnly = false)
    (hn : nodeAt fs t.loc = some (Node.file c)) : remove fs s = some (del fs t.loc) := by
  unfold remove
  rw [hr]
  simp only [hdot, hn, hd, Bool.false_eq_true, if_false]

/-- What `remove` leaves: the same working directory, nothing that was not
there. -/
theorem remove_shrinks (fs : FS) (s : Path) (fs1 : FS) (h : remove fs s = some fs1) :
    fs1.cwd = fs.cwd ∧ fs1.dirSize = fs.dirSize ∧
      ∀ l n, nodeAt fs1 l = some n → nodeAt fs l = some n := by
  obtain ⟨t, -, -, hf, -⟩ := remove_some fs s fs1 h
  subst hf
  exact ⟨rfl, rfl, fun l n hx => nodeAt_del_some fs t.loc l n hx⟩

theorem remove_getD_shrinks (fs : FS) (s : Path) :
    ((remove fs s).getD fs).cwd = fs.cwd ∧ ((remove fs s).getD fs).dirSize = fs.dirSize ∧
      ∀ l n, nodeAt ((remove fs s).getD fs) l = some n → nodeAt fs l = some n := by
  cases h : remove fs s with
  | none => exact ⟨rfl, rfl, fun _ _ hx => hx⟩
  | some fs1 => exact remove_shrinks fs s fs1 h

theorem dot_of_dirOnly_false (fs : FS) (s : Path) (t : Target) (hr : resolve fs s = some t)
    (hd : t.dirOnly = false) : t.dot = false := by
  unfold resolve at hr
  by_cases hs : s = []
  · rw [if_pos hs] at hr; exact absurd hr (by simp)
  · rw [if_neg hs] at hr
    simp only at hr
    cases hw : walk fs (if s.head? = some 47 then [] else fs.cwd) (tokens [47] s).dropLast with
    | none => rw [hw] at hr; exact absurd hr (by simp)
    | some parent =>
      rw [hw] at hr
      simp only at hr
      cases hg : (tokens [47] s).getLast? with
      | none =>
        rw [hg] at hr
        simp only [Option.some.injEq] at hr
        rw [← hr] at hd
        exact absurd hd (by simp)
      | some final =>
        rw [hg] at hr
        simp only at hr
        by_cases hlen : NAME_MAX < final.length
        · rw [if_pos hlen] at hr; exact absurd hr (by simp)
        · rw [if_neg hlen] at hr
          simp only [Option.some.injEq] at hr
          rw [← hr] at hd ⊢
          simp only [Bool.or_eq_false_iff] at hd
          exact hd.1

theorem xor_length (l : List Nat) : (l.map (fun b => b ^^^ XOR_KEY)).length = l.length :=
  List.length_map l _

/-! ### Requests on a path whose record reads `R`, and on a path just written -/

theorem error_line (out : List Nat)
    (h : out = bytes "ERROR: File is read-only\n" ∨ out = bytes "ERROR\n") :
    bytes "ERROR" <+: out ∧ out.getLast? = some 10 := by
  rcases h with h | h <;> subst h
  · exact ⟨⟨bytes ": File is read-only\n", by decide⟩, by decide⟩
  · exact ⟨⟨bytes "\n", by decide⟩, by decide⟩

/-- On storage where the data file of `p` is a regular file and its sidecar
is a regular file that begins with `R`, a WRITE to `p` or an RM of `p` is
answered with an error line and leaves both files as they are. -/
theorem serve_mutation_refused (fs : FS) (p : Path) (D r : List Nat) (segs : List (List Nat))
    (err : Bool)
    (hdata : fopen_r fs (full_path p) = some (Handle.regular D))
    (hrec : fopen_r fs (meta_path (full_path p)) = some (Handle.regular (82 :: r)))
    (hreq : WriteTo p segs ∨ RmOf p segs) :
    ((serve fs (connect segs err)).sock.output = bytes "ERROR: File is read-only\n" ∨
      (serve fs (connect segs err)).sock.output = bytes "ERROR\n") ∧
    fopen_r (serve fs (connect segs err)).fs (full_path p) = some (Handle.regular D) ∧
    fopen_r (serve fs (connect segs err)).fs (meta_path (full_path p))
      = some (Handle.regular (82 :: r)) := by
  rcases hreq with ⟨perm, n, rest, hwf, hn0, hs⟩ | ⟨hp, hlen, hs⟩
  · have hg := ensure_directories_grows fs p
    have hc : passesCheck fs p = false :=
      (passesCheck_false_iff fs p).2
        ((read_meta_file_R _ _).2 ⟨r, fopen_r_grows hg _ _ hrec⟩)
    obtain ⟨h1, h2⟩ := serve_write_refused fs p perm n rest segs err hwf hn0 hs hc
    rw [h2]
    exact ⟨Or.inl h1, fopen_r_grows hg _ _ hdata, fopen_r_grows hg _ _ hrec⟩
  · have hR : read_meta_file posix fs (full_path p) = 82 := (read_meta_file_R _ _).2 ⟨r, hrec⟩
    rcases serve_rm_cases fs p segs err hp hlen hs with ⟨-, o, f⟩ | ⟨_, -, h, -⟩ | ⟨-, h, -⟩
    · rw [f]
      exact ⟨Or.inr o, hdata, hrec⟩
    · exact absurd hR h
    · exact absurd hR h

/-- Any number of WRITEs to `p` and RMs of `p` served in turn on such
storage. -/
theorem serveAll_refused (p : Path) (D r : List Nat) (reqs : List (List (List Nat) × Bool)) :
    ∀ (fs : FS), fopen_r fs (full_path p) = some (Handle.regular D) →
      fopen_r fs (meta_path (full_path p)) = some (Handle.regular (82 :: r)) →
      (∀ x ∈ reqs, WriteTo p x.1 ∨ RmOf p x.1) →
      (serveAll fs (reqs.map (fun x => connect x.1 x.2))).2.length = reqs.length ∧
      (∀ out ∈ (serveAll fs (reqs.map (fun x => connect x.1 x.2))).2,
        bytes "ERROR" <+: out ∧ out.getLast? = some 10) ∧
      fopen_r (serveAll fs (reqs.map (fun x => connect x.1 x.2))).1 (full_path p)
        = some (Handle.regular D) ∧
      fopen_r (serveAll fs (reqs.map (fun x => connect x.1 x.2))).1 (meta_path (full_path p))
        = some (Handle.regular (82 :: r)) := by
  induction reqs with
  | nil => intro fs hd hr _; simp [serveAll, hd, hr]
  | cons x rest ih =>
    intro fs hd hr hreqs
    obtain ⟨h1, h2, h3⟩ := serve_mutation_refused fs p D r x.1 x.2 hd hr
      (hreqs x (List.mem_cons_self _ _))
    obtain ⟨i1, i2, i3, i4⟩ := ih (serve fs (connect x.1 x.2)).fs h2 h3
      (fun y hy => hreqs y (List.mem_cons_of_mem _ hy))
    simp only [List.map_cons, serveAll, List.length_cons, List.mem_cons]
    refine ⟨by rw [i1], ?_, i3, i4⟩
    intro out hout
    rcases hout with hout | hout
    · rw [hout]; exact error_line _ h1
    · exact i2 out hout

/-- After an accepted WRITE the data file of the path opens again, and
unless `R` was stored the path passes the permission check again. -/
theorem accepted_again (fs1 fsF : FS) (p : Path) (t : Target) (X : List Nat) (perm : Nat)
    (hr : resolve fs1 (full_path p) = some t) (hd : t.dirOnly = false)
    (hnd : isDir fs1 t.loc = false)
    (hF : fsF = (write_meta_file posix (put fs1 t.loc (Node.file X)) (full_path p) perm).1) :
    opensData fsF p = true ∧ (perm ≠ 82 → passesCheck fsF p = true) := by
  obtain ⟨hs, hnT, -, hm1, hm2, -⟩ := accepted_state fs1 fsF p t X perm hr hd hnd hF
  have hg := ensure_directories_grows fsF p
  refine ⟨(opensData_iff fsF p).2 ⟨t, ?_, hd, ?_⟩, fun hperm => ?_⟩
  · exact grows_resolve hg _ _ (by rw [← resolve_congr hs]; exact hr)
  · rw [isDir_false_iff, hg.2.2.1 _ _ hnT]
    simp
  · rw [passesCheck_iff]
    cases ho : (fopen_w fs1 (meta_path (full_path p))).isSome with
    | true =>
      have := fopen_r_grows hg _ _ (hm1 ho)
      intro h82
      obtain ⟨c, hc⟩ := (read_meta_file_R _ _).1 h82
      rw [this] at hc
      simp only [Option.some.injEq, Handle.regular.injEq, List.cons.injEq] at hc
      exact hperm hc.1
    | false =>
      rw [hm2 ho _ hg]
      decide

/-- Claim C1, as amended (round trip): for every path whose WRITE passes the
permission check (the record read once the directories of the path are made
is absent or not `R`) and opens its data file, a WRITE of a payload of
`n > 0` bytes with declared size `n`, delivered in any segments, is answered
`OK` and stored as `xor_data` transforms it, and a following GET of the same
path, delivered in any segments, is answered with the size line of `n`
followed by exactly the payload. -/
theorem round_trip (fs : FS) (p : Path) (perm : Option (List Nat)) (payload : List Nat)
    (segsW segsG : List (List Nat)) (errW errG : Bool)
    (hwf : wellFormed p perm = true)
    (hcheck : passesCheck fs p = true) (hopen : opensData fs p = true)
    (hn0 : 0 < payload.length) (hn : payload.length < 2 ^ 63)
    (hW : segsW.flatten = WRITE_line p perm ++ SIZE_line payload.length ++ payload)
    (hG : segsG.flatten = GET_line p) :
    (serve fs (connect segsW errW)).sock.output = bytes "OK\n" ∧
    posix.fopen_r (serve fs (connect segsW errW)).fs (full_path p)
      = some (Handle.regular (xor_data payload payload.length)) ∧
    (serve (serve fs (connect segsW errW)).fs (connect segsG errG)).sock.output
      = SIZE_line payload.length ++ payload := by
  obtain ⟨t, hr, hd, hnd, o, f⟩ := serve_write_accepted fs p perm payload.length payload
    segsW errW hwf hn0 hn hW hcheck hopen
  rw [List.take_length] at f
  obtain ⟨-, -, hdata, -⟩ := accepted_state _ _ p t _ (permissionOf perm) hr hd hnd f
  obtain ⟨hp, hlen, -⟩ := wellFormed_GET p perm hwf
  obtain ⟨g1, -⟩ := serve_get_regular _ p _ segsG errG hp hlen hG hdata
    (by rw [xor_length]; exact hn)
  refine ⟨o, by rw [posix_fopen_r, hdata, xor_data_all], ?_⟩
  rw [g1, xor_length, map_xor_xor]

/-- The round trip of C1 at a payload of three bytes written to `d/x` on the
storage as `main` leaves it, the WRITE delivered in three segments that cut
the size line and the payload, the GET in two. -/
theorem round_trip_witness :
    (serve fresh (connect [bytes "WRITE d/x\n3", [10, 1], [2, 3]] false)).sock.output
      = bytes "OK\n" ∧
    posix.fopen_r (serve fresh (connect [bytes "WRITE d/x\n3", [10, 1], [2, 3]] false)).fs
        (full_path (bytes "d/x"))
      = some (Handle.regular (xor_data [1, 2, 3] 3)) ∧
    (serve (serve fresh (connect [bytes "WRITE d/x\n3", [10, 1], [2, 3]] false)).fs
        (connect [bytes "GE", bytes "T d/x\n"] false)).sock.output
      = SIZE_line 3 ++ [1, 2, 3] :=
  round_trip fresh (bytes "d/x") none [1, 2, 3] [bytes "WRITE d/x\n3", [10, 1], [2, 3]]
    [bytes "GE", bytes "T d/x\n"] false false (by decide) (by decide) (by decide) (by decide)
    (by decide) (by decide) (by decide)

/-- Claim C1 as stated fails.  On the storage as `main` leaves it the path
`.` has no permission record, yet a WRITE to it is not answered, because the
data file cannot be opened, and the GET that follows is answered with the
size of a directory and no payload.  With `d` stored as a regular file, the
path `d/x` has no permission record, a WRITE to it is not answered and the
GET is answered `ERROR`.  With `f` stored read-only, the sidecar of the path
`a/../f` cannot be opened as long as `a` is missing, so that its permission
reads `W`; the WRITE makes `a`, then reads `R` and is refused. -/
theorem round_trip_counterexample :
    (wellFormed (bytes ".") none = true ∧
      read_meta_file posix fresh (full_path (bytes ".")) = 87 ∧
      (serve fresh (connect [bytes "WRITE .\n3\nabc"] false)).sock.output = [] ∧
      (serve (serve fresh (connect [bytes "WRITE .\n3\nabc"] false)).fs
          (connect [bytes "GET .\n"] false)).sock.output = bytes "4096\n") ∧
    (wellFormed (bytes "d/x") none = true ∧
      (serve fresh (connect [bytes "WRITE d\n1\nz"] false)).sock.output = bytes "OK\n" ∧
      read_meta_file posix (serve fresh (connect [bytes "WRITE d\n1\nz"] false)).fs
        (full_path (bytes "d/x")) = 87 ∧
      (serve (serve fresh (connect [bytes "WRITE d\n1\nz"] false)).fs
          (connect [bytes "WRITE d/x\n3\nabc"] false)).sock.output = [] ∧
      (serve (serve (serve fresh (connect [bytes "WRITE d\n1\nz"] false)).fs
          (connect [bytes "WRITE d/x\n3\nabc"] false)).fs
          (connect [bytes "GET d/x\n"] false)).sock.output = bytes "ERROR\n") ∧
    (wellFormed (bytes "a/../f") none = true ∧
      (serve fresh (connect [bytes "WRITE f R\n1\nz"] false)).sock.output = bytes "OK\n" ∧
      read_meta_file posix (serve fresh (connect [bytes "WRITE f R\n1\nz"] false)).fs
        (full_path (bytes "a/../f")) = 87 ∧
      (serve (serve fresh (connect [bytes "WRITE f R\n1\nz"] false)).fs
          (connect [bytes "WRITE a/../f\n3\nabc"] false)).sock.output
        = bytes "ERROR: File is read-only\n" ∧
      (serve (serve (serve fresh (connect [bytes "WRITE f R\n1\nz"] false)).fs
          (connect [bytes "WRITE a/../f\n3\nabc"] false)).fs
          (connect [bytes "GET a/../f\n"] false)).sock.output = bytes "1\nz") := by
  decide

/-- Claim C7, as amended (short transfer): when a WRITE that passes the
permission check and opens its data file declares `n` bytes and the peer
closes the connection after `k < n` of them, the WRITE is answered `OK`, the
data file holds exactly the transform of the `k` bytes received, in order,
and a following GET is answered with the size line of `k` followed by exactly
those `k` bytes; the permission record holds the requested permission when
the sidecar can be opened for writing, and otherwise the permission of the
path reads `W`, whatever was requested. -/
theorem short_transfer (fs : FS) (p : Path) (perm : Option (List Nat)) (n : Nat)
    (received : List Nat) (segsW segsG : List (List Nat)) (errG : Bool)
    (hwf : wellFormed p perm = true)
    (hcheck : passesCheck fs p = true) (hopen : opensData fs p = true)
    (hk : received.length < n) (hn : n < 2 ^ 63)
    (hW : segsW.flatten = WRITE_line p perm ++ SIZE_line n ++ received)
    (hG : segsG.flatten = GET_line p) :
    (serve fs (connect segsW false)).sock.output = bytes "OK\n" ∧
    posix.fopen_r (serve fs (connect segsW false)).fs (full_path p)
      = some (Handle.regular (xor_data received received.length)) ∧
    (xor_data received received.length).length = received.length ∧
    (opensMeta fs p = true →
      posix.fopen_r (serve fs (connect segsW false)).fs (meta_path (full_path p))
        = some (Handle.regular [permissionOf perm])) ∧
    (opensMeta fs p = false →
      read_meta_file posix (serve fs (connect segsW false)).fs (full_path p) = 87) ∧
    (serve (serve fs (connect segsW false)).fs (connect segsG errG)).sock.output
      = SIZE_line received.length ++ received := by
  obtain ⟨t, hr, hd, hnd, o, f⟩ := serve_write_accepted fs p perm n received
    segsW false hwf (by omega) hn hW hcheck hopen
  rw [List.take_of_length_le (le_of_lt hk)] at f
  obtain ⟨-, -, hdata, hm1, hm2, -⟩ := accepted_state _ _ p t _ (permissionOf perm) hr hd hnd f
  obtain ⟨hp, hlen, -⟩ := wellFormed_GET p perm hwf
  obtain ⟨g1, -⟩ := serve_get_regular _ p _ segsG errG hp hlen hG hdata
    (by rw [xor_length]; omega)
  refine ⟨o, by rw [posix_fopen_r, hdata, xor_data_all],
    by rw [xor_data_all, xor_length], fun h => ?_, fun h => ?_, ?_⟩
  · rw [posix_fopen_r]
    exact hm1 h
  · exact hm2 h _ (grows_refl _)
  · rw [g1, xor_length, map_xor_xor]

/-- The short transfer of C7 at a WRITE of `d/f` with permission `R` that
declares five bytes and delivers two before the peer closes. -/
theorem short_transfer_witness :
    (serve fresh (connect [bytes "WRITE d/f R\n5\n", [1, 2]] false)).sock.output
      = bytes "OK\n" ∧
    posix.fopen_r (serve fresh (connect [bytes "WRITE d/f R\n5\n", [1, 2]] false)).fs
        (full_path (bytes "d/f"))
      = some (Handle.regular (xor_data [1, 2] [1, 2].length)) ∧
    posix.fopen_r (serve fresh (connect [bytes "WRITE d/f R\n5\n", [1, 2]] false)).fs
        (meta_path (full_path (bytes "d/f")))
      = some (Handle.regular [82]) ∧
    (serve (serve fresh (connect [bytes "WRITE d/f R\n5\n", [1, 2]] false)).fs
        (connect [bytes "GET d/f\n"] false)).sock.output
      = SIZE_line 2 ++ [1, 2] :=
  have h := short_transfer fresh (bytes "d/f") (some (bytes "R")) 5 [1, 2]
    [bytes "WRITE d/f R\n5\n", [1, 2]] [bytes "GET d/f\n"] false (by decide) (by decide)
    (by decide) (by decide) (by decide) (by decide) (by decide)
  ⟨h.1, h.2.1, h.2.2.2.1 (by decide), h.2.2.2.2.2⟩

/-- Claim C7 as stated fails.  On the storage as `main` leaves it a WRITE to
the path `.`, which has no permission record, that declares five bytes and
delivers two leaves no data file: it is not answered and the GET is answered
with the size of a directory.  And once a WRITE to `f.meta/x` has made
`f.meta` a directory, a WRITE to `f` with permission `R` that declares five
bytes and delivers two is answered `OK` and stores the two bytes, but the
permission record is not set: the sidecar path opens as a directory and the
permission of `f` reads `W`. -/
theorem short_transfer_counterexample :
    (wellFormed (bytes ".") none = true ∧
      read_meta_file posix fresh (full_path (bytes ".")) = 87 ∧
      (serve fresh (connect [bytes "WRITE .\n5\n", [1, 2]] false)).sock.output = [] ∧
      posix.fopen_r (serve fresh (connect [bytes "WRITE .\n5\n", [1, 2]] false)).fs
        (full_path (bytes ".")) = some (Handle.directory 4096) ∧
      (serve (serve fresh (connect [bytes "WRITE .\n5\n", [1, 2]] false)).fs
          (connect [bytes "GET .\n"] false)).sock.output = bytes "4096\n") ∧
    (wellFormed (bytes "f") (some (bytes "R")) = true ∧
      read_meta_file posix (serve fresh (connect [bytes "WRITE f.meta/x\n1\nz"] false)).fs
        (full_path (bytes "f")) = 87 ∧
      (serve (serve fresh (connect [bytes "WRITE f.meta/x\n1\nz"] false)).fs
          (connect [bytes "WRITE f R\n5\n", [1, 2]] false)).sock.output = bytes "OK\n" ∧
      posix.fopen_r (serve (serve fresh (connect [bytes "WRITE f.meta/x\n1\nz"] false)).fs
          (connect [bytes "WRITE f R\n5\n", [1, 2]] false)).fs (full_path (bytes "f"))
        = some (Handle.regular (xor_data [1, 2] 2)) ∧
      posix.fopen_r (serve (serve fresh (connect [bytes "WRITE f.meta/x\n1\nz"] false)).fs
          (connect [bytes "WRITE f R\n5\n", [1, 2]] false)).fs
          (meta_path (full_path (bytes "f")))
        = some (Handle.directory 4096) ∧
      read_meta_file posix (serve (serve fresh (connect [bytes "WRITE f.meta/x\n1\nz"] false)).fs
          (connect [bytes "WRITE f R\n5\n", [1, 2]] false)).fs (full_path (bytes "f")) = 87) := by
  decide

/-- Claim C2, as amended (read-only enforcement): after a WRITE to `p` with
permission `R` that passed the permission check, opened its data file and
could open its sidecar, on a connection the peer closes in order, the WRITE
is answered `OK`, and any WRITEs to `p`
(any permission argument, any positive declared size, any payload) and RMs
of `p` served next, with no request for another path in between, are each
answered with a line beginning with `ERROR` and leave the data file and the
permission record of `p` as the WRITE left them, so that a following GET of
`p` returns the content originally written. -/
theorem read_only_enforcement (fs : FS) (p : Path) (perm : Option (List Nat)) (n : Nat)
    (S : List Nat) (segsW segsG : List (List Nat)) (errG : Bool)
    (reqs : List (List (List Nat) × Bool))
    (hwf : wellFormed p perm = true) (hR : permissionOf perm = 82)
    (hcheck : passesCheck fs p = true) (hopen : opensData fs p = true)
    (hmeta : opensMeta fs p = true)
    (hn0 : 0 < n) (hn : n < 2 ^ 63)
    (hW : segsW.flatten = WRITE_line p perm ++ SIZE_line n ++ S)
    (hreqs : ∀ r ∈ reqs, WriteTo p r.1 ∨ RmOf p r.1)
    (hG : segsG.flatten = GET_line p) :
    (serve fs (connect segsW false)).sock.output = bytes "OK\n" ∧
    posix.fopen_r (serve fs (connect segsW false)).fs (full_path p)
      = some (Handle.regular (xor_data (S.take n) (S.take n).length)) ∧
    posix.fopen_r (serve fs (connect segsW false)).fs (meta_path (full_path p))
      = some (Handle.regular [82]) ∧
    (serveAll (serve fs (connect segsW false)).fs
        (reqs.map (fun r => connect r.1 r.2))).2.length = reqs.length ∧
    (∀ out ∈ (serveAll (serve fs (connect segsW false)).fs
        (reqs.map (fun r => connect r.1 r.2))).2,
      bytes "ERROR" <+: out ∧ out.getLast? = some 10) ∧
    posix.fopen_r (serveAll (serve fs (connect segsW false)).fs
        (reqs.map (fun r => connect r.1 r.2))).1 (full_path p)
      = some (Handle.regular (xor_data (S.take n) (S.take n).length)) ∧
    posix.fopen_r (serveAll (serve fs (connect segsW false)).fs
        (reqs.map (fun r => connect r.1 r.2))).1 (meta_path (full_path p))
      = some (Handle.regular [82]) ∧
    (serve (serveAll (serve fs (connect segsW false)).fs
        (reqs.map (fun r => connect r.1 r.2))).1 (connect segsG errG)).sock.output
      = SIZE_line (S.take n).length ++ S.take n := by
  obtain ⟨t, hr, hd, hnd, o, f⟩ := serve_write_accepted fs p perm n S segsW false hwf hn0 hn hW
    hcheck hopen
  rw [hR] at f
  obtain ⟨-, -, hdata, hm1, -⟩ := accepted_state _ _ p t _ 82 hr hd hnd f
  have hrec := hm1 hmeta
  obtain ⟨i1, i2, i3, i4⟩ := serveAll_refused p _ [] reqs _ hdata hrec hreqs
  obtain ⟨hp, hlen, -⟩ := wellFormed_GET p perm hwf
  have hl : (S.take n).length < 2 ^ 63 := by
    have := List.length_take_le n S
    omega
  obtain ⟨g1, -⟩ := serve_get_regular _ p _ segsG errG hp hlen hG i3
    (by rw [xor_length]; exact hl)
  refine ⟨o, by rw [posix_fopen_r, hdata, xor_data_all], hrec, i1, i2,
    by rw [posix_fopen_r, i3, xor_data_all], i4, ?_⟩
  rw [g1, xor_length, map_xor_xor]

/-- The enforcement of C2 at a file `d/f` written with `R`, then a WRITE with
`W` and an RM, then a GET. -/
theorem read_only_enforcement_witness :
    (serve fresh (connect [bytes "WRITE d/f R\n2\n", [1, 2]] false)).sock.output
      = bytes "OK\n" ∧
    (∀ out ∈ (serveAll (serve fresh (connect [bytes "WRITE d/f R\n2\n", [1, 2]] false)).fs
        ([([bytes "WRITE d/f W\n1\n", [9]], false), ([bytes "RM d/f\n"], false)].map
          (fun r => connect r.1 r.2))).2,
      bytes "ERROR" <+: out ∧ out.getLast? = some 10) ∧
    (serve (serveAll (serve fresh (connect [bytes "WRITE d/f R\n2\n", [1, 2]] false)).fs
        ([([bytes "WRITE d/f W\n1\n", [9]], false), ([bytes "RM d/f\n"], false)].map
          (fun r => connect r.1 r.2))).1 (connect [bytes "GET d/f\n"] false)).sock.output
      = SIZE_line ([1, 2].take 2).length ++ [1, 2].take 2 :=
  have h := read_only_enforcement fresh (bytes "d/f") (some (bytes "R")) 2 [1, 2]
    [bytes "WRITE d/f R\n2\n", [1, 2]] [bytes "GET d/f\n"] false
    [([bytes "WRITE d/f W\n1\n", [9]], false), ([bytes "RM d/f\n"], false)]
    (by decide) (by decide) (by decide) (by decide) (by decide) (by decide) (by decide)
    (by decide)
    (fun r hr => by
      simp only [List.mem_cons, List.mem_singleton, List.not_mem_nil, or_false] at hr
      rcases hr with rfl | rfl
      · exact Or.inl ⟨some (bytes "W"), 1, [9], by decide, by decide, by decide⟩
      · exact Or.inr ⟨by decide, by decide, by decide⟩)
    (by decide)
  ⟨h.1, h.2.2.2.2.1, h.2.2.2.2.2.2.2⟩

/-- Claim C2 as stated fails.  Once a WRITE to `f.meta/x` has made `f.meta` a
directory, a WRITE to `f` with permission `R` is answered `OK` but writes no
record, its failure to open the sidecar being ignored: the next WRITE to `f`
is answered `OK` and replaces the content, and the RM after it is answered
`OK`.  And on the storage as `main` leaves it, after `g` is stored with
permission `R`, an RM of the path `g.meta` is answered `OK` and removes the
record, after which a WRITE to `g` is answered `OK` and replaces the
content. -/
theorem read_only_enforcement_counterexample :
    ((serve (serve fresh (connect [bytes "WRITE f.meta/x\n1\nz"] false)).fs
        (connect [bytes "WRITE f R\n1\na"] false)).sock.output = bytes "OK\n" ∧
      (serveAll fresh [connect [bytes "WRITE f.meta/x\n1\nz"] false,
        connect [bytes "WRITE f R\n1\na"] false, connect [bytes "WRITE f W\n1\nb"] false,
        connect [bytes "GET f\n"] false, connect [bytes "RM f\n"] false]).2
        = [bytes "OK\n", bytes "OK\n", bytes "OK\n", bytes "1\nb", bytes "OK\n"]) ∧
    (serveAll fresh [connect [bytes "WRITE g R\n1\na"] false,
        connect [bytes "WRITE g W\n1\nb"] false, connect [bytes "RM g.meta\n"] false,
        connect [bytes "WRITE g W\n1\nb"] false, connect [bytes "GET g\n"] false]).2
      = [bytes "OK\n", bytes "ERROR: File is read-only\n", bytes "OK\n", bytes "OK\n",
          bytes "1\nb"] := by
  decide

/-- Claim C5, as amended (permission overwrite): on a path that passes the
permission check and whose data file opens, a WRITE of `a` with permission
`W` is answered `OK`, and so is a second WRITE of `b` with permission `R`;
the data file then holds exactly the transform of `b`, whatever the length
of `a`, and a GET returns exactly `b`.  When the second WRITE can open the
sidecar, the permission record becomes `R`, and a third WRITE to the path or
RM of it, served next, is answered with a line beginning with `ERROR` and
leaves the data file and the record as they are. -/
theorem permission_overwrite (fs : FS) (p : Path) (permW permR : Option (List Nat))
    (a b : List Nat) (segsA segsB segsG segs3 : List (List Nat)) (errA errB errG err3 : Bool)
    (hwfW : wellFormed p permW = true) (hW : permissionOf permW = 87)
    (hwfR : wellFormed p permR = true) (hR : permissionOf permR = 82)
    (hcheck : passesCheck fs p = true) (hopen : opensData fs p = true)
    (ha0 : 0 < a.length) (ha : a.length < 2 ^ 63)
    (hb0 : 0 < b.length) (hb : b.length < 2 ^ 63)
    (hA : segsA.flatten = WRITE_line p permW ++ SIZE_line a.length ++ a)
    (hB : segsB.flatten = WRITE_line p permR ++ SIZE_line b.length ++ b)
    (hG : segsG.flatten = GET_line p)
    (h3 : WriteTo p segs3 ∨ RmOf p segs3) :
    (serve fs (connect segsA errA)).sock.output = bytes "OK\n" ∧
    (serve (serve fs (connect segsA errA)).fs (connect segsB errB)).sock.output = bytes "OK\n" ∧
    posix.fopen_r (serve (serve fs (connect segsA errA)).fs (connect segsB errB)).fs
        (full_path p) = some (Handle.regular (xor_data b b.length)) ∧
    (serve (serve (serve fs (connect segsA errA)).fs (connect segsB errB)).fs
        (connect segsG errG)).sock.output = SIZE_line b.length ++ b ∧
    (opensMeta (serve fs (connect segsA errA)).fs p = true →
      posix.fopen_r (serve (serve fs (connect segsA errA)).fs (connect segsB errB)).fs
          (meta_path (full_path p)) = some (Handle.regular [82]) ∧
      (bytes "ERROR" <+: (serve (serve (serve fs (connect segsA errA)).fs
          (connect segsB errB)).fs (connect segs3 err3)).sock.output) ∧
      posix.fopen_r (serve (serve (serve fs (connect segsA errA)).fs (connect segsB errB)).fs
          (connect segs3 err3)).fs (full_path p)
        = some (Handle.regular (xor_data b b.length)) ∧
      posix.fopen_r (serve (serve (serve fs (connect segsA errA)).fs (connect segsB errB)).fs
          (connect segs3 err3)).fs (meta_path (full_path p))
        = some (Handle.regular [82])) := by
  obtain ⟨tA, hrA, hdA, hndA, oA, fA⟩ := serve_write_accepted fs p permW a.length a segsA errA
    hwfW ha0 ha hA hcheck hopen
  rw [hW] at fA
  obtain ⟨hopenA, hcheckA⟩ := accepted_again _ _ p tA _ 87 hrA hdA hndA fA
  obtain ⟨tB, hrB, hdB, hndB, oB, fB⟩ := serve_write_accepted _ p permR b.length b segsB errB
    hwfR hb0 hb hB (hcheckA (by decide)) hopenA
  rw [hR, List.take_length] at fB
  obtain ⟨-, -, hdata, hm1, -⟩ := accepted_state _ _ p tB _ 82 hrB hdB hndB fB
  obtain ⟨hp, hlen, -⟩ := wellFormed_GET p permR hwfR
  obtain ⟨g1, -⟩ := serve_get_regular _ p _ segsG errG hp hlen hG hdata
    (by rw [xor_length]; exact hb)
  refine ⟨oA, oB, by rw [posix_fopen_r, hdata, xor_data_all], ?_, fun hmeta => ?_⟩
  · rw [g1, xor_length, map_xor_xor]
  · have hrec := hm1 hmeta
    obtain ⟨r1, r2, r3⟩ := serve_mutation_refused _ p _ [] segs3 err3 hdata hrec h3
    exact ⟨hrec, (error_line _ r1).1, by rw [posix_fopen_r, r2, xor_data_all], r3⟩

/-- The overwrite of C5 at a WRITE of three bytes with `W`, a WRITE of one
byte with `R`, and an RM. -/
theorem permission_overwrite_witness :
    (serve (serve fresh (connect [bytes "WRITE d/f W\n3\n", [1, 2, 3]] false)).fs
        (connect [bytes "WRITE d/f R\n1\n", [7]] false)).sock.output = bytes "OK\n" ∧
    posix.fopen_r (serve (serve fresh (connect [bytes "WRITE d/f W\n3\n", [1, 2, 3]] false)).fs
        (connect [bytes "WRITE d/f R\n1\n", [7]] false)).fs (full_path (bytes "d/f"))
      = some (Handle.regular (xor_data [7] [7].length)) ∧
    (bytes "ERROR" <+: (serve (serve (serve fresh
        (connect [bytes "WRITE d/f W\n3\n", [1, 2, 3]] false)).fs
        (connect [bytes "WRITE d/f R\n1\n", [7]] false)).fs
        (connect [bytes "RM d/f\n"] false)).sock.output) :=
  have h := permission_overwrite fresh (bytes "d/f") (some (bytes "W")) (some (bytes "R"))
    [1, 2, 3] [7] [bytes "WRITE d/f W\n3\n", [1, 2, 3]] [bytes "WRITE d/f R\n1\n", [7]]
    [bytes "GET d/f\n"] [bytes "RM d/f\n"] false false false false
    (by decide) (by decide) (by decide) (by decide) (by decide) (by decide) (by decide)
    (by decide) (by decide) (by decide) (by decide) (by decide) (by decide)
    (Or.inr ⟨by decide, by decide, by decide⟩)
  ⟨h.2.1, h.2.2.1, (h.2.2.2.2 (by decide)).2.1⟩

/-- Claim C5 as stated fails.  Once a WRITE to `f.meta/x` has made `f.meta` a
directory, a WRITE of three bytes to `f` with permission `W` and a second of
one byte with permission `R` are both answered `OK` and the content becomes
the one byte, but the permission record does not become `R`: the sidecar
path opens as a directory, the permission of `f` reads `W`, and a third
WRITE and an RM are both answered `OK`. -/
theorem permission_overwrite_counterexample :
    (serveAll fresh [connect [bytes "WRITE f.meta/x\n1\nz"] false,
        connect [bytes "WRITE f W\n3\nabc"] false, connect [bytes "WRITE f R\n1\nd"] false,
        connect [bytes "GET f\n"] false]).2
      = [bytes "OK\n", bytes "OK\n", bytes "OK\n", bytes "1\nd"] ∧
    posix.fopen_r (serveAll fresh [connect [bytes "WRITE f.meta/x\n1\nz"] false,
        connect [bytes "WRITE f W\n3\nabc"] false, connect [bytes "WRITE f R\n1\nd"] false]).1
        (meta_path (full_path (bytes "f"))) = some (Handle.directory 4096) ∧
    read_meta_file posix (serveAll fresh [connect [bytes "WRITE f.meta/x\n1\nz"] false,
        connect [bytes "WRITE f W\n3\nabc"] false, connect [bytes "WRITE f R\n1\nd"] false]).1
        (full_path (bytes "f")) = 87 ∧
    (serveAll fresh [connect [bytes "WRITE f.meta/x\n1\nz"] false,
        connect [bytes "WRITE f W\n3\nabc"] false, connect [bytes "WRITE f R\n1\nd"] false,
        connect [bytes "WRITE f W\n1\ne"] false, connect [bytes "RM f\n"] false]).2
      = [bytes "OK\n", bytes "OK\n", bytes "OK\n", bytes "OK\n", bytes "OK\n"] := by
  decide

theorem hasEntries_of_node (fs : FS) (l : Loc) (c : Name) (n : Node)
    (h : nodeAt fs (l ++ [c]) = some n) : hasEntries fs l = true := by
  have hne : l ++ [c] ≠ [] := by simp
  have hl : lookupNode fs.nodes (l ++ [c]) = some n := by
    simpa [nodeAt, hne] using h
  unfold hasEntries
  rw [List.any_eq_true]
  exact ⟨(l ++ [c], n), lookupNode_mem _ _ _ hl, by simp⟩

/-- After an RM answered `OK` no record that reads `R` is left for a WRITE
to the same path to find, also once the WRITE has made the directories of
the path again. -/
theorem rm_leaves_no_record (fs fs1 fs' : FS) (p : Path)
    (hperm : read_meta_file posix fs (full_path p) ≠ 82)
    (hrem : remove fs (full_path p) = some fs1)
    (hfs' : fs' = (remove fs1 (meta_path (full_path p))).getD fs1) :
    passesCheck fs' p = true := by
  obtain ⟨tf, hrf, hdotf, hfs1, hkind⟩ := remove_some fs _ fs1 hrem
  obtain ⟨hs, init, final, parent, htok, hfd, hlenf, hw, hloc, hdo⟩ :=
    resolve_split fs _ tf hrf hdotf
  obtain ⟨c1, -, n1⟩ := remove_shrinks _ _ _ hrem
  obtain ⟨c2, -, n2⟩ := remove_getD_shrinks fs1 (meta_path (full_path p))
  rw [← hfs'] at c2 n2
  have hg := ensure_directories_grows fs' p
  have hcwd : fs.cwd = (ensure_directories posix fs' p).cwd := (c1.symm.trans c2.symm).trans hg.1
  rw [passesCheck_iff]
  intro h82
  obtain ⟨c, hc⟩ := (read_meta_file_R _ _).1 h82
  obtain ⟨tm, hrm, hdm, hnm⟩ := (fopen_r_regular _ _ _).1 hc
  have hnfs : nodeAt fs tm.loc = some (Node.file (82 :: c)) :=
    n1 _ _ (n2 _ _ (hg.2.2.2 _ _ hnm))
  -- the sidecar path did not resolve when the RM read the permission
  have hnone : resolve fs (meta_path (full_path p)) = none := by
    cases hx : resolve fs (meta_path (full_path p)) with
    | none => rfl
    | some tm' =>
      have e := resolve_det fs _ hcwd _ _ _ hx hrm
      subst e
      exact absurd ((read_meta_file_R _ _).2 ⟨c, (fopen_r_regular _ _ _).2 ⟨_, hx, hdm, hnfs⟩⟩)
        hperm
  rw [meta_full_path] at hnone hrm
  cases hd : tf.dirOnly with
  | false =>
    -- the path names a file: its sidecar has too long a name, on every tree
    have hl : (full_path p).getLast? ≠ some 47 := by
      intro h
      rw [hd, h] at hdo
      simp at hdo
    have hm := resolve_meta_tokens fs _ init final hs htok hl
    rw [hw, hnone] at hm
    simp only at hm
    have hlong : NAME_MAX < (final ++ bytes ".meta").length := by
      by_contra hx
      rw [if_neg hx] at hm
      exact absurd hm (by simp)
    have hm3 := resolve_meta_tokens (ensure_directories posix fs' p) _ init final hs htok hl
    rw [hrm] at hm3
    cases hwx : walk (ensure_directories posix fs' p)
        (if (full_path p).head? = some 47 then []
          else (ensure_directories posix fs' p).cwd) init with
    | none => rw [hwx] at hm3; exact absurd hm3 (by simp)
    | some px =>
      rw [hwx] at hm3
      simp only at hm3
      rw [if_pos hlong] at hm3
      exact absurd hm3 (by simp)
  | true =>
    -- the path names a directory, removed because it was empty
    have hl : (full_path p).getLast? = some 47 := by
      rw [hd] at hdo
      simpa using hdo.symm
    have he : hasEntries fs tf.loc = false := by
      rcases hkind with ⟨_, -, h⟩ | ⟨-, h⟩
      · rw [hd] at h; exact absurd h (by simp)
      · exact h
    have hm3 := resolve_meta_slash (ensure_directories posix fs' p) _ hs hl
    rw [hrm, htok, ← hcwd] at hm3
    cases hwx : walk (ensure_directories posix fs' p)
        (if (full_path p).head? = some 47 then [] else fs.cwd) (init ++ [final]) with
    | none => rw [hwx] at hm3; exact absurd hm3 (by simp)
    | some px =>
      rw [hwx] at hm3
      simp only [Option.some.injEq] at hm3
      have epx : px = tf.loc := by
        rw [walk_det _ _ _ _ hwx, List.foldl_append, ← walk_det _ _ _ _ hw, hloc]
        simp only [List.foldl_cons, List.foldl_nil]
        exact step_plain _ _ hfd
      rw [hm3, epx] at hnfs
      simp only at hnfs
      have := hasEntries_of_node fs tf.loc _ _ hnfs
      rw [he] at this
      exact absurd this (by simp)

/-- Claim C4, as amended (RM deletes both artifacts): when an RM of `p` is
answered `OK`, the data file of `p` can no longer be opened and its sidecar
path no longer opens as a regular file, so that the permission of `p` reads
`W` and a following GET of `p` is answered `ERROR`; a following WRITE to
`p`, with any permission argument and any positive declared size, on a
connection the peer closes in order, passes the
permission check, and it is answered `OK` and stores its bytes, and its
permission when the sidecar can be opened, exactly when its data file can be
opened; when it cannot, the WRITE is not answered. -/
theorem rm_deletes_both (fs : FS) (p : Path) (perm : Option (List Nat)) (n : Nat) (S : List Nat)
    (segsR segsG segsW : List (List Nat)) (errR errG : Bool)
    (hwf : wellFormed p perm = true) (hn0 : 0 < n) (hn : n < 2 ^ 63)
    (hR : segsR.flatten = RM_line p)
    (hok : (serve fs (connect segsR errR)).sock.output = bytes "OK\n")
    (hG : segsG.flatten = GET_line p)
    (hW : segsW.flatten = WRITE_line p perm ++ SIZE_line n ++ S) :
    posix.fopen_r (serve fs (connect segsR errR)).fs (full_path p) = none ∧
    (∀ c, posix.fopen_r (serve fs (connect segsR errR)).fs (meta_path (full_path p))
      ≠ some (Handle.regular c)) ∧
    read_meta_file posix (serve fs (connect segsR errR)).fs (full_path p) = 87 ∧
    (serve (serve fs (connect segsR errR)).fs (connect segsG errG)).sock.output
      = bytes "ERROR\n" ∧
    passesCheck (serve fs (connect segsR errR)).fs p = true ∧
    (opensData (serve fs (connect segsR errR)).fs p = true →
      (serve (serve fs (connect segsR errR)).fs (connect segsW false)).sock.output
        = bytes "OK\n" ∧
      posix.fopen_r (serve (serve fs (connect segsR errR)).fs (connect segsW false)).fs
          (full_path p)
        = some (Handle.regular (xor_data (S.take n) (S.take n).length)) ∧
      (opensMeta (serve fs (connect segsR errR)).fs p = true →
        posix.fopen_r (serve (serve fs (connect segsR errR)).fs (connect segsW false)).fs
            (meta_path (full_path p))
          = some (Handle.regular [permissionOf perm]))) ∧
    (opensData (serve fs (connect segsR errR)).fs p = false →
      (serve (serve fs (connect segsR errR)).fs (connect segsW false)).sock.output = []) := by
  obtain ⟨hp, hlenG, hlenR⟩ := wellFormed_GET p perm hwf
  rcases serve_rm_cases fs p segsR errR hp hlenR hR with ⟨-, o, -⟩ | ⟨fs1, hrem, hperm, -, f⟩ |
    ⟨-, -, o, -⟩
  · rw [o] at hok; exact absurd hok (by decide)
  rotate_left
  · rw [o] at hok; exact absurd hok (by decide)
  generalize (serve fs (connect segsR errR)).fs = fs' at f ⊢
  obtain ⟨tf, hrf, hdotf, hfs1, hkind⟩ := remove_some fs _ fs1 hrem
  obtain ⟨hs, init, final, parent, htok, hfd, hlenf, hw, hloc, hdo⟩ :=
    resolve_split fs _ tf hrf hdotf
  have hT : tf.loc ≠ [] := by rw [hloc]; simp
  obtain ⟨c1, -, n1⟩ := remove_shrinks _ _ _ hrem
  obtain ⟨c2, -, n2⟩ := remove_getD_shrinks fs1 (meta_path (full_path p))
  rw [← f] at c2 n2
  have hT1 : nodeAt fs1 tf.loc = none := by
    rw [hfs1, nodeAt_del _ _ _ hT, if_pos rfl]
  have hT' : nodeAt fs' tf.loc = none := by
    cases hx : nodeAt fs' tf.loc with
    | none => rfl
    | some x =>
      rw [n2 _ _ hx] at hT1
      exact absurd hT1 (by simp)
  -- the data file cannot be opened
  have hdata : fopen_r fs' (full_path p) = none := by
    unfold fopen_r
    cases hx : resolve fs' (full_path p) with
    | none => rfl
    | some t' =>
      have e := resolve_det fs fs' (c1.symm.trans c2.symm) _ _ _ hrf hx
      subst e
      simp only [hT']
  -- the sidecar path does not open as a regular file
  have hside : ∀ c, fopen_r fs' (meta_path (full_path p)) ≠ some (Handle.regular c) := by
    intro c hc
    obtain ⟨tm, hrm, hdm, hnm⟩ := (fopen_r_regular _ _ _).1 hc
    have hlm := ne_nil_of_nodeAt_file _ _ _ hnm
    cases hx : remove fs1 (meta_path (full_path p)) with
    | none =>
      rw [hx, Option.getD_none] at f
      subst f
      rw [remove_file fs' _ tm c hrm (dot_of_dirOnly_false _ _ _ hrm hdm) hdm hnm] at hx
      exact absurd hx (by simp)
    | some fs2 =>
      rw [hx, Option.getD_some] at f
      subst f
      obtain ⟨t2, hr2, -, hf2, -⟩ := remove_some _ _ _ hx
      have e := resolve_det fs1 fs' c2.symm _ _ _ hr2 hrm
      subst e
      rw [hf2, nodeAt_del _ _ _ hlm, if_pos rfl] at hnm
      exact absurd hnm (by simp)
  have hread : read_meta_file posix fs' (full_path p) = 87 := by
    rcases read_meta_file_values fs' (full_path p) with h | h
    · obtain ⟨c, hc⟩ := (read_meta_file_R _ _).1 h
      exact absurd hc (hside _)
    · exact h
  obtain ⟨g1, -⟩ := serve_get_missing fs' p segsG errG hp hlenG hG hdata
  have hpass := rm_leaves_no_record fs fs1 fs' p hperm hrem f
  refine ⟨hdata, hside, hread, g1, hpass, fun ho => ?_, fun ho => ?_⟩
  · obtain ⟨t, hr, hd, hnd, o, fw⟩ := serve_write_accepted fs' p perm n S segsW false hwf hn0 hn
      hW hpass ho
    obtain ⟨-, -, hd1, hm1, -⟩ := accepted_state _ _ p t _ (permissionOf perm) hr hd hnd fw
    exact ⟨o, by rw [posix_fopen_r, hd1, xor_data_all], fun hm => hm1 hm⟩
  · exact (serve_write_unopened fs' p perm n S segsW false hwf hn0 hW hpass ho).1

/-- The removal of C4 at a file `d/f` stored with two bytes, removed, then
read and written again with permission `R`. -/
theorem rm_deletes_both_witness :
    (serve (serve fresh (connect [bytes "WRITE d/f\n2\nhi"] false)).fs
        (connect [bytes "RM d/f\n"] false)).sock.output = bytes "OK\n" ∧
    posix.fopen_r (serve (serve fresh (connect [bytes "WRITE d/f\n2\nhi"] false)).fs
        (connect [bytes "RM d/f\n"] false)).fs (full_path (bytes "d/f")) = none ∧
    (serve (serve (serve fresh (connect [bytes "WRITE d/f\n2\nhi"] false)).fs
        (connect [bytes "RM d/f\n"] false)).fs (connect [bytes "GET d/f\n"] false)).sock.output
      = bytes "ERROR\n" ∧
    (serve (serve (serve fresh (connect [bytes "WRITE d/f\n2\nhi"] false)).fs
        (connect [bytes "RM d/f\n"] false)).fs
        (connect [bytes "WRITE d/f R\n1\n", [7]] false)).sock.output = bytes "OK\n" :=
  have h := rm_deletes_both (serve fresh (connect [bytes "WRITE d/f\n2\nhi"] false)).fs
    (bytes "d/f") (some (bytes "R")) 1 [7] [bytes "RM d/f\n"] [bytes "GET d/f\n"]
    [bytes "WRITE d/f R\n1\n", [7]]
    false false (by decide) (by decide) (by decide) (by decide) (by decide) (by decide)
    (by decide)
  ⟨by decide, h.1, h.2.2.2.1, (h.2.2.2.2.2.1 (by decide)).1⟩

/-- Claim C4 as stated fails.  After `d/x` has been written and removed, `d`
is an empty directory: an RM of the path `d/` is answered `OK`, and the WRITE
to `d/` that follows is not answered, because `d/` cannot be opened as a
file.  Likewise, with `X.meta` stored and `X` an empty directory, an RM of
the path `X/../X` is answered `OK`; it removes the directory but not the
file `X.meta`, whose path no longer resolves, and the WRITE to `X/../X` that
follows makes the directory again and is not answered. -/
theorem rm_deletes_both_counterexample :
    (wellFormed (bytes "d/") none = true ∧
      (serveAll fresh [connect [bytes "WRITE d/x\n1\nz"] false,
        connect [bytes "RM d/x\n"] false, connect [bytes "RM d/\n"] false,
        connect [bytes "WRITE d/\n1\nz"] false]).2
        = [bytes "OK\n", bytes "OK\n", bytes "OK\n", []]) ∧
    (wellFormed (bytes "X/../X") none = true ∧
      (serveAll fresh [connect [bytes "WRITE X.meta\n1\nz"] false,
        connect [bytes "WRITE X/y\n1\nz"] false, connect [bytes "RM X/y\n"] false,
        connect [bytes "RM X/../X\n"] false, connect [bytes "WRITE X/../X\n1\nz"] false]).2
        = [bytes "OK\n", bytes "OK\n", bytes "OK\n", bytes "OK\n", []] ∧
      nodeAt (serveAll fresh [connect [bytes "WRITE X.meta\n1\nz"] false,
        connect [bytes "WRITE X/y\n1\nz"] false, connect [bytes "RM X/y\n"] false,
        connect [bytes "RM X/../X\n"] false]).1
          [bytes "srv", bytes "server_root", bytes "X.meta"] = some (Node.file [208])) := by
  decide

end Server
